import Mathlib

/-!
# Verification of the B-link tree of `Bookstore-System` (`src/include/blinktree.h`)

The repository ships the interface of a disk-backed B-link tree
(`StarryPurple::BLinkTree` in `src/include/blinktree.h`): a multimap from keys
to sorted singly-linked value lists, with node fan-out bound `degree`,
routing operations `upper_bound_route` / `lower_bound_route`, `insert`,
`find`, `erase`, the rebalancing primitives `split`, `merge`,
`move_from_left`, `move_from_right`, and file-backed persistence via
`open` / `close`.

Only the declarations and documentation comments of these operations are part
of the sources (`blinktree.h` is a pure interface file; the definition file is
not in the tree), so the behaviour of each operation is modelled from the
specification, while the node layout (`MapNode` with its three parallel
`degree + 1`-slot arrays) is taken from the header itself.

Keys and values are modelled as natural numbers (the tree is generic in
`KeyType` / `ValueType`; it only uses their strict order `operator<`).
Machine pointers (`fpointer` file offsets) are modelled as natural-number
handles.  A tree is modelled as the rooted node graph it denotes: an
inductive tree whose leaves carry `(key, value-list)` slots and whose inner
nodes carry separator keys and children.
-/

namespace BookstoreBLink

/-- A leaf slot: one key together with its Value List (the sorted chain of
`VlistNode`s, modelled as a list). Keys and values are modelled as `Nat`
(the code is generic and uses only `operator<` of `KeyType`/`ValueType`). -/
abbrev Entry := Nat × List Nat

/-- Modelled from the spec: the node graph denoted by a `BLinkTree`.
A leaf node holds `(key, value-list)` slots (`key_ptr_` + `vlist_ptr_`
with `is_leaf_ = true`); an internal node holds separator keys and one
child pointer more than it has keys (`key_ptr_` + `mnode_ptr_` with
`is_leaf_ = false`). -/
inductive MTree : Type where
  | leaf (es : List Entry) : MTree
  | node (ks : List Nat) (cs : List MTree) : MTree
deriving Repr

/-- The empty tree: the state right after `open` created a fresh file. -/
def emptyTree : MTree := .leaf []

/-- `node_size_` of the top node: the count of populated key slots. -/
def topSize : MTree → Nat
  | .leaf es => es.length
  | .node ks _ => ks.length

/-- Minimum `node_size_` for a non-root node:
`ceil(degree/2) - 1` (spec §3, balance invariant). -/
def minSize (deg : Nat) : Nat := (deg + 1) / 2 - 1

/-- The default/dummy tree used for out-of-range child accesses. -/
def dfl : MTree := .leaf []

/-- Child access `mnode_ptr_[i]` (out-of-range reads give the dummy). -/
def childAt (cs : List MTree) (i : Nat) : MTree := cs.getD i dfl

/-- Routing index inside one internal node: the number of leading separator
keys that are `≤` the query key, i.e. the index of the child whose key
interval contains the query (spec §4.1 fencepost convention). -/
def pickIdx (k : Nat) : List Nat → Nat
  | [] => 0
  | s :: r => if k < s then 0 else pickIdx k r + 1

theorem pickIdx_le_length (k : Nat) (ks : List Nat) : pickIdx k ks ≤ ks.length := by
  induction ks with
  | nil => simp [pickIdx]
  | cons s r ih =>
    simp only [pickIdx, List.length_cons]
    split
    · omega
    · omega

/-- sizeOf of a list is at least 1 (it counts its own constructors). -/
theorem one_le_sizeOf_list {α : Type} [SizeOf α] (l : List α) : 1 ≤ sizeOf l := by
  cases l with
  | nil => simp
  | cons a t => simp; omega

/-- The child picked out of `cs` is strictly smaller than the node built
from `ks` and `cs`: the termination measure of every descent. -/
theorem sizeOf_childAt_lt (ks : List Nat) (cs : List MTree) (i : Nat) :
    sizeOf (childAt cs i) < sizeOf (MTree.node ks cs) := by
  by_cases h : i < cs.length
  · have hmem : childAt cs i ∈ cs := by
      simp only [childAt, List.getD_eq_getElem?_getD, List.getElem?_eq_getElem h,
        Option.getD_some]
      exact List.getElem_mem h
    have := List.sizeOf_lt_of_mem hmem
    simp only [MTree.node.sizeOf_spec]
    have := one_le_sizeOf_list ks
    omega
  · have : childAt cs i = dfl := by
      simp [childAt, List.getD_eq_getElem?_getD, List.getElem?_eq_none (by omega : cs.length ≤ i)]
    rw [this]
    simp only [MTree.node.sizeOf_spec, dfl, MTree.leaf.sizeOf_spec]
    have h1 := one_le_sizeOf_list ks
    have h2 := one_le_sizeOf_list cs
    have h3 : sizeOf (List.nil (α := Entry)) = 1 := by simp
    omega

/-! ## Value lists and leaf-level mutation

The Value List of a key is the chain of `VlistNode`s hanging off its
`vlist_ptr_` slot, "arranged in order (`operator<`)" (header line 88).
-/

/-- Modelled from the spec: inserting a value into the sorted Value List
chain (spec §4.3, "insert `value` into the existing Value List in sorted
position, duplicate values allowed"). -/
def vinsert (v : Nat) : List Nat → List Nat
  | [] => [v]
  | w :: ws => if v ≤ w then v :: w :: ws else w :: vinsert v ws

/-- Modelled from the spec: the leaf-level part of `insert` (spec §4.3) —
either extend the Value List of an existing key slot, or create a new
key slot with a fresh one-element Value List at its sorted position. -/
def leafInsert (k : Nat) (v : Nat) : List Entry → List Entry
  | [] => [(k, [v])]
  | (k', vs) :: es =>
    if k = k' then (k', vinsert v vs) :: es
    else if k < k' then (k, [v]) :: (k', vs) :: es
    else (k', vs) :: leafInsert k v es

/-- Modelled from the spec: the leaf-level part of `erase` (spec §4.4) —
remove `v` from the Value List of `k`; `none` when neither the key nor
the value exists ("signal not found, no mutation"); when the Value List
becomes empty the key slot is removed entirely. -/
def leafErase (k : Nat) (v : Nat) : List Entry → Option (List Entry)
  | [] => none
  | (k', vs) :: es =>
    if k = k' then
      if v ∈ vs then
        let vs' := vs.erase v
        some (if vs' = [] then es else (k', vs') :: es)
      else none
    else (leafErase k v es).map (fun es' => (k', vs) :: es')

/-- Insert an element at index `i` of a list (at the end when `i` is past
the populated prefix): the slot-array shift the C++ node performs. -/
def insAt {α : Type} : Nat → α → List α → List α
  | 0, a, l => a :: l
  | _ + 1, a, [] => [a]
  | n + 1, a, x :: l => x :: insAt n a l

/-! ## Insertion and node splitting -/

/-- Result of inserting below one node: either the updated node, or the
two nodes and promoted separator produced by a split of it. -/
inductive InsRes : Type where
  | one (t : MTree) : InsRes
  | two (l : MTree) (s : Nat) (r : MTree) : InsRes

/-- Modelled from the spec: `split` of an overflowing leaf (spec §4.5).
The left node keeps the first `⌈(degree-1)/2⌉` key slots, the right takes
the rest; the median key — the first key of the right part, which stays in
the right leaf together with its Value List — becomes the new separator. -/
def splitLeaf (deg : Nat) (es : List Entry) : InsRes :=
  let L := (deg - 1 + 1) / 2
  match es.drop L with
  | [] => .one (.leaf es)
  | e :: esR => .two (.leaf (es.take L)) e.1 (.leaf (e :: esR))

/-- Modelled from the spec: `split` of an overflowing internal node
(spec §4.5). The left node keeps the first `⌈(degree-1)/2⌉` keys and their
children, the median key moves up as the new separator, the right node
takes the remaining keys and children. -/
def splitNode (deg : Nat) (ks : List Nat) (cs : List MTree) : InsRes :=
  let L := (deg - 1 + 1) / 2
  match ks.drop L with
  | [] => .one (.node ks cs)
  | s :: ksR => .two (.node (ks.take L) (cs.take (L + 1))) s (.node ksR (cs.drop (L + 1)))

/-- Modelled from the spec: `insert` below one node (spec §4.3): route to
the leaf by the separator keys, do the leaf-level insertion, and split any
node whose `node_size_` exceeds `degree - 1` on the way back up.
The explicit `fuel` bounds the descent depth (the imperative code walks a
finite root-to-leaf route). -/
def insDownF (deg : Nat) (k : Nat) (v : Nat) : Nat → MTree → InsRes
  | _, .leaf es =>
    let es' := leafInsert k v es
    if es'.length ≤ deg - 1 then .one (.leaf es') else splitLeaf deg es'
  | 0, .node ks cs => .one (.node ks cs)
  | fuel + 1, .node ks cs =>
    let i := pickIdx k ks
    match insDownF deg k v fuel (childAt cs i) with
    | .one c' => .one (.node ks (cs.set i c'))
    | .two l s r =>
      let ks' := insAt i s ks
      let cs' := insAt (i + 1) r (cs.set i l)
      if ks'.length ≤ deg - 1 then .one (.node ks' cs') else splitNode deg ks' cs' 

mutual

/-- Depth of the deepest leaf: an upper bound on the length of any
root-to-leaf route of the tree. -/
def depth : MTree → Nat
  | .leaf _ => 0
  | .node _ cs => depthL cs + 1

def depthL : List MTree → Nat
  | [] => 0
  | c :: r => max (depth c) (depthL r)

end

/-- `insDownF` with enough fuel for the whole tree. -/
def insDown (deg : Nat) (k : Nat) (v : Nat) (t : MTree) : InsRes :=
  insDownF deg k v (depth t) t

/-- Modelled from the spec: top-level `insert` (spec §4.3) — when the old
root splits, a new root with one separator is created and the tree height
grows by one. -/
def insertT (deg : Nat) (k : Nat) (v : Nat) (t : MTree) : MTree :=
  match insDown deg k v t with
  | .one t' => t'
  | .two l s r => .node [s] [l, r]

/-! ## Deletion and node rebalancing

`erase` (spec §4.4) routes to the leaf, removes the value, and rebalances
an underflowing node by preferring `move_from_left`, then
`move_from_right`, then `merge`. The three rebalancing primitives below
act on the children array of the parent node, exactly as the member
functions `merge(parent_ptr, left_pos)` etc. do. -/

/-- Modelled from the spec: `move_from_left(parent_ptr, left_pos)`
(spec §4.7): the last key of the left child (with its Value List for a
leaf, or together with the old separator and the last child pointer for an
internal node) moves to the front of the right child, and the separator at
`left_pos` is updated to the new boundary. Header example:
`[1, 2, 3, 4], ->[5] --> [1, 2, 3], ->[4, 5]`. -/
def moveFromLeftG (ks : List Nat) (cs : List MTree) (p : Nat) :
    List Nat × List MTree :=
  match childAt cs p, childAt cs (p + 1) with
  | .leaf les, .leaf res =>
    match les.getLast? with
    | some e =>
      (ks.set p e.1,
       (cs.set p (.leaf les.dropLast)).set (p + 1) (.leaf (e :: res)))
    | none => (ks, cs)
  | .node lks lcs, .node rks rcs =>
    match lks.getLast?, lcs.getLast? with
    | some m, some lc =>
      (ks.set p m,
       (cs.set p (.node lks.dropLast lcs.dropLast)).set (p + 1)
         (.node (ks.getD p 0 :: rks) (lc :: rcs)))
    | _, _ => (ks, cs)
  | _, _ => (ks, cs)

/-- Modelled from the spec: `move_from_right(parent_ptr, left_pos)`
(spec §4.8): the first key of the right child moves to the end of the left
child, and the separator at `left_pos` is updated to the new boundary.
Header example: `->[1], [3, 4, 5, 6] --> ->[1, 3], [4, 5, 6]`. -/
def moveFromRightG (ks : List Nat) (cs : List MTree) (p : Nat) :
    List Nat × List MTree :=
  match childAt cs p, childAt cs (p + 1) with
  | .leaf les, .leaf (e :: e' :: res') =>
    (ks.set p e'.1,
     (cs.set p (.leaf (les ++ [e]))).set (p + 1) (.leaf (e' :: res')))
  | .node lks lcs, .node (rk :: rks') (rc :: rcs') =>
    (ks.set p rk,
     (cs.set p (.node (lks ++ [ks.getD p 0]) (lcs ++ [rc]))).set (p + 1)
       (.node rks' rcs'))
  | _, _ => (ks, cs)

/-- Modelled from the spec: `merge(parent_ptr, left_pos)` (spec §4.6):
combine children `left_pos` and `left_pos + 1` into one node (for internal
children the old separator is pulled down between their key sequences),
remove the separator key at `left_pos` from the parent and drop the right
child pointer. Header example: `[1, 2], [5] --> [1, 2, 5]`. -/
def mergeG (ks : List Nat) (cs : List MTree) (p : Nat) :
    List Nat × List MTree :=
  match childAt cs p, childAt cs (p + 1) with
  | .leaf les, .leaf res =>
    (ks.eraseIdx p, (cs.set p (.leaf (les ++ res))).eraseIdx (p + 1))
  | .node lks lcs, .node rks rcs =>
    (ks.eraseIdx p,
     (cs.set p (.node (lks ++ ks.getD p 0 :: rks) (lcs ++ rcs))).eraseIdx (p + 1))
  | _, _ => (ks, cs)

/-- Modelled from the spec: the rebalancing choice of `erase` (spec §4.4)
for the underflowing child at index `i`: "prefer `move_from_left`, else
`move_from_right` (borrow from richer sibling), else `merge` with a
sibling". -/
def repair (deg : Nat) (ks : List Nat) (cs : List MTree) (i : Nat) :
    List Nat × List MTree :=
  if 1 ≤ i ∧ minSize deg < topSize (childAt cs (i - 1)) then
    moveFromLeftG ks cs (i - 1)
  else if i + 1 < cs.length ∧ minSize deg < topSize (childAt cs (i + 1)) then
    moveFromRightG ks cs i
  else if 1 ≤ i then mergeG ks cs (i - 1)
  else if i + 1 < cs.length then mergeG ks cs i
  else (ks, cs)

/-- Modelled from the spec: `erase` below one node (spec §4.4): route to
the leaf, remove the value there (`none` when the pair is absent — no
mutation), and on the way back rebalance every child whose `node_size_`
dropped below `ceil(degree/2) - 1`. -/
def delDownF (deg : Nat) (k : Nat) (v : Nat) : Nat → MTree → Option MTree
  | _, .leaf es => (leafErase k v es).map .leaf
  | 0, .node _ _ => none
  | fuel + 1, .node ks cs =>
    let i := pickIdx k ks
    (delDownF deg k v fuel (childAt cs i)).map fun c' =>
      if minSize deg ≤ topSize c' then .node ks (cs.set i c')
      else
        let p := repair deg ks (cs.set i c') i
        .node p.1 p.2

/-- `delDownF` with enough fuel for the whole tree. -/
def delDown (deg : Nat) (k : Nat) (v : Nat) (t : MTree) : Option MTree :=
  delDownF deg k v (depth t) t

/-- Modelled from the spec: when a merge at the root's children leaves the
root with zero keys, its single remaining child becomes the new root (the
tree height shrinks by one). -/
def shrinkRoot : MTree → MTree
  | .node [] (c :: _) => c
  | t => t

/-- Modelled from the spec: top-level `erase` (spec §4.4); `none` is the
"not found" signal reported to the caller. -/
def eraseT (deg : Nat) (k : Nat) (v : Nat) (t : MTree) : Option MTree :=
  (delDown deg k v t).map shrinkRoot

/-! ## Lookup -/

/-- Modelled from the spec: `find` (spec §4.2): route to the leaf and
return the whole Value List of the key, the empty sequence when the key is
absent. -/
def findTF (deg : Nat) (k : Nat) : Nat → MTree → List Nat
  | _, .leaf es =>
    (match es.find? (fun e => e.1 = k) with
     | some e => e.2
     | none => [])
  | 0, .node _ _ => []
  | fuel + 1, .node ks cs => findTF deg k fuel (childAt cs (pickIdx k ks))

/-- `findTF` with enough fuel for the whole tree. -/
def findT (deg : Nat) (k : Nat) (t : MTree) : List Nat :=
  findTF deg k (depth t) t

/-- The state-passing form of `find`: the imperative code walks the route
reading nodes from the node file and writes nothing; the embedding returns
the traversed tree next to the result. -/
def findSF (deg : Nat) (k : Nat) : Nat → MTree → MTree × List Nat
  | _, .leaf es =>
    (.leaf es,
     match es.find? (fun e => e.1 = k) with
     | some e => e.2
     | none => [])
  | 0, .node ks cs => (.node ks cs, [])
  | fuel + 1, .node ks cs =>
    let i := pickIdx k ks
    let p := findSF deg k fuel (childAt cs i)
    (.node ks (cs.set i p.1), p.2)

/-- `findSF` with enough fuel for the whole tree. -/
def findS (deg : Nat) (k : Nat) (t : MTree) : MTree × List Nat :=
  findSF deg k (depth t) t

/-! ## Operation sequences -/

/-- One mutating tree operation. -/
inductive Op : Type where
  | ins (k : Nat) (v : Nat) : Op
  | del (k : Nat) (v : Nat) : Op
deriving Repr

/-- Apply one operation; a failed `erase` (the "not found" signal) leaves
the tree unchanged. -/
def applyOp (deg : Nat) (t : MTree) : Op → MTree
  | .ins k v => insertT deg k v t
  | .del k v => (eraseT deg k v t).getD t

/-- Run a sequence of operations from the empty tree. -/
def runOps (deg : Nat) (ops : List Op) : MTree :=
  ops.foldl (applyOp deg) emptyTree

/-! ## Structure and balance predicates -/

mutual

/-- Well-formedness of a node and everything strictly below it: an internal
node has one more child than keys, no node exceeds `degree - 1` keys, and
every strictly lower node also meets the non-root minimum (spec §3). -/
def nodeOK (deg : Nat) : MTree → Bool
  | .leaf es => decide (es.length ≤ deg - 1)
  | .node ks cs =>
    decide (cs.length = ks.length + 1) && decide (ks.length ≤ deg - 1) &&
      allBal deg cs

/-- All trees in the list are balanced including their own top size:
`ceil(degree/2) - 1 ≤ node_size_` (spec §3). -/
def allBal (deg : Nat) : List MTree → Bool
  | [] => true
  | c :: r => (decide (minSize deg ≤ topSize c) && nodeOK deg c) && allBal deg r

end

/-- The root constraint (spec §3): the root may hold fewer keys than any
other node — down to none for an empty-tree leaf — but an internal root
keeps at least one key. -/
def balRoot (deg : Nat) : MTree → Bool
  | .leaf es => decide (es.length ≤ deg - 1)
  | .node ks cs => decide (1 ≤ ks.length) && nodeOK deg (.node ks cs)

mutual

/-- All leaves are at depth exactly `h` ("all leaves are at the same
depth", spec §3). -/
def unifH : MTree → Nat → Bool
  | .leaf _, h => decide (h = 0)
  | .node _ _, 0 => false
  | .node _ cs, h + 1 => allUnifH cs h

/-- All trees in the list have uniform leaf depth `h`. -/
def allUnifH : List MTree → Nat → Bool
  | [], _ => true
  | c :: r, h => unifH c h && allUnifH r h

end

/-- The full tree invariant: balance at the root, everywhere below it, and
uniform leaf depth. -/
def INV (deg : Nat) (t : MTree) : Bool := balRoot deg t && unifH t (depth t)

mutual

/-- Every node of the tree, the top included. -/
def descendants : MTree → List MTree
  | .leaf es => [.leaf es]
  | .node ks cs => .node ks cs :: descendantsL cs

/-- Every node of every tree in the list. -/
def descendantsL : List MTree → List MTree
  | [] => []
  | c :: r => descendants c ++ descendantsL r

end

/-- Every node of the tree except the root. -/
def nonRootNodes : MTree → List MTree
  | .leaf _ => []
  | .node _ cs => descendantsL cs

/-! ## Observers: keys, pairs, value counts, sortedness -/

mutual

/-- All keys stored in the leaves of the tree. -/
def keysOf : MTree → List Nat
  | .leaf es => es.map Prod.fst
  | .node _ cs => keysOfL cs

def keysOfL : List MTree → List Nat
  | [] => []
  | c :: r => keysOf c ++ keysOfL r

end

mutual

/-- Whether the pair `(k, v)` is stored somewhere in the tree. -/
def hasKV (k : Nat) (v : Nat) : MTree → Bool
  | .leaf es => es.any (fun e => decide (e.1 = k) && decide (v ∈ e.2))
  | .node _ cs => hasKVL k v cs

def hasKVL (k : Nat) (v : Nat) : List MTree → Bool
  | [] => false
  | c :: r => hasKV k v c || hasKVL k v r

end

mutual

/-- How many copies of `v` the tree stores under key `k` (multiset
multiplicity across all Value Lists of `k`). -/
def countKV (k : Nat) (v : Nat) : MTree → Nat
  | .leaf es => (es.map (fun e => if e.1 = k then e.2.count v else 0)).sum
  | .node _ cs => countKVL k v cs

def countKVL (k : Nat) (v : Nat) : List MTree → Nat
  | [] => 0
  | c :: r => countKV k v c + countKVL k v r

end

/-- The value chain is arranged in non-decreasing order (`operator<`,
header lines 87–88). -/
def chainLE : List Nat → Bool
  | [] => true
  | [_] => true
  | a :: b :: r => decide (a ≤ b) && chainLE (b :: r)

mutual

/-- Every Value List hanging off any leaf of the tree is sorted. -/
def vlistsSorted : MTree → Bool
  | .leaf es => es.all (fun e => chainLE e.2)
  | .node _ cs => vlistsSortedL cs

def vlistsSortedL : List MTree → Bool
  | [] => true
  | c :: r => vlistsSorted c && vlistsSortedL r

end

/-! ## Routing (`lower_bound_route` / `upper_bound_route`) -/

/-- Index of the first entry whose key is `≥ k`. -/
def firstGE (k : Nat) : List Entry → Option Nat
  | [] => none
  | e :: es => if k ≤ e.1 then some 0 else (firstGE k es).map (· + 1)

/-- Index of the first entry whose key is `> k`. -/
def firstGT (k : Nat) : List Entry → Option Nat
  | [] => none
  | e :: es => if k < e.1 then some 0 else (firstGT k es).map (· + 1)

/-- Modelled from the spec: the leaf-level index of `lower_bound_route`
(header lines 48–51, spec §4.1): the position of the first key `≥` the
query key; sentinel `degree` when every key of the leaf is smaller
("insert at leaf end"); sentinel `degree + 1` when the query key is
smaller than every key of the leaf ("finding fails, key too small"). -/
def leafLB (deg : Nat) (k : Nat) (es : List Entry) : Nat :=
  match es with
  | [] => deg + 1
  | e :: _ =>
    if k < e.1 then deg + 1
    else
      match firstGE k es with
      | some i => i
      | none => deg

/-- Modelled from the spec: the leaf-level index of `upper_bound_route`
(header lines 44–47, spec §4.1): the position of the first key `>` the
query key; sentinel `degree + 1` when the query key is at least every key
of the leaf ("finding fails, key too big"). -/
def leafUB (deg : Nat) (k : Nat) (es : List Entry) : Nat :=
  match firstGT k es with
  | some i => i
  | none => deg + 1

/-- Modelled from the spec: `lower_bound_route` (header lines 48–51):
the root-to-leaf route of `(node, child index)` pairs; empty for the
empty tree; the last element carries the leaf-level `leafLB` index. -/
def lowerRouteF (deg : Nat) (k : Nat) : Nat → MTree → List (MTree × Nat)
  | _, .leaf es => if es.isEmpty then [] else [(.leaf es, leafLB deg k es)]
  | 0, .node _ _ => []
  | fuel + 1, .node ks cs =>
    (.node ks cs, pickIdx k ks) :: lowerRouteF deg k fuel (childAt cs (pickIdx k ks))

/-- `lowerRouteF` with enough fuel for the whole tree. -/
def lowerRoute (deg : Nat) (k : Nat) (t : MTree) : List (MTree × Nat) :=
  lowerRouteF deg k (depth t) t

/-- Modelled from the spec: `upper_bound_route` (header lines 44–47),
same route with the leaf-level `leafUB` index. -/
def upperRouteF (deg : Nat) (k : Nat) : Nat → MTree → List (MTree × Nat)
  | _, .leaf es => if es.isEmpty then [] else [(.leaf es, leafUB deg k es)]
  | 0, .node _ _ => []
  | fuel + 1, .node ks cs =>
    (.node ks cs, pickIdx k ks) :: upperRouteF deg k fuel (childAt cs (pickIdx k ks))

/-- `upperRouteF` with enough fuel for the whole tree. -/
def upperRoute (deg : Nat) (k : Nat) (t : MTree) : List (MTree × Nat) :=
  upperRouteF deg k (depth t) t

/-! ## General list helpers -/

theorem getD_set_self {α : Type} (l : List α) (i : Nat) (h : i < l.length)
    (a d : α) : (l.set i a).getD i d = a := by
  simp [List.getD_eq_getElem?_getD, List.getElem?_set_self, h]

theorem getD_set_ne {α : Type} (l : List α) (i j : Nat) (h : i ≠ j)
    (a d : α) : (l.set i a).getD j d = l.getD j d := by
  simp [List.getD_eq_getElem?_getD, List.getElem?_set_ne h]

theorem length_insAt {α : Type} (a : α) :
    ∀ (i : Nat) (l : List α), (insAt i a l).length = l.length + 1 := by
  intro i
  induction i with
  | zero => intro l; simp [insAt]
  | succ n ih =>
    intro l
    cases l with
    | nil => simp [insAt]
    | cons x xs => simp [insAt, ih]

theorem getLast?_cons_of_ne_nil {α : Type} (a : α) (l : List α) (h : l ≠ []) :
    (a :: l).getLast? = l.getLast? := by
  cases l with
  | nil => exact absurd rfl h
  | cons b r => exact List.getLast?_cons_cons

/-- Strong induction on `sizeOf` for trees. -/
theorem sizeOf_strongRec {P : MTree → Prop}
    (ih : ∀ t, (∀ u, sizeOf u < sizeOf t → P u) → P t) : ∀ t, P t := by
  intro t
  generalize hn : sizeOf t = n
  induction n using Nat.strong_induction_on generalizing t with
  | _ n IH => exact ih t (fun u hu => IH (sizeOf u) (hn ▸ hu) u rfl)

/-! ## Balance predicate basics -/

theorem minSize_ge_two {deg : Nat} (h : 6 ≤ deg) : 2 ≤ minSize deg := by
  simp only [minSize]; omega

theorem allBal_getD {deg : Nat} :
    ∀ (cs : List MTree) (i : Nat), allBal deg cs = true → i < cs.length →
      minSize deg ≤ topSize (childAt cs i) ∧ nodeOK deg (childAt cs i) = true := by
  intro cs
  induction cs with
  | nil => intro i _ hi; simp at hi
  | cons c r ih =>
    intro i hb hi
    simp only [allBal, Bool.and_eq_true, decide_eq_true_eq] at hb
    cases i with
    | zero => exact ⟨hb.1.1, hb.1.2⟩
    | succ j =>
      have := ih j hb.2 (by simpa using hi)
      simpa [childAt, List.getD_cons_succ] using this

/-! ## C1: routing lemmas -/

theorem firstGE_none {k : Nat} :
    ∀ es : List Entry, firstGE k es = none ↔ ∀ e ∈ es, e.1 < k := by
  intro es
  induction es with
  | nil => simp [firstGE]
  | cons e r ih =>
    by_cases hk : k ≤ e.1
    · simp only [firstGE, if_pos hk]
      constructor
      · intro h; cases h
      · intro hall
        exact absurd (hall e (by simp)) (by omega)
    · simp only [firstGE, if_neg hk, Option.map_eq_none', ih, List.mem_cons]
      constructor
      · intro h x hx
        rcases hx with rfl | hx
        · omega
        · exact h x hx
      · intro h x hx; exact h x (Or.inr hx)

theorem firstGE_some {k : Nat} :
    ∀ (es : List Entry) (i : Nat), firstGE k es = some i →
      i < es.length ∧ k ≤ (es.getD i (0, [])).1 ∧
        ∀ j < i, (es.getD j (0, [])).1 < k := by
  intro es
  induction es with
  | nil => intro i h; simp [firstGE] at h
  | cons e r ih =>
    intro i h
    by_cases hk : k ≤ e.1
    · simp only [firstGE, if_pos hk, Option.some.injEq] at h
      subst h
      refine ⟨by simp, by simpa using hk, ?_⟩
      intro j hj; omega
    · simp only [firstGE, if_neg hk, Option.map_eq_some'] at h
      obtain ⟨i', hi', rfl⟩ := h
      obtain ⟨h1, h2, h3⟩ := ih i' hi'
      refine ⟨by simpa using Nat.succ_lt_succ h1, by simpa using h2, ?_⟩
      intro j hj
      cases j with
      | zero => simpa using (by omega : e.1 < k)
      | succ j' => simpa using h3 j' (by omega)

theorem firstGT_none {k : Nat} :
    ∀ es : List Entry, firstGT k es = none ↔ ∀ e ∈ es, e.1 ≤ k := by
  intro es
  induction es with
  | nil => simp [firstGT]
  | cons e r ih =>
    by_cases hk : k < e.1
    · simp only [firstGT, if_pos hk]
      constructor
      · intro h; cases h
      · intro hall
        exact absurd (hall e (by simp)) (by omega)
    · simp only [firstGT, if_neg hk, Option.map_eq_none', ih, List.mem_cons]
      constructor
      · intro h x hx
        rcases hx with rfl | hx
        · omega
        · exact h x hx
      · intro h x hx; exact h x (Or.inr hx)

theorem firstGT_some {k : Nat} :
    ∀ (es : List Entry) (i : Nat), firstGT k es = some i →
      i < es.length ∧ k < (es.getD i (0, [])).1 ∧
        ∀ j < i, (es.getD j (0, [])).1 ≤ k := by
  intro es
  induction es with
  | nil => intro i h; simp [firstGT] at h
  | cons e r ih =>
    intro i h
    by_cases hk : k < e.1
    · simp only [firstGT, if_pos hk, Option.some.injEq] at h
      subst h
      refine ⟨by simp, by simpa using hk, ?_⟩
      intro j hj; omega
    · simp only [firstGT, if_neg hk, Option.map_eq_some'] at h
      obtain ⟨i', hi', rfl⟩ := h
      obtain ⟨h1, h2, h3⟩ := ih i' hi'
      refine ⟨by simpa using Nat.succ_lt_succ h1, by simpa using h2, ?_⟩
      intro j hj
      cases j with
      | zero => simpa using (by omega : e.1 ≤ k)
      | succ j' => simpa using h3 j' (by omega)

theorem depth_childAt_le : ∀ (cs : List MTree) (i : Nat),
    depth (childAt cs i) ≤ depthL cs := by
  intro cs
  induction cs with
  | nil =>
    intro i
    simp [childAt, dfl, depth, depthL]
  | cons c r ih =>
    intro i
    cases i with
    | zero => simp [childAt, depthL, Nat.le_max_left]
    | succ j =>
      calc depth (childAt (c :: r) (j + 1)) = depth (childAt r j) := by
            simp [childAt]
        _ ≤ depthL r := ih j
        _ ≤ depthL (c :: r) := by simp [depthL, Nat.le_max_right]

theorem ne_nil_of_getLast?_eq_some {α : Type} {l : List α} {a : α}
    (h : l.getLast? = some a) : l ≠ [] := by
  intro hn; subst hn; simp at h

theorem lowerRouteF_ends (deg k : Nat) (h1 : 1 ≤ minSize deg) :
    ∀ (fuel : Nat) (t : MTree), depth t ≤ fuel → nodeOK deg t = true →
      1 ≤ topSize t →
      ∃ es, es ≠ [] ∧
        (lowerRouteF deg k fuel t).getLast? = some (.leaf es, leafLB deg k es) := by
  intro fuel
  induction fuel with
  | zero =>
    intro t hd _ hts
    cases t with
    | leaf es =>
      cases es with
      | nil => simp [topSize] at hts
      | cons e r => exact ⟨e :: r, by simp, by simp [lowerRouteF]⟩
    | node ks cs => simp [depth] at hd
  | succ fuel ih =>
    intro t hd hOK hts
    cases t with
    | leaf es =>
      cases es with
      | nil => simp [topSize] at hts
      | cons e r => exact ⟨e :: r, by simp, by simp [lowerRouteF]⟩
    | node ks cs =>
      simp only [nodeOK, Bool.and_eq_true, decide_eq_true_eq] at hOK
      obtain ⟨⟨hlen, hks⟩, hbal⟩ := hOK
      have hi : pickIdx k ks < cs.length := by
        have := pickIdx_le_length k ks; omega
      obtain ⟨hmin, hOKc⟩ := allBal_getD cs (pickIdx k ks) hbal hi
      have hdc : depth (childAt cs (pickIdx k ks)) ≤ fuel := by
        have h' := depth_childAt_le cs (pickIdx k ks)
        simp only [depth] at hd
        omega
      obtain ⟨es, hne, hlast⟩ := ih (childAt cs (pickIdx k ks)) hdc hOKc (le_trans h1 hmin)
      refine ⟨es, hne, ?_⟩
      have hrne := ne_nil_of_getLast?_eq_some hlast
      simp only [lowerRouteF]
      rw [getLast?_cons_of_ne_nil _ _ hrne]
      exact hlast

theorem upperRouteF_ends (deg k : Nat) (h1 : 1 ≤ minSize deg) :
    ∀ (fuel : Nat) (t : MTree), depth t ≤ fuel → nodeOK deg t = true →
      1 ≤ topSize t →
      ∃ es, es ≠ [] ∧
        (upperRouteF deg k fuel t).getLast? = some (.leaf es, leafUB deg k es) := by
  intro fuel
  induction fuel with
  | zero =>
    intro t hd _ hts
    cases t with
    | leaf es =>
      cases es with
      | nil => simp [topSize] at hts
      | cons e r => exact ⟨e :: r, by simp, by simp [upperRouteF]⟩
    | node ks cs => simp [depth] at hd
  | succ fuel ih =>
    intro t hd hOK hts
    cases t with
    | leaf es =>
      cases es with
      | nil => simp [topSize] at hts
      | cons e r => exact ⟨e :: r, by simp, by simp [upperRouteF]⟩
    | node ks cs =>
      simp only [nodeOK, Bool.and_eq_true, decide_eq_true_eq] at hOK
      obtain ⟨⟨hlen, hks⟩, hbal⟩ := hOK
      have hi : pickIdx k ks < cs.length := by
        have := pickIdx_le_length k ks; omega
      obtain ⟨hmin, hOKc⟩ := allBal_getD cs (pickIdx k ks) hbal hi
      have hdc : depth (childAt cs (pickIdx k ks)) ≤ fuel := by
        have h' := depth_childAt_le cs (pickIdx k ks)
        simp only [depth] at hd
        omega
      obtain ⟨es, hne, hlast⟩ := ih (childAt cs (pickIdx k ks)) hdc hOKc (le_trans h1 hmin)
      refine ⟨es, hne, ?_⟩
      have hrne := ne_nil_of_getLast?_eq_some hlast
      simp only [upperRouteF]
      rw [getLast?_cons_of_ne_nil _ _ hrne]
      exact hlast

/-- Trichotomy of the `lower_bound_route` leaf index: the too-small
sentinel `degree + 1`, the insert-at-end sentinel `degree`, or the
position of the first key `≥` the query. -/
theorem leafLB_spec (deg k : Nat) (es : List Entry) (hne : es ≠ []) :
    (leafLB deg k es = deg + 1 ∧ ∃ e₀ r, es = e₀ :: r ∧ k < e₀.1) ∨
    (leafLB deg k es = deg ∧ ∀ e ∈ es, e.1 < k) ∨
    (leafLB deg k es < es.length ∧ k ≤ (es.getD (leafLB deg k es) (0, [])).1 ∧
      ∀ j < leafLB deg k es, (es.getD j (0, [])).1 < k) := by
  cases es with
  | nil => exact absurd rfl hne
  | cons e r =>
    by_cases hk : k < e.1
    · exact Or.inl ⟨by simp [leafLB, if_pos hk], e, r, rfl, hk⟩
    · rcases hfe : firstGE k (e :: r) with _ | i
      · refine Or.inr (Or.inl ⟨by simp [leafLB, if_neg hk, hfe], ?_⟩)
        exact (firstGE_none (e :: r)).mp hfe
      · obtain ⟨h1, h2, h3⟩ := firstGE_some (e :: r) i hfe
        have hval : leafLB deg k (e :: r) = i := by simp [leafLB, if_neg hk, hfe]
        rw [hval]
        exact Or.inr (Or.inr ⟨h1, h2, h3⟩)

/-- Dichotomy of the `upper_bound_route` leaf index: the key-too-big
sentinel `degree + 1` or the position of the first key `>` the query. -/
theorem leafUB_spec (deg k : Nat) (es : List Entry) :
    (leafUB deg k es = deg + 1 ∧ ∀ e ∈ es, e.1 ≤ k) ∨
    (leafUB deg k es < es.length ∧ k < (es.getD (leafUB deg k es) (0, [])).1 ∧
      ∀ j < leafUB deg k es, (es.getD j (0, [])).1 ≤ k) := by
  rcases hfe : firstGT k es with _ | i
  · exact Or.inl ⟨by simp [leafUB, hfe], (firstGT_none es).mp hfe⟩
  · obtain ⟨h1, h2, h3⟩ := firstGT_some es i hfe
    have hval : leafUB deg k es = i := by simp [leafUB, hfe]
    rw [hval]
    exact Or.inr ⟨h1, h2, h3⟩

theorem balRoot_nodeOK {deg : Nat} {t : MTree} (h : balRoot deg t = true) :
    nodeOK deg t = true := by
  cases t with
  | leaf es => simpa [balRoot, nodeOK] using h
  | node ks cs =>
    simp only [balRoot, Bool.and_eq_true] at h
    exact h.2

theorem topSize_pos_of_ne_empty {deg : Nat} {t : MTree} (hne : t ≠ emptyTree)
    (h : balRoot deg t = true) : 1 ≤ topSize t := by
  cases t with
  | leaf es =>
    cases es with
    | nil => exact absurd rfl hne
    | cons e r => simp [topSize]
  | node ks cs =>
    simp only [balRoot, Bool.and_eq_true, decide_eq_true_eq] at h
    simpa [topSize] using h.1

/-- **C1.** Routing contract of `upper_bound_route` / `lower_bound_route`
(header lines 44–51, spec §4.1): on the empty tree both routes are the
empty sequence; on a non-empty balanced tree each route ends at a leaf,
`lower_bound_route` with the position of the first key `≥` the query key
(sentinel `degree` when every leaf key is smaller — insert at leaf end —
and sentinel `degree + 1` for a too-small query), `upper_bound_route` with
the position of the first key `>` the query key (sentinel `degree + 1`
when the query is past the largest key of the leaf). -/
theorem routing_contract (deg k : Nat) (t : MTree) (h6 : 6 ≤ deg)
    (hI : INV deg t = true) (hne : t ≠ emptyTree) :
    (lowerRoute deg k emptyTree = [] ∧ upperRoute deg k emptyTree = []) ∧
    (∃ es i, (lowerRoute deg k t).getLast? = some (.leaf es, i) ∧ es ≠ [] ∧
      ((i = deg + 1 ∧ ∃ e₀ r, es = e₀ :: r ∧ k < e₀.1) ∨
       (i = deg ∧ ∀ e ∈ es, e.1 < k) ∨
       (i < es.length ∧ k ≤ (es.getD i (0, [])).1 ∧
         ∀ j < i, (es.getD j (0, [])).1 < k))) ∧
    (∃ es i, (upperRoute deg k t).getLast? = some (.leaf es, i) ∧ es ≠ [] ∧
      ((i = deg + 1 ∧ ∀ e ∈ es, e.1 ≤ k) ∨
       (i < es.length ∧ k < (es.getD i (0, [])).1 ∧
         ∀ j < i, (es.getD j (0, [])).1 ≤ k))) := by
  simp only [INV, Bool.and_eq_true] at hI
  obtain ⟨hroot, _⟩ := hI
  have h1 : 1 ≤ minSize deg := le_trans (by omega) (minSize_ge_two h6)
  have hOK := balRoot_nodeOK hroot
  have hts := topSize_pos_of_ne_empty hne hroot
  refine ⟨⟨rfl, rfl⟩, ?_, ?_⟩
  · obtain ⟨es, hne', hlast⟩ :=
      lowerRouteF_ends deg k h1 (depth t) t le_rfl hOK hts
    exact ⟨es, leafLB deg k es, hlast, hne', leafLB_spec deg k es hne'⟩
  · obtain ⟨es, hne', hlast⟩ :=
      upperRouteF_ends deg k h1 (depth t) t le_rfl hOK hts
    rcases leafUB_spec deg k es with h | h
    · exact ⟨es, leafUB deg k es, hlast, hne', Or.inl h⟩
    · exact ⟨es, leafUB deg k es, hlast, hne', Or.inr h⟩

/-- Witness for C1 at `degree = 6`, query key `5`, a one-leaf tree. -/
theorem routing_contract_witness :
    (6 ≤ 6 ∧ INV 6 (MTree.leaf [(3, [1])]) = true ∧
      MTree.leaf [(3, [1])] ≠ emptyTree) ∧
    ((lowerRoute 6 5 emptyTree = [] ∧ upperRoute 6 5 emptyTree = []) ∧
     (∃ es i, (lowerRoute 6 5 (MTree.leaf [(3, [1])])).getLast? =
         some (.leaf es, i) ∧ es ≠ [] ∧
       ((i = 6 + 1 ∧ ∃ e₀ r, es = e₀ :: r ∧ 5 < e₀.1) ∨
        (i = 6 ∧ ∀ e ∈ es, e.1 < 5) ∨
        (i < es.length ∧ 5 ≤ (es.getD i (0, [])).1 ∧
          ∀ j < i, (es.getD j (0, [])).1 < 5))) ∧
     (∃ es i, (upperRoute 6 5 (MTree.leaf [(3, [1])])).getLast? =
         some (.leaf es, i) ∧ es ≠ [] ∧
       ((i = 6 + 1 ∧ ∀ e ∈ es, e.1 ≤ 5) ∨
        (i < es.length ∧ 5 < (es.getD i (0, [])).1 ∧
          ∀ j < i, (es.getD j (0, [])).1 ≤ 5)))) :=
  ⟨⟨by decide, by decide, by simp [emptyTree]⟩,
   routing_contract 6 5 (MTree.leaf [(3, [1])]) (by decide) (by decide)
     (by simp [emptyTree])⟩

/-! ## C4/C5: absent keys and values -/

theorem set_getD_self_list {α : Type} :
    ∀ (l : List α) (i : Nat) (d : α), l.set i (l.getD i d) = l := by
  intro l
  induction l with
  | nil => intro i d; simp
  | cons x xs ih =>
    intro i d
    cases i with
    | zero => simp
    | succ j =>
      show x :: xs.set j (xs.getD j d) = x :: xs
      rw [ih j d]

theorem keysOfL_mem : ∀ (cs : List MTree) (c : MTree), c ∈ cs →
    ∀ x, x ∈ keysOf c → x ∈ keysOfL cs := by
  intro cs
  induction cs with
  | nil => intro c hc; cases hc
  | cons c' r ih =>
    intro c hc x hx
    simp only [keysOfL, List.mem_append]
    rcases List.mem_cons.mp hc with rfl | hc'
    · exact Or.inl hx
    · exact Or.inr (ih c hc' x hx)

theorem keysOf_childAt {cs : List MTree} {i : Nat} {x : Nat}
    (hx : x ∈ keysOf (childAt cs i)) : x ∈ keysOfL cs := by
  by_cases h : i < cs.length
  · have hmem : childAt cs i ∈ cs := by
      simp only [childAt, List.getD_eq_getElem?_getD, List.getElem?_eq_getElem h,
        Option.getD_some]
      exact List.getElem_mem h
    exact keysOfL_mem cs _ hmem x hx
  · have : childAt cs i = dfl := by
      simp [childAt, List.getD_eq_getElem?_getD,
        List.getElem?_eq_none (by omega : cs.length ≤ i)]
    rw [this] at hx
    simp [dfl, keysOf] at hx

theorem findTF_absent (deg k : Nat) :
    ∀ (fuel : Nat) (t : MTree), k ∉ keysOf t → findTF deg k fuel t = [] := by
  intro fuel
  induction fuel with
  | zero =>
    intro t habs
    cases t with
    | leaf es =>
      simp only [findTF]
      rcases hf : es.find? (fun e => decide (e.1 = k)) with _ | e
      · rw [hf]
      · have := List.find?_some hf
        have hmem := List.mem_of_find?_eq_some hf
        simp only [decide_eq_true_eq] at this
        exact absurd (by simpa [keysOf, this] using List.mem_map_of_mem Prod.fst hmem)
          habs
    | node ks cs => simp [findTF]
  | succ fuel ih =>
    intro t habs
    cases t with
    | leaf es =>
      simp only [findTF]
      rcases hf : es.find? (fun e => decide (e.1 = k)) with _ | e
      · rw [hf]
      · have := List.find?_some hf
        have hmem := List.mem_of_find?_eq_some hf
        simp only [decide_eq_true_eq] at this
        exact absurd (by simpa [keysOf, this] using List.mem_map_of_mem Prod.fst hmem)
          habs
    | node ks cs =>
      simp only [findTF]
      refine ih (childAt cs (pickIdx k ks)) ?_
      intro hx
      exact habs (by simpa [keysOf] using keysOf_childAt hx)

theorem findSF_readonly (deg k : Nat) :
    ∀ (fuel : Nat) (t : MTree), findSF deg k fuel t = (t, findTF deg k fuel t) := by
  intro fuel
  induction fuel with
  | zero =>
    intro t
    cases t with
    | leaf es => rfl
    | node ks cs => rfl
  | succ fuel ih =>
    intro t
    cases t with
    | leaf es => rfl
    | node ks cs =>
      simp only [findSF, findTF, ih (childAt cs (pickIdx k ks))]
      rw [childAt, set_getD_self_list]

/-- **C4.** `find` contract for absent keys (header lines 62–63, spec
§4.2, §7): a key absent from the tree yields the empty sequence — the
"not found" signal — not an error, and `find` has no side effect: the
traversed tree state equals the input state for every query key. -/
theorem find_contract (deg k : Nat) (t : MTree) (habs : k ∉ keysOf t) :
    findT deg k t = [] ∧ ∀ k' : Nat, (findS deg k' t).1 = t := by
  constructor
  · exact findTF_absent deg k (depth t) t habs
  · intro k'
    rw [findS, findSF_readonly deg k' (depth t) t]

/-- Witness for C4: key `99` is absent from a two-key leaf. -/
theorem find_contract_witness :
    (99 ∉ keysOf (MTree.leaf [(3, [1]), (5, [2])])) ∧
    (findT 6 99 (MTree.leaf [(3, [1]), (5, [2])]) = [] ∧
     ∀ k' : Nat, (findS 6 k' (MTree.leaf [(3, [1]), (5, [2])])).1 =
       MTree.leaf [(3, [1]), (5, [2])]) :=
  ⟨by decide, find_contract 6 99 (MTree.leaf [(3, [1]), (5, [2])]) (by decide)⟩

theorem leafErase_absent (k v : Nat) :
    ∀ es : List Entry, (es.any fun e => decide (e.1 = k) && decide (v ∈ e.2)) = false →
      leafErase k v es = none := by
  intro es
  induction es with
  | nil => intro _; rfl
  | cons e r ih =>
    intro habs
    simp only [List.any_cons, Bool.or_eq_false_iff, Bool.and_eq_false_iff] at habs
    obtain ⟨h1, h2⟩ := habs
    simp only [leafErase]
    by_cases hk : k = e.1
    · rw [if_pos hk]
      rcases h1 with h1 | h1
      · simp [hk] at h1
      · rw [if_neg (by simpa using h1)]
    · rw [if_neg hk, ih (by simpa using h2)]
      rfl

theorem hasKVL_mem {k v : Nat} : ∀ (cs : List MTree),
    hasKVL k v cs = false → ∀ c ∈ cs, hasKV k v c = false := by
  intro cs
  induction cs with
  | nil => intro _ c hc; cases hc
  | cons c' r ih =>
    intro h c hc
    simp only [hasKVL, Bool.or_eq_false_iff] at h
    rcases List.mem_cons.mp hc with rfl | hc'
    · exact h.1
    · exact ih h.2 c hc'

theorem hasKVL_childAt {k v : Nat} {cs : List MTree} {i : Nat}
    (h : hasKVL k v cs = false) : hasKV k v (childAt cs i) = false := by
  by_cases hlt : i < cs.length
  · have hmem : childAt cs i ∈ cs := by
      simp only [childAt, List.getD_eq_getElem?_getD, List.getElem?_eq_getElem hlt,
        Option.getD_some]
      exact List.getElem_mem hlt
    exact hasKVL_mem cs h _ hmem
  · have : childAt cs i = dfl := by
      simp [childAt, List.getD_eq_getElem?_getD,
        List.getElem?_eq_none (by omega : cs.length ≤ i)]
    rw [this]
    rfl

theorem delDownF_absent (deg k v : Nat) :
    ∀ (fuel : Nat) (t : MTree), hasKV k v t = false →
      delDownF deg k v fuel t = none := by
  intro fuel
  induction fuel with
  | zero =>
    intro t habs
    cases t with
    | leaf es =>
      simp only [delDownF, leafErase_absent k v es (by simpa [hasKV] using habs)]
      rfl
    | node ks cs => rfl
  | succ fuel ih =>
    intro t habs
    cases t with
    | leaf es =>
      simp only [delDownF, leafErase_absent k v es (by simpa [hasKV] using habs)]
      rfl
    | node ks cs =>
      simp only [delDownF]
      rw [ih (childAt cs (pickIdx k ks)) (hasKVL_childAt (by simpa [hasKV] using habs))]
      rfl

/-- **C5.** `erase` contract for absent pairs (header line 64, spec §4.4,
§7): when the key is absent or the value is absent from the key's Value
List, `erase` reports the explicit "not found" signal (`none`) and
performs no mutation — the tree state after the call equals the state
before it. -/
theorem erase_contract (deg k v : Nat) (t : MTree) (habs : hasKV k v t = false) :
    eraseT deg k v t = none ∧ applyOp deg t (.del k v) = t := by
  have h := delDownF_absent deg k v (depth t) t habs
  constructor
  · simp [eraseT, delDown, h]
  · simp [applyOp, eraseT, delDown, h]

/-- Witness for C5: erasing value `7` under present key `3` (value absent)
from a concrete leaf. -/
theorem erase_contract_witness :
    (hasKV 3 7 (MTree.leaf [(3, [1]), (5, [2])]) = false) ∧
    (eraseT 6 3 7 (MTree.leaf [(3, [1]), (5, [2])]) = none ∧
     applyOp 6 (MTree.leaf [(3, [1]), (5, [2])]) (.del 3 7) =
       MTree.leaf [(3, [1]), (5, [2])]) :=
  ⟨by decide, erase_contract 6 3 7 (MTree.leaf [(3, [1]), (5, [2])]) (by decide)⟩

/-! ## C2: balance preservation.  Membership views of the predicates -/

theorem allBal_iff {deg : Nat} : ∀ cs : List MTree,
    allBal deg cs = true ↔
      ∀ c ∈ cs, minSize deg ≤ topSize c ∧ nodeOK deg c = true := by
  intro cs
  induction cs with
  | nil => simp [allBal]
  | cons c r ih =>
    simp only [allBal, Bool.and_eq_true, decide_eq_true_eq, List.mem_cons, ih]
    constructor
    · rintro ⟨⟨h1, h2⟩, h3⟩ x (rfl | hx)
      · exact ⟨h1, h2⟩
      · exact h3 x hx
    · intro h
      exact ⟨⟨(h c (Or.inl rfl)).1, (h c (Or.inl rfl)).2⟩,
        fun x hx => h x (Or.inr hx)⟩

theorem allUnifH_iff : ∀ (cs : List MTree) (h : Nat),
    allUnifH cs h = true ↔ ∀ c ∈ cs, unifH c h = true := by
  intro cs h
  induction cs with
  | nil => simp [allUnifH]
  | cons c r ih =>
    simp only [allUnifH, Bool.and_eq_true, List.mem_cons, ih]
    constructor
    · rintro ⟨h1, h2⟩ x (rfl | hx)
      · exact h1
      · exact h2 x hx
    · intro hx
      exact ⟨hx c (Or.inl rfl), fun x h' => hx x (Or.inr h')⟩

theorem mem_insAt {α : Type} (a : α) : ∀ (i : Nat) (l : List α) (x : α),
    x ∈ insAt i a l → x = a ∨ x ∈ l := by
  intro i
  induction i with
  | zero =>
    intro l x hx
    rcases List.mem_cons.mp hx with rfl | hx
    · exact Or.inl rfl
    · exact Or.inr hx
  | succ n ih =>
    intro l x hx
    cases l with
    | nil => simpa [insAt] using hx
    | cons y ys =>
      rcases List.mem_cons.mp hx with rfl | hx
      · exact Or.inr (List.mem_cons_self _ _)
      · rcases ih ys x hx with h | h
        · exact Or.inl h
        · exact Or.inr (List.mem_cons_of_mem _ h)

theorem mem_getLast? {α : Type} : ∀ {l : List α} {a : α},
    l.getLast? = some a → a ∈ l := by
  intro l
  induction l with
  | nil => intro a h; simp at h
  | cons x xs ih =>
    intro a h
    cases xs with
    | nil =>
      simp only [List.getLast?_singleton, Option.some.injEq] at h
      simp [h]
    | cons y ys =>
      rw [List.getLast?_cons_cons] at h
      exact List.mem_cons_of_mem _ (ih h)

theorem childAt_mem {cs : List MTree} {i : Nat} (h : i < cs.length) :
    childAt cs i ∈ cs := by
  simp only [childAt, List.getD_eq_getElem?_getD, List.getElem?_eq_getElem h,
    Option.getD_some]
  exact List.getElem_mem h

/-! ### unifH facts -/

theorem unifH_zero {t : MTree} (h : unifH t 0 = true) : ∃ es, t = .leaf es := by
  cases t with
  | leaf es => exact ⟨es, rfl⟩
  | node ks cs => simp [unifH] at h

theorem unifH_succ {t : MTree} {h' : Nat} (h : unifH t (h' + 1) = true) :
    ∃ ks cs, t = .node ks cs ∧ allUnifH cs h' = true := by
  cases t with
  | leaf es => simp [unifH] at h
  | node ks cs => exact ⟨ks, cs, rfl, by simpa [unifH] using h⟩

theorem depthL_all {h : Nat} : ∀ cs : List MTree, cs ≠ [] →
    (∀ c ∈ cs, depth c = h) → depthL cs = h := by
  intro cs
  induction cs with
  | nil => intro hne; exact absurd rfl hne
  | cons c r ih =>
    intro _ hall
    cases r with
    | nil => simp [depthL, hall c (by simp)]
    | cons c' r' =>
      have hr : depthL (c' :: r') = h :=
        ih (by simp) (fun x hx => hall x (List.mem_cons_of_mem _ hx))
      have hstep : depthL (c :: c' :: r') = max (depth c) (depthL (c' :: r')) := rfl
      rw [hstep, hall c (by simp), hr, Nat.max_self]

theorem unifH_depth {deg : Nat} : ∀ (h : Nat) (t : MTree),
    nodeOK deg t = true → unifH t h = true → depth t = h := by
  intro h
  induction h with
  | zero =>
    intro t _ hu
    obtain ⟨es, rfl⟩ := unifH_zero hu
    rfl
  | succ h' ih =>
    intro t hOK hu
    obtain ⟨ks, cs, rfl, hall⟩ := unifH_succ hu
    simp only [nodeOK, Bool.and_eq_true, decide_eq_true_eq] at hOK
    obtain ⟨⟨hlen, _⟩, hbal⟩ := hOK
    have hne : cs ≠ [] := by
      intro hc; rw [hc] at hlen; simp at hlen
    have : depthL cs = h' := by
      refine depthL_all cs hne (fun c hc => ?_)
      exact ih c ((allBal_iff cs).mp hbal c hc).2 ((allUnifH_iff cs h').mp hall c hc)
    simp [depth, this]

/-! ### length lemmas for the leaf-level operations -/

theorem leafInsert_len (k v : Nat) : ∀ es : List Entry,
    es.length ≤ (leafInsert k v es).length ∧
      (leafInsert k v es).length ≤ es.length + 1 := by
  intro es
  induction es with
  | nil => simp [leafInsert]
  | cons e r ih =>
    rcases e with ⟨k', vs⟩
    by_cases h1 : k = k'
    · simp [leafInsert, h1]
    · by_cases h2 : k < k'
      · simp [leafInsert, h1, h2]
      · simpa [leafInsert, h1, h2] using ih

theorem leafErase_len (k v : Nat) : ∀ es es' : List Entry,
    leafErase k v es = some es' →
      es'.length = es.length ∨ es'.length + 1 = es.length := by
  intro es
  induction es with
  | nil => intro es' h; simp [leafErase] at h
  | cons e r ih =>
    intro es' h
    rcases e with ⟨k', vs⟩
    by_cases h1 : k = k'
    · simp only [leafErase, if_pos h1] at h
      by_cases h2 : v ∈ vs
      · rw [if_pos h2] at h
        cases h
        by_cases h3 : vs.erase v = []
        · rw [if_pos h3]; right; simp
        · rw [if_neg h3]; left; simp
      · rw [if_neg h2] at h; cases h
    · simp only [leafErase, if_neg h1, Option.map_eq_some'] at h
      obtain ⟨es'', h5, rfl⟩ := h
      rcases ih es'' h5 with h6 | h6
      · left; simp [h6]
      · right; simp; omega

/-! ### Insert preserves balance -/

/-- What `insDownF` guarantees below one balanced node: a still-balanced
node of unchanged height that did not shrink, or two balanced nodes of the
same height produced by a split, both meeting the non-root minimum. -/
theorem insDownF_bal {deg : Nat} (k v : Nat) (h6 : 6 ≤ deg) :
    ∀ (fuel : Nat) (t : MTree) (h : Nat), depth t ≤ fuel →
      nodeOK deg t = true → unifH t h = true →
      (∀ t', insDownF deg k v fuel t = .one t' →
        nodeOK deg t' = true ∧ unifH t' h = true ∧ topSize t ≤ topSize t' ∧
          (∀ es0, t = .leaf es0 → ∃ es', t' = .leaf es')) ∧
      (∀ l s r, insDownF deg k v fuel t = .two l s r →
        (minSize deg ≤ topSize l ∧ nodeOK deg l = true ∧ unifH l h = true) ∧
        (minSize deg ≤ topSize r ∧ nodeOK deg r = true ∧ unifH r h = true)) := by
  have hmin2 := minSize_ge_two h6
  intro fuel
  induction fuel with
  | zero =>
    intro t h hd hOK hu
    cases t with
    | node ks cs => simp [depth] at hd
    | leaf es =>
      have h0 : h = 0 := by simpa [unifH] using hu
      subst h0
      simp only [nodeOK, decide_eq_true_eq] at hOK
      obtain ⟨hlow, hhigh⟩ := leafInsert_len k v es
      by_cases hif : (leafInsert k v es).length ≤ deg - 1
      · constructor
        · intro t' ht'
          simp only [insDownF, if_pos hif, InsRes.one.injEq] at ht'
          subst ht'
          exact ⟨by simpa [nodeOK] using hif, by simp [unifH], by
            simpa [topSize] using hlow, fun es0 _ => ⟨leafInsert k v es, rfl⟩⟩
        · intro l s r hlr
          simp only [insDownF, if_pos hif] at hlr
          cases hlr
      · have hlen : (leafInsert k v es).length = deg := by omega
        have hL : (deg - 1 + 1) / 2 < (leafInsert k v es).length := by omega
        rcases hdrop : (leafInsert k v es).drop ((deg - 1 + 1) / 2) with _ | ⟨e, esR⟩
        · exfalso
          have := List.length_drop ((deg - 1 + 1) / 2) (leafInsert k v es)
          rw [hdrop] at this
          simp at this
          omega
        · have hlenR : esR.length + 1 = deg - (deg - 1 + 1) / 2 := by
            have := List.length_drop ((deg - 1 + 1) / 2) (leafInsert k v es)
            rw [hdrop] at this
            simp at this
            omega
          constructor
          · intro t' ht'
            simp only [insDownF, if_neg hif, splitLeaf, hdrop] at ht'
            cases ht'
          · intro l s r hlr
            simp only [insDownF, if_neg hif, splitLeaf, hdrop, InsRes.two.injEq] at hlr
            obtain ⟨rfl, rfl, rfl⟩ := hlr
            have htake : ((leafInsert k v es).take ((deg - 1 + 1) / 2)).length =
                (deg - 1 + 1) / 2 := by
              rw [List.length_take]; omega
            refine ⟨⟨?_, ?_, by simp [unifH]⟩, ⟨?_, ?_, by simp [unifH]⟩⟩
            · simp only [topSize, htake, minSize]; omega
            · simp only [nodeOK, decide_eq_true_eq, htake]; omega
            · simp only [topSize, List.length_cons, minSize]; omega
            · simp only [nodeOK, decide_eq_true_eq, List.length_cons]; omega
  | succ fuel ih =>
    intro t h hd hOK hu
    cases t with
    | leaf es =>
      -- same as the fuel-0 leaf case: the leaf branch ignores the fuel
      have h0 : h = 0 := by simpa [unifH] using hu
      subst h0
      simp only [nodeOK, decide_eq_true_eq] at hOK
      obtain ⟨hlow, hhigh⟩ := leafInsert_len k v es
      by_cases hif : (leafInsert k v es).length ≤ deg - 1
      · constructor
        · intro t' ht'
          simp only [insDownF, if_pos hif, InsRes.one.injEq] at ht'
          subst ht'
          exact ⟨by simpa [nodeOK] using hif, by simp [unifH], by
            simpa [topSize] using hlow, fun es0 _ => ⟨leafInsert k v es, rfl⟩⟩
        · intro l s r hlr
          simp only [insDownF, if_pos hif] at hlr
          cases hlr
      · have hlen : (leafInsert k v es).length = deg := by omega
        have hL : (deg - 1 + 1) / 2 < (leafInsert k v es).length := by omega
        rcases hdrop : (leafInsert k v es).drop ((deg - 1 + 1) / 2) with _ | ⟨e, esR⟩
        · exfalso
          have := List.length_drop ((deg - 1 + 1) / 2) (leafInsert k v es)
          rw [hdrop] at this
          simp at this
          omega
        · have hlenR : esR.length + 1 = deg - (deg - 1 + 1) / 2 := by
            have := List.length_drop ((deg - 1 + 1) / 2) (leafInsert k v es)
            rw [hdrop] at this
            simp at this
            omega
          constructor
          · intro t' ht'
            simp only [insDownF, if_neg hif, splitLeaf, hdrop] at ht'
            cases ht'
          · intro l s r hlr
            simp only [insDownF, if_neg hif, splitLeaf, hdrop, InsRes.two.injEq] at hlr
            obtain ⟨rfl, rfl, rfl⟩ := hlr
            have htake : ((leafInsert k v es).take ((deg - 1 + 1) / 2)).length =
                (deg - 1 + 1) / 2 := by
              rw [List.length_take]; omega
            refine ⟨⟨?_, ?_, by simp [unifH]⟩, ⟨?_, ?_, by simp [unifH]⟩⟩
            · simp only [topSize, htake, minSize]; omega
            · simp only [nodeOK, decide_eq_true_eq, htake]; omega
            · simp only [topSize, List.length_cons, minSize]; omega
            · simp only [nodeOK, decide_eq_true_eq, List.length_cons]; omega
    | node ks cs =>
      simp only [nodeOK, Bool.and_eq_true, decide_eq_true_eq] at hOK
      obtain ⟨⟨hlen, hks⟩, hbal⟩ := hOK
      cases h with
      | zero => simp [unifH] at hu
      | succ h' =>
      have hall : allUnifH cs h' = true := by simpa [unifH] using hu
      have hi : pickIdx k ks < cs.length := by
        have := pickIdx_le_length k ks; omega
      have hcmem := childAt_mem hi
      obtain ⟨hcmin, hcOK⟩ := (allBal_iff cs).mp hbal _ hcmem
      have hcu : unifH (childAt cs (pickIdx k ks)) h' = true :=
        (allUnifH_iff cs h').mp hall _ hcmem
      have hdc : depth (childAt cs (pickIdx k ks)) ≤ fuel := by
        have := depth_childAt_le cs (pickIdx k ks)
        simp only [depth] at hd
        omega
      obtain ⟨IH1, IH2⟩ := ih (childAt cs (pickIdx k ks)) h' hdc hcOK hcu
      rcases hrec : insDownF deg k v fuel (childAt cs (pickIdx k ks)) with t' | ⟨l, s₀, r⟩
      · -- child updated in place
        obtain ⟨hOK', hu', hsz', _⟩ := IH1 t' hrec
        have hsetbal : allBal deg (cs.set (pickIdx k ks) t') = true := by
          rw [allBal_iff]
          intro c hc
          rcases List.mem_or_eq_of_mem_set hc with hc' | rfl
          · exact (allBal_iff cs).mp hbal c hc'
          · exact ⟨le_trans hcmin hsz', hOK'⟩
        have hsetu : allUnifH (cs.set (pickIdx k ks) t') h' = true := by
          rw [allUnifH_iff]
          intro c hc
          rcases List.mem_or_eq_of_mem_set hc with hc' | rfl
          · exact (allUnifH_iff cs h').mp hall c hc'
          · exact hu'
        constructor
        · intro t'' ht''
          simp only [insDownF, hrec, InsRes.one.injEq] at ht''
          subst ht''
          refine ⟨?_, ?_, le_refl _, fun es0 h0 => by simp at h0⟩
          · simp only [nodeOK, Bool.and_eq_true, decide_eq_true_eq, List.length_set]
            exact ⟨⟨hlen, hks⟩, hsetbal⟩
          · simpa [unifH] using hsetu
        · intro l s r hlr
          simp only [insDownF, hrec] at hlr
          cases hlr
      · -- child split: separator and new right child enter this node
        obtain ⟨⟨hlmin, hlOK, hlu⟩, ⟨hrmin, hrOK, hru⟩⟩ := IH2 l s₀ r hrec
        have hks'len : (insAt (pickIdx k ks) s₀ ks).length = ks.length + 1 :=
          length_insAt s₀ _ ks
        have hcs'len :
            (insAt (pickIdx k ks + 1) r (cs.set (pickIdx k ks) l)).length =
              cs.length + 1 := by
          rw [length_insAt, List.length_set]
        have hcs'bal :
            allBal deg (insAt (pickIdx k ks + 1) r (cs.set (pickIdx k ks) l)) = true := by
          rw [allBal_iff]
          intro c hc
          rcases mem_insAt r _ _ c hc with rfl | hc'
          · exact ⟨hrmin, hrOK⟩
          · rcases List.mem_or_eq_of_mem_set hc' with hc'' | rfl
            · exact (allBal_iff cs).mp hbal c hc''
            · exact ⟨hlmin, hlOK⟩
        have hcs'u :
            allUnifH (insAt (pickIdx k ks + 1) r (cs.set (pickIdx k ks) l)) h' = true := by
          rw [allUnifH_iff]
          intro c hc
          rcases mem_insAt r _ _ c hc with rfl | hc'
          · exact hru
          · rcases List.mem_or_eq_of_mem_set hc' with hc'' | rfl
            · exact (allUnifH_iff cs h').mp hall c hc''
            · exact hlu
        by_cases hif : (insAt (pickIdx k ks) s₀ ks).length ≤ deg - 1
        · constructor
          · intro t'' ht''
            simp only [insDownF, hrec, if_pos hif, InsRes.one.injEq] at ht''
            subst ht''
            refine ⟨?_, ?_, ?_, fun es0 h0 => by simp at h0⟩
            · simp only [nodeOK, Bool.and_eq_true, decide_eq_true_eq, hks'len,
                hcs'len]
              exact ⟨⟨by omega, by omega⟩, hcs'bal⟩
            · simpa [unifH] using hcs'u
            · simp only [topSize, hks'len]; omega
          · intro l' s' r' hlr
            simp only [insDownF, hrec, if_pos hif] at hlr
            cases hlr
        · -- this node overflows as well: split it
          have hks'deg : (insAt (pickIdx k ks) s₀ ks).length = deg := by omega
          have hL : (deg - 1 + 1) / 2 < (insAt (pickIdx k ks) s₀ ks).length := by
            omega
          rcases hdrop : (insAt (pickIdx k ks) s₀ ks).drop ((deg - 1 + 1) / 2)
            with _ | ⟨s₁, ksR⟩
          · exfalso
            have := List.length_drop ((deg - 1 + 1) / 2) (insAt (pickIdx k ks) s₀ ks)
            rw [hdrop] at this
            simp at this
            omega
          · have hlenR : ksR.length + 1 = deg - (deg - 1 + 1) / 2 := by
              have := List.length_drop ((deg - 1 + 1) / 2) (insAt (pickIdx k ks) s₀ ks)
              rw [hdrop] at this
              simp at this
              omega
            constructor
            · intro t'' ht''
              simp only [insDownF, hrec, if_neg hif, splitNode, hdrop] at ht''
              cases ht''
            · intro l' s' r' hlr
              simp only [insDownF, hrec, if_neg hif, splitNode, hdrop,
                InsRes.two.injEq] at hlr
              obtain ⟨rfl, rfl, rfl⟩ := hlr
              have htakeK : ((insAt (pickIdx k ks) s₀ ks).take ((deg - 1 + 1) / 2)).length =
                  (deg - 1 + 1) / 2 := by
                rw [List.length_take]; omega
              have htakeC :
                  ((insAt (pickIdx k ks + 1) r (cs.set (pickIdx k ks) l)).take
                    ((deg - 1 + 1) / 2 + 1)).length = (deg - 1 + 1) / 2 + 1 := by
                rw [List.length_take]; omega
              have hdropC :
                  ((insAt (pickIdx k ks + 1) r (cs.set (pickIdx k ks) l)).drop
                    ((deg - 1 + 1) / 2 + 1)).length =
                    cs.length - (deg - 1 + 1) / 2 := by
                rw [List.length_drop]; omega
              have hsubT := List.take_subset ((deg - 1 + 1) / 2 + 1)
                (insAt (pickIdx k ks + 1) r (cs.set (pickIdx k ks) l))
              have hsubD := List.drop_subset ((deg - 1 + 1) / 2 + 1)
                (insAt (pickIdx k ks + 1) r (cs.set (pickIdx k ks) l))
              refine ⟨⟨?_, ?_, ?_⟩, ⟨?_, ?_, ?_⟩⟩
              · simp only [topSize, htakeK, minSize]; omega
              · simp only [nodeOK, Bool.and_eq_true, decide_eq_true_eq, htakeK, htakeC]
                refine ⟨⟨trivial, by omega⟩, ?_⟩
                rw [allBal_iff]
                intro c hc
                exact (allBal_iff _).mp hcs'bal c (hsubT hc)
              · simp only [unifH]
                rw [allUnifH_iff]
                intro c hc
                exact (allUnifH_iff _ _).mp hcs'u c (hsubT hc)
              · simp only [topSize, minSize]; omega
              · simp only [nodeOK, Bool.and_eq_true, decide_eq_true_eq, hdropC]
                refine ⟨⟨by omega, by omega⟩, ?_⟩
                rw [allBal_iff]
                intro c hc
                exact (allBal_iff _).mp hcs'bal c (hsubD hc)
              · simp only [unifH]
                rw [allUnifH_iff]
                intro c hc
                exact (allUnifH_iff _ _).mp hcs'u c (hsubD hc)

/-- `insert` preserves the full tree invariant. -/
theorem insertT_INV (deg k v : Nat) (h6 : 6 ≤ deg) (t : MTree)
    (hI : INV deg t = true) : INV deg (insertT deg k v t) = true := by
  have hI' := hI
  simp only [INV, Bool.and_eq_true] at hI'
  obtain ⟨hroot, hu⟩ := hI'
  have hOK := balRoot_nodeOK hroot
  obtain ⟨H1, H2⟩ := insDownF_bal k v h6 (depth t) t (depth t) le_rfl hOK hu
  simp only [insertT, insDown]
  rcases hres : insDownF deg k v (depth t) t with t' | ⟨l, s, r⟩
  · obtain ⟨hOK', hu', hsz, hshape⟩ := H1 t' hres
    have hdep : depth t' = depth t := unifH_depth (depth t) t' hOK' hu'
    simp only [INV, Bool.and_eq_true]
    refine ⟨?_, by rw [hdep]; exact hu'⟩
    cases t' with
    | leaf es' =>
      simp only [balRoot, decide_eq_true_eq]
      simpa [nodeOK] using hOK'
    | node ks' cs' =>
      have h1 : 1 ≤ topSize t := by
        cases t with
        | leaf es =>
          obtain ⟨es', hes'⟩ := hshape es rfl
          cases hes'
        | node ks0 cs0 =>
          simp only [balRoot, Bool.and_eq_true, decide_eq_true_eq] at hroot
          simpa [topSize] using hroot.1
      simp only [balRoot, Bool.and_eq_true, decide_eq_true_eq]
      refine ⟨?_, hOK'⟩
      have : 1 ≤ topSize (MTree.node ks' cs') := le_trans h1 hsz
      simpa [topSize] using this
  · obtain ⟨⟨hlmin, hlOK, hlu⟩, ⟨hrmin, hrOK, hru⟩⟩ := H2 l s r hres
    have hnewOK : nodeOK deg (MTree.node [s] [l, r]) = true := by
      simp only [nodeOK, Bool.and_eq_true, decide_eq_true_eq]
      refine ⟨⟨by simp, by simpa using (by omega : 1 ≤ deg - 1)⟩, ?_⟩
      rw [allBal_iff]
      intro c hc
      rcases List.mem_cons.mp hc with rfl | hc'
      · exact ⟨hlmin, hlOK⟩
      · rcases List.mem_cons.mp hc' with rfl | hc''
        · exact ⟨hrmin, hrOK⟩
        · cases hc''
    have hnewu : unifH (MTree.node [s] [l, r]) (depth t + 1) = true := by
      simp only [unifH]
      rw [allUnifH_iff]
      intro c hc
      rcases List.mem_cons.mp hc with rfl | hc'
      · exact hlu
      · rcases List.mem_cons.mp hc' with rfl | hc''
        · exact hru
        · cases hc''
    have hdep : depth (MTree.node [s] [l, r]) = depth t + 1 :=
      unifH_depth (depth t + 1) _ hnewOK hnewu
    simp only [INV, Bool.and_eq_true]
    constructor
    · simp only [balRoot, Bool.and_eq_true, decide_eq_true_eq]
      exact ⟨by simp, hnewOK⟩
    · rw [hdep]; exact hnewu

/-! ### Erase preserves balance: positional helpers -/

theorem childAt_set_self {cs : List MTree} {i : Nat} (h : i < cs.length)
    (c : MTree) : childAt (cs.set i c) i = c :=
  getD_set_self cs i h c dfl

theorem childAt_set_ne (cs : List MTree) {i j : Nat} (h : i ≠ j)
    (c : MTree) : childAt (cs.set i c) j = childAt cs j :=
  getD_set_ne cs i j h c dfl

theorem childAt_eraseIdx : ∀ (cs : List MTree) (i j : Nat),
    childAt (cs.eraseIdx i) j = if j < i then childAt cs j else childAt cs (j + 1) := by
  intro cs
  induction cs with
  | nil =>
    intro i j
    simp only [List.eraseIdx_nil]
    split <;> rfl
  | cons c r ih =>
    intro i j
    cases i with
    | zero => simp [childAt]
    | succ i' =>
      cases j with
      | zero => simp [childAt]
      | succ j' =>
        have : childAt (List.eraseIdx (c :: r) (i' + 1)) (j' + 1) =
            childAt (r.eraseIdx i') j' := by
          simp [childAt, List.eraseIdx_cons_succ]
        rw [this, ih i' j']
        by_cases hj : j' < i'
        · rw [if_pos hj, if_pos (by omega)]
          simp [childAt]
        · rw [if_neg hj, if_neg (by omega)]
          simp [childAt]

theorem allBal_idx {deg : Nat} {cs : List MTree} (h : allBal deg cs = true) :
    ∀ j < cs.length,
      minSize deg ≤ topSize (childAt cs j) ∧ nodeOK deg (childAt cs j) = true :=
  fun j hj => (allBal_iff cs).mp h _ (childAt_mem hj)

theorem allUnifH_idx {cs : List MTree} {h' : Nat} (h : allUnifH cs h' = true) :
    ∀ j < cs.length, unifH (childAt cs j) h' = true :=
  fun j hj => (allUnifH_iff cs h').mp h _ (childAt_mem hj)

theorem allBal_of_idx {deg : Nat} {cs : List MTree}
    (h : ∀ j < cs.length,
      minSize deg ≤ topSize (childAt cs j) ∧ nodeOK deg (childAt cs j) = true) :
    allBal deg cs = true := by
  rw [allBal_iff]
  intro c hc
  obtain ⟨j, hj, rfl⟩ := List.mem_iff_getElem.mp hc
  have : childAt cs j = cs[j] := by
    simp [childAt, List.getD_eq_getElem?_getD, List.getElem?_eq_getElem hj]
  rw [← this]
  exact h j hj

theorem allUnifH_of_idx {cs : List MTree} {h' : Nat}
    (h : ∀ j < cs.length, unifH (childAt cs j) h' = true) :
    allUnifH cs h' = true := by
  rw [allUnifH_iff]
  intro c hc
  obtain ⟨j, hj, rfl⟩ := List.mem_iff_getElem.mp hc
  have : childAt cs j = cs[j] := by
    simp [childAt, List.getD_eq_getElem?_getD, List.getElem?_eq_getElem hj]
  rw [← this]
  exact h j hj

theorem getLast?_some_of_ne_nil {α : Type} : ∀ {l : List α}, l ≠ [] →
    ∃ a, l.getLast? = some a := by
  intro l
  induction l with
  | nil => intro h; exact absurd rfl h
  | cons x xs ih =>
    intro _
    cases xs with
    | nil => exact ⟨x, rfl⟩
    | cons y ys =>
      obtain ⟨a, ha⟩ := ih (by simp)
      exact ⟨a, by rw [List.getLast?_cons_cons]; exact ha⟩

theorem exists_cons_of_length_pos {α : Type} {l : List α} (h : 0 < l.length) :
    ∃ x xs, l = x :: xs := by
  cases l with
  | nil => simp at h
  | cons x xs => exact ⟨x, xs, rfl⟩

/-- A child that meets every non-root constraint at height `h'`. -/
def goodC (deg h' : Nat) (c : MTree) : Prop :=
  minSize deg ≤ topSize c ∧ nodeOK deg c = true ∧ unifH c h' = true

theorem minSize_le_degm1 {deg : Nat} (h6 : 6 ≤ deg) : minSize deg ≤ deg - 1 := by
  simp only [minSize]; omega

/-- `move_from_left` with a rich donor at `p` and a one-short receiver at
`p + 1` restores every constraint and keeps both array lengths. -/
theorem moveFromLeftG_bal {deg h' : Nat} (h6 : 6 ≤ deg) (ks : List Nat)
    (cs : List MTree) (p : Nat)
    (hlen : cs.length = ks.length + 1) (hp1 : p + 1 < cs.length)
    (hdon : minSize deg < topSize (childAt cs p))
    (hdOK : nodeOK deg (childAt cs p) = true)
    (hdu : unifH (childAt cs p) h' = true)
    (hrcv : topSize (childAt cs (p + 1)) = minSize deg - 1)
    (hrOK : nodeOK deg (childAt cs (p + 1)) = true)
    (hru : unifH (childAt cs (p + 1)) h' = true)
    (hrest : ∀ j < cs.length, j ≠ p → j ≠ p + 1 → goodC deg h' (childAt cs j)) :
    (moveFromLeftG ks cs p).1.length = ks.length ∧
    (moveFromLeftG ks cs p).2.length = cs.length ∧
    ∀ j < cs.length, goodC deg h' (childAt (moveFromLeftG ks cs p).2 j) := by
  have hmin2 := minSize_ge_two h6
  have hp : p < cs.length := by omega
  cases h' with
  | zero =>
    obtain ⟨les, hles⟩ := unifH_zero hdu
    obtain ⟨res, hres⟩ := unifH_zero hru
    have hlesOK : les.length ≤ deg - 1 := by
      have := hdOK; rw [hles] at this; simpa [nodeOK] using this
    have hlesSz : minSize deg < les.length := by
      have := hdon; rw [hles] at this; simpa [topSize] using this
    have hresSz : res.length = minSize deg - 1 := by
      have := hrcv; rw [hres] at this; simpa [topSize] using this
    obtain ⟨e, he⟩ := getLast?_some_of_ne_nil
      (by intro h0; rw [h0] at hlesSz; simp only [List.length_nil] at hlesSz
          omega : les ≠ [])
    have hmove : moveFromLeftG ks cs p =
        (ks.set p e.1,
         (cs.set p (.leaf les.dropLast)).set (p + 1) (.leaf (e :: res))) := by
      simp only [moveFromLeftG, hles, hres, he]
    rw [hmove]
    refine ⟨by simp, by simp, ?_⟩
    intro j hj
    by_cases hjp1 : j = p + 1
    · subst hjp1
      rw [childAt_set_self (by simpa using hp1)]
      refine ⟨?_, ?_, by simp [unifH]⟩
      · simp only [topSize, List.length_cons]; omega
      · simp only [nodeOK, decide_eq_true_eq, List.length_cons]
        have := minSize_le_degm1 h6; omega
    · by_cases hjp : j = p
      · subst hjp
        rw [childAt_set_ne _ (by omega), childAt_set_self (by simpa using hp)]
        have hldl : les.dropLast.length = les.length - 1 :=
          List.length_dropLast les
        refine ⟨?_, ?_, by simp [unifH]⟩
        · simp only [topSize, hldl]; omega
        · simp only [nodeOK, decide_eq_true_eq, hldl]; omega
      · rw [childAt_set_ne _ (by omega), childAt_set_ne _ (by omega)]
        exact hrest j hj hjp hjp1
  | succ h'' =>
    obtain ⟨lks, lcs, hles, hlall⟩ := unifH_succ hdu
    obtain ⟨rks, rcs, hres, hrall⟩ := unifH_succ hru
    have hdOK' := hdOK; rw [hles] at hdOK'
    simp only [nodeOK, Bool.and_eq_true, decide_eq_true_eq] at hdOK'
    obtain ⟨⟨hllen, hlks⟩, hlbal⟩ := hdOK'
    have hrOK' := hrOK; rw [hres] at hrOK'
    simp only [nodeOK, Bool.and_eq_true, decide_eq_true_eq] at hrOK'
    obtain ⟨⟨hrlen, hrks⟩, hrbal⟩ := hrOK'
    have hlksSz : minSize deg < lks.length := by
      have := hdon; rw [hles] at this; simpa [topSize] using this
    have hrksSz : rks.length = minSize deg - 1 := by
      have := hrcv; rw [hres] at this; simpa [topSize] using this
    obtain ⟨m, hm⟩ := getLast?_some_of_ne_nil
      (by intro h0; rw [h0] at hlksSz; simp only [List.length_nil] at hlksSz
          omega : lks ≠ [])
    obtain ⟨lc, hlc⟩ := getLast?_some_of_ne_nil
      (by intro h0; rw [h0] at hllen; simp only [List.length_nil] at hllen
          omega : lcs ≠ [])
    have hmove : moveFromLeftG ks cs p =
        (ks.set p m,
         (cs.set p (.node lks.dropLast lcs.dropLast)).set (p + 1)
           (.node (ks.getD p 0 :: rks) (lc :: rcs))) := by
      simp only [moveFromLeftG, hles, hres, hm, hlc]
    rw [hmove]
    refine ⟨by simp, by simp, ?_⟩
    intro j hj
    by_cases hjp1 : j = p + 1
    · subst hjp1
      rw [childAt_set_self (by simpa using hp1)]
      refine ⟨?_, ?_, ?_⟩
      · simp only [topSize, List.length_cons]; omega
      · simp only [nodeOK, Bool.and_eq_true, decide_eq_true_eq, List.length_cons]
        refine ⟨⟨by omega, by have := minSize_le_degm1 h6; omega⟩, ?_⟩
        rw [allBal_iff]
        intro c hc
        rcases List.mem_cons.mp hc with rfl | hc'
        · exact (allBal_iff lcs).mp hlbal c (mem_getLast? hlc)
        · exact (allBal_iff rcs).mp hrbal c hc'
      · simp only [unifH]
        rw [allUnifH_iff]
        intro c hc
        rcases List.mem_cons.mp hc with rfl | hc'
        · exact (allUnifH_iff lcs h'').mp hlall c (mem_getLast? hlc)
        · exact (allUnifH_iff rcs h'').mp hrall c hc'
    · by_cases hjp : j = p
      · subst hjp
        rw [childAt_set_ne _ (by omega), childAt_set_self (by simpa using hp)]
        have hkdl : lks.dropLast.length = lks.length - 1 := List.length_dropLast lks
        have hcdl : lcs.dropLast.length = lcs.length - 1 := List.length_dropLast lcs
        refine ⟨?_, ?_, ?_⟩
        · simp only [topSize, hkdl]; omega
        · simp only [nodeOK, Bool.and_eq_true, decide_eq_true_eq, hkdl, hcdl]
          refine ⟨⟨by omega, by omega⟩, ?_⟩
          rw [allBal_iff]
          intro c hc
          exact (allBal_iff lcs).mp hlbal c (List.dropLast_subset lcs hc)
        · simp only [unifH]
          rw [allUnifH_iff]
          intro c hc
          exact (allUnifH_iff lcs h'').mp hlall c (List.dropLast_subset lcs hc)
      · rw [childAt_set_ne _ (by omega), childAt_set_ne _ (by omega)]
        exact hrest j hj hjp hjp1

/-- `move_from_right` with a one-short receiver at `p` and a rich donor at
`p + 1` restores every constraint and keeps both array lengths. -/
theorem moveFromRightG_bal {deg h' : Nat} (h6 : 6 ≤ deg) (ks : List Nat)
    (cs : List MTree) (p : Nat)
    (hlen : cs.length = ks.length + 1) (hp1 : p + 1 < cs.length)
    (hrcv : topSize (childAt cs p) = minSize deg - 1)
    (hrOK : nodeOK deg (childAt cs p) = true)
    (hru : unifH (childAt cs p) h' = true)
    (hdon : minSize deg < topSize (childAt cs (p + 1)))
    (hdOK : nodeOK deg (childAt cs (p + 1)) = true)
    (hdu : unifH (childAt cs (p + 1)) h' = true)
    (hrest : ∀ j < cs.length, j ≠ p → j ≠ p + 1 → goodC deg h' (childAt cs j)) :
    (moveFromRightG ks cs p).1.length = ks.length ∧
    (moveFromRightG ks cs p).2.length = cs.length ∧
    ∀ j < cs.length, goodC deg h' (childAt (moveFromRightG ks cs p).2 j) := by
  have hmin2 := minSize_ge_two h6
  have hp : p < cs.length := by omega
  cases h' with
  | zero =>
    obtain ⟨les, hles⟩ := unifH_zero hru
    obtain ⟨res, hres⟩ := unifH_zero hdu
    have hlesSz : les.length = minSize deg - 1 := by
      have := hrcv; rw [hles] at this; simpa [topSize] using this
    have hresSz : minSize deg < res.length := by
      have := hdon; rw [hres] at this; simpa [topSize] using this
    have hresOK : res.length ≤ deg - 1 := by
      have := hdOK; rw [hres] at this; simpa [nodeOK] using this
    obtain ⟨e, res1, rfl⟩ := exists_cons_of_length_pos (l := res) (by omega)
    obtain ⟨e', res', rfl⟩ := exists_cons_of_length_pos (l := res1) (by
      simp only [List.length_cons] at hresSz ⊢; omega)
    have hmove : moveFromRightG ks cs p =
        (ks.set p e'.1,
         (cs.set p (.leaf (les ++ [e]))).set (p + 1) (.leaf (e' :: res'))) := by
      simp only [moveFromRightG, hles, hres]
    rw [hmove]
    refine ⟨by simp, by simp, ?_⟩
    intro j hj
    by_cases hjp1 : j = p + 1
    · subst hjp1
      rw [childAt_set_self (by simpa using hp1)]
      simp only [List.length_cons] at hresSz hresOK
      refine ⟨?_, ?_, by simp [unifH]⟩
      · simp only [topSize, List.length_cons]; omega
      · simp only [nodeOK, decide_eq_true_eq, List.length_cons]; omega
    · by_cases hjp : j = p
      · subst hjp
        rw [childAt_set_ne _ (by omega), childAt_set_self (by simpa using hp)]
        refine ⟨?_, ?_, by simp [unifH]⟩
        · simp only [topSize, List.length_append, List.length_singleton]; omega
        · simp only [nodeOK, decide_eq_true_eq, List.length_append,
            List.length_singleton]
          have := minSize_le_degm1 h6; omega
      · rw [childAt_set_ne _ (by omega), childAt_set_ne _ (by omega)]
        exact hrest j hj hjp hjp1
  | succ h'' =>
    obtain ⟨lks, lcs, hles, hlall⟩ := unifH_succ hru
    obtain ⟨rks, rcs, hres, hrall⟩ := unifH_succ hdu
    have hlOK' := hrOK; rw [hles] at hlOK'
    simp only [nodeOK, Bool.and_eq_true, decide_eq_true_eq] at hlOK'
    obtain ⟨⟨hllen, hlks⟩, hlbal⟩ := hlOK'
    have hrOK' := hdOK; rw [hres] at hrOK'
    simp only [nodeOK, Bool.and_eq_true, decide_eq_true_eq] at hrOK'
    obtain ⟨⟨hrlen, hrks⟩, hrbal⟩ := hrOK'
    have hlksSz : lks.length = minSize deg - 1 := by
      have := hrcv; rw [hles] at this; simpa [topSize] using this
    have hrksSz : minSize deg < rks.length := by
      have := hdon; rw [hres] at this; simpa [topSize] using this
    obtain ⟨rk, rks', rfl⟩ := exists_cons_of_length_pos (l := rks) (by omega)
    obtain ⟨rc, rcs', rfl⟩ := exists_cons_of_length_pos (l := rcs) (by
      simp only [List.length_cons] at hrlen; omega)
    have hmove : moveFromRightG ks cs p =
        (ks.set p rk,
         (cs.set p (.node (lks ++ [ks.getD p 0]) (lcs ++ [rc]))).set (p + 1)
           (.node rks' rcs')) := by
      simp only [moveFromRightG, hles, hres]
    rw [hmove]
    refine ⟨by simp, by simp, ?_⟩
    intro j hj
    simp only [List.length_cons] at hrlen hrks hrksSz
    by_cases hjp1 : j = p + 1
    · subst hjp1
      rw [childAt_set_self (by simpa using hp1)]
      refine ⟨?_, ?_, ?_⟩
      · simp only [topSize]; omega
      · simp only [nodeOK, Bool.and_eq_true, decide_eq_true_eq]
        refine ⟨⟨by omega, by omega⟩, ?_⟩
        rw [allBal_iff]
        intro c hc
        exact (allBal_iff (rc :: rcs')).mp hrbal c (List.mem_cons_of_mem _ hc)
      · simp only [unifH]
        rw [allUnifH_iff]
        intro c hc
        exact (allUnifH_iff (rc :: rcs') h'').mp hrall c (List.mem_cons_of_mem _ hc)
    · by_cases hjp : j = p
      · subst hjp
        rw [childAt_set_ne _ (by omega), childAt_set_self (by simpa using hp)]
        refine ⟨?_, ?_, ?_⟩
        · simp only [topSize, List.length_append, List.length_singleton]; omega
        · simp only [nodeOK, Bool.and_eq_true, decide_eq_true_eq,
            List.length_append, List.length_singleton]
          refine ⟨⟨by omega, by have := minSize_le_degm1 h6; omega⟩, ?_⟩
          rw [allBal_iff]
          intro c hc
          rcases List.mem_append.mp hc with hc' | hc'
          · exact (allBal_iff lcs).mp hlbal c hc'
          · rw [List.mem_singleton.mp hc']
            exact (allBal_iff (rc :: rcs')).mp hrbal rc (by simp)
        · simp only [unifH]
          rw [allUnifH_iff]
          intro c hc
          rcases List.mem_append.mp hc with hc' | hc'
          · exact (allUnifH_iff lcs h'').mp hlall c hc'
          · rw [List.mem_singleton.mp hc']
            exact (allUnifH_iff (rc :: rcs') h'').mp hrall rc (by simp)
      · rw [childAt_set_ne _ (by omega), childAt_set_ne _ (by omega)]
        exact hrest j hj hjp hjp1

/-- `merge` of the two children at `p` and `p + 1` — together one key
short of twice the minimum — produces one constraint-satisfying node and
shortens both parent arrays by one. -/
theorem mergeG_bal {deg h' : Nat} (h6 : 6 ≤ deg) (ks : List Nat)
    (cs : List MTree) (p : Nat)
    (hlen : cs.length = ks.length + 1) (hp1 : p + 1 < cs.length)
    (hsum_le : topSize (childAt cs p) + topSize (childAt cs (p + 1)) ≤
      2 * minSize deg - 1)
    (hsum_ge : minSize deg ≤ topSize (childAt cs p) + topSize (childAt cs (p + 1)))
    (hlOK : nodeOK deg (childAt cs p) = true)
    (hlu : unifH (childAt cs p) h' = true)
    (hrOK : nodeOK deg (childAt cs (p + 1)) = true)
    (hru : unifH (childAt cs (p + 1)) h' = true)
    (hrest : ∀ j < cs.length, j ≠ p → j ≠ p + 1 → goodC deg h' (childAt cs j)) :
    (mergeG ks cs p).1.length + 1 = ks.length ∧
    (mergeG ks cs p).2.length + 1 = cs.length ∧
    ∀ j < cs.length - 1, goodC deg h' (childAt (mergeG ks cs p).2 j) := by
  have hmin2 := minSize_ge_two h6
  have hp : p < cs.length := by omega
  have hpk : p < ks.length := by omega
  have hmergedGood : ∀ merged : MTree, topSize merged ≤ deg - 1 →
      minSize deg ≤ topSize merged → nodeOK deg merged = true →
      unifH merged h' = true →
      mergeG ks cs p =
        (ks.eraseIdx p, (cs.set p merged).eraseIdx (p + 1)) →
      (mergeG ks cs p).1.length + 1 = ks.length ∧
      (mergeG ks cs p).2.length + 1 = cs.length ∧
      ∀ j < cs.length - 1, goodC deg h' (childAt (mergeG ks cs p).2 j) := by
    intro merged hmle hmge hmOK hmu hmeq
    rw [hmeq]
    refine ⟨?_, ?_, ?_⟩
    · simp only [List.length_eraseIdx]
      rw [if_pos hpk]; omega
    · simp only [List.length_eraseIdx, List.length_set]
      rw [if_pos hp1]; omega
    · intro j hj
      rw [childAt_eraseIdx]
      by_cases hjlt : j < p + 1
      · rw [if_pos hjlt]
        by_cases hjp : j = p
        · subst hjp
          rw [childAt_set_self hp]
          exact ⟨hmge, hmOK, hmu⟩
        · rw [childAt_set_ne _ (by omega)]
          exact hrest j (by omega) hjp (by omega)
      · rw [if_neg hjlt]
        rw [childAt_set_ne _ (by omega)]
        exact hrest (j + 1) (by omega) (by omega) (by omega)
  cases h' with
  | zero =>
    obtain ⟨les, hles⟩ := unifH_zero hlu
    obtain ⟨res, hres⟩ := unifH_zero hru
    have hsum_le' : les.length + res.length ≤ 2 * minSize deg - 1 := by
      have := hsum_le; rw [hles, hres] at this; simpa [topSize] using this
    have hsum_ge' : minSize deg ≤ les.length + res.length := by
      have := hsum_ge; rw [hles, hres] at this; simpa [topSize] using this
    have hdeg1 : 2 * minSize deg ≤ deg := by
      simp only [minSize]; omega
    refine hmergedGood (.leaf (les ++ res)) ?_ ?_ ?_ (by simp [unifH]) ?_
    · simp only [topSize, List.length_append]
      have := minSize_le_degm1 h6; omega
    · simp only [topSize, List.length_append]; omega
    · simp only [nodeOK, decide_eq_true_eq, List.length_append]
      have := minSize_le_degm1 h6; omega
    · simp only [mergeG, hles, hres]
  | succ h'' =>
    obtain ⟨lks, lcs, hles, hlall⟩ := unifH_succ hlu
    obtain ⟨rks, rcs, hres, hrall⟩ := unifH_succ hru
    have hlOK' := hlOK; rw [hles] at hlOK'
    simp only [nodeOK, Bool.and_eq_true, decide_eq_true_eq] at hlOK'
    obtain ⟨⟨hllen, hlks⟩, hlbal⟩ := hlOK'
    have hrOK' := hrOK; rw [hres] at hrOK'
    simp only [nodeOK, Bool.and_eq_true, decide_eq_true_eq] at hrOK'
    obtain ⟨⟨hrlen, hrks⟩, hrbal⟩ := hrOK'
    have hsum_le' : lks.length + rks.length ≤ 2 * minSize deg - 1 := by
      have := hsum_le; rw [hles, hres] at this; simpa [topSize] using this
    have hsum_ge' : minSize deg ≤ lks.length + rks.length := by
      have := hsum_ge; rw [hles, hres] at this; simpa [topSize] using this
    have hdeg1 : 2 * minSize deg ≤ deg - 1 := by
      simp only [minSize]; omega
    refine hmergedGood (.node (lks ++ ks.getD p 0 :: rks) (lcs ++ rcs)) ?_ ?_ ?_ ?_ ?_
    · simp only [topSize, List.length_append, List.length_cons]; omega
    · simp only [topSize, List.length_append, List.length_cons]; omega
    · simp only [nodeOK, Bool.and_eq_true, decide_eq_true_eq, List.length_append,
        List.length_cons]
      refine ⟨⟨by omega, by omega⟩, ?_⟩
      rw [allBal_iff]
      intro c hc
      rcases List.mem_append.mp hc with hc' | hc'
      · exact (allBal_iff lcs).mp hlbal c hc'
      · exact (allBal_iff rcs).mp hrbal c hc'
    · simp only [unifH]
      rw [allUnifH_iff]
      intro c hc
      rcases List.mem_append.mp hc with hc' | hc'
      · exact (allUnifH_iff lcs h'').mp hlall c hc'
      · exact (allUnifH_iff rcs h'').mp hrall c hc'
    · simp only [mergeG, hles, hres]

/-- What `delDownF` guarantees below one balanced node: a still-balanced
node of unchanged height whose `node_size_` dropped by at most one. -/
theorem delDownF_bal {deg : Nat} (k v : Nat) (h6 : 6 ≤ deg) :
    ∀ (fuel : Nat) (t : MTree) (h : Nat), depth t ≤ fuel →
      nodeOK deg t = true → 1 ≤ topSize t → unifH t h = true →
      ∀ t', delDownF deg k v fuel t = some t' →
        nodeOK deg t' = true ∧ unifH t' h = true ∧
          topSize t - 1 ≤ topSize t' := by
  have hmin2 := minSize_ge_two h6
  intro fuel
  induction fuel with
  | zero =>
    intro t h hd hOK hts hu t' ht'
    cases t with
    | node ks cs => simp [depth] at hd
    | leaf es =>
      have h0 : h = 0 := by simpa [unifH] using hu
      subst h0
      simp only [delDownF] at ht'
      obtain ⟨es', hes', rfl⟩ := Option.map_eq_some'.mp ht'
      have hlen := leafErase_len k v es es' hes'
      simp only [nodeOK, decide_eq_true_eq] at hOK
      refine ⟨?_, by simp [unifH], ?_⟩
      · simp only [nodeOK, decide_eq_true_eq]; omega
      · simp only [topSize]; omega
  | succ fuel ih =>
    intro t h hd hOK hts hu t' ht'
    cases t with
    | leaf es =>
      have h0 : h = 0 := by simpa [unifH] using hu
      subst h0
      simp only [delDownF] at ht'
      obtain ⟨es', hes', rfl⟩ := Option.map_eq_some'.mp ht'
      have hlen := leafErase_len k v es es' hes'
      simp only [nodeOK, decide_eq_true_eq] at hOK
      refine ⟨?_, by simp [unifH], ?_⟩
      · simp only [nodeOK, decide_eq_true_eq]; omega
      · simp only [topSize]; omega
    | node ks cs =>
      simp only [nodeOK, Bool.and_eq_true, decide_eq_true_eq] at hOK
      obtain ⟨⟨hlen, hks⟩, hbal⟩ := hOK
      cases h with
      | zero => simp [unifH] at hu
      | succ h' =>
      have hall : allUnifH cs h' = true := by simpa [unifH] using hu
      have hts' : 1 ≤ ks.length := by simpa [topSize] using hts
      have hi : pickIdx k ks < cs.length := by
        have := pickIdx_le_length k ks; omega
      have hcmem := childAt_mem hi
      obtain ⟨hcmin, hcOK⟩ := (allBal_iff cs).mp hbal _ hcmem
      have hcts : 1 ≤ topSize (childAt cs (pickIdx k ks)) := by omega
      have hcu : unifH (childAt cs (pickIdx k ks)) h' = true :=
        (allUnifH_iff cs h').mp hall _ hcmem
      have hdc : depth (childAt cs (pickIdx k ks)) ≤ fuel := by
        have := depth_childAt_le cs (pickIdx k ks)
        simp only [depth] at hd
        omega
      simp only [delDownF] at ht'
      obtain ⟨c', hrec, hfc⟩ := Option.map_eq_some'.mp ht'
      obtain ⟨hcOK', hcu', hcsz'⟩ := ih _ h' hdc hcOK hcts hcu c' hrec
      have hclow : minSize deg - 1 ≤ topSize c' := by omega
      by_cases hge : minSize deg ≤ topSize c'
      · rw [if_pos hge] at hfc
        subst hfc
        refine ⟨?_, ?_, by simp [topSize]⟩
        · simp only [nodeOK, Bool.and_eq_true, decide_eq_true_eq, List.length_set]
          refine ⟨⟨hlen, hks⟩, ?_⟩
          refine allBal_of_idx (fun j hj => ?_)
          rw [List.length_set] at hj
          by_cases hji : j = pickIdx k ks
          · subst hji
            rw [childAt_set_self hi]
            exact ⟨hge, hcOK'⟩
          · rw [childAt_set_ne _ (by omega)]
            exact allBal_idx hbal j hj
        · simp only [unifH]
          refine allUnifH_of_idx (fun j hj => ?_)
          rw [List.length_set] at hj
          by_cases hji : j = pickIdx k ks
          · subst hji
            rw [childAt_set_self hi]
            exact hcu'
          · rw [childAt_set_ne _ (by omega)]
            exact allUnifH_idx hall j hj
      · rw [if_neg hge] at hfc
        subst hfc
        have hcexact : topSize c' = minSize deg - 1 := by omega
        have hlen₁ : (cs.set (pickIdx k ks) c').length = cs.length :=
          List.length_set cs _ _
        have hself : childAt (cs.set (pickIdx k ks) c') (pickIdx k ks) = c' :=
          childAt_set_self hi c'
        have hrestAll : ∀ j < (cs.set (pickIdx k ks) c').length,
            j ≠ pickIdx k ks →
            goodC deg h' (childAt (cs.set (pickIdx k ks) c') j) := by
          intro j hj hji
          rw [childAt_set_ne _ (by omega)]
          rw [hlen₁] at hj
          exact ⟨(allBal_idx hbal j hj).1, (allBal_idx hbal j hj).2,
            allUnifH_idx hall j hj⟩
        -- assemble a balanced node out of the repaired key/child arrays
        have assemble : ∀ P : List Nat × List MTree,
            P.2.length = P.1.length + 1 → P.1.length ≤ deg - 1 →
            ks.length - 1 ≤ P.1.length →
            (∀ j < P.2.length, goodC deg h' (childAt P.2 j)) →
            nodeOK deg (MTree.node P.1 P.2) = true ∧
              unifH (MTree.node P.1 P.2) (h' + 1) = true ∧
              topSize (MTree.node ks cs) - 1 ≤ topSize (MTree.node P.1 P.2) := by
          intro P hP1 hP2 hP3 hP4
          refine ⟨?_, ?_, ?_⟩
          · simp only [nodeOK, Bool.and_eq_true, decide_eq_true_eq]
            exact ⟨⟨hP1, hP2⟩, allBal_of_idx (fun j hj => ⟨(hP4 j hj).1, (hP4 j hj).2.1⟩)⟩
          · simp only [unifH]
            exact allUnifH_of_idx (fun j hj => (hP4 j hj).2.2)
          · simp only [topSize]; omega
        by_cases hg1 : 1 ≤ pickIdx k ks ∧ minSize deg <
            topSize (childAt (cs.set (pickIdx k ks) c') (pickIdx k ks - 1))
        · -- borrow from the left sibling
          have hrepair : repair deg ks (cs.set (pickIdx k ks) c') (pickIdx k ks) =
              moveFromLeftG ks (cs.set (pickIdx k ks) c') (pickIdx k ks - 1) := by
            rw [repair, if_pos hg1]
          have he1 : pickIdx k ks - 1 + 1 = pickIdx k ks := by omega
          obtain ⟨hkeep1, hkeep2, htrip⟩ :=
            moveFromLeftG_bal h6 ks (cs.set (pickIdx k ks) c') (pickIdx k ks - 1)
              (by rw [hlen₁]; exact hlen) (by rw [he1, hlen₁]; exact hi)
              hg1.2
              (hrestAll _ (by rw [hlen₁]; omega) (by omega)).2.1
              (hrestAll _ (by rw [hlen₁]; omega) (by omega)).2.2
              (by rw [he1, hself]; exact hcexact)
              (by rw [he1, hself]; exact hcOK')
              (by rw [he1, hself]; exact hcu')
              (by
                intro j hj hj1 hj2
                rw [he1] at hj2
                exact hrestAll j hj hj2)
          rw [hrepair]
          refine assemble _ (by omega) (by omega) (by omega) ?_
          intro j hj
          rw [hkeep2] at hj
          exact htrip j hj
        · by_cases hg2 : pickIdx k ks + 1 < (cs.set (pickIdx k ks) c').length ∧
              minSize deg < topSize (childAt (cs.set (pickIdx k ks) c') (pickIdx k ks + 1))
          · -- borrow from the right sibling
            have hrepair : repair deg ks (cs.set (pickIdx k ks) c') (pickIdx k ks) =
                moveFromRightG ks (cs.set (pickIdx k ks) c') (pickIdx k ks) := by
              rw [repair, if_neg hg1, if_pos hg2]
            obtain ⟨hkeep1, hkeep2, htrip⟩ :=
              moveFromRightG_bal h6 ks (cs.set (pickIdx k ks) c') (pickIdx k ks)
                (by rw [hlen₁]; exact hlen) hg2.1
                (by rw [hself]; exact hcexact)
                (by rw [hself]; exact hcOK')
                (by rw [hself]; exact hcu')
                hg2.2
                (hrestAll _ hg2.1 (by omega)).2.1
                (hrestAll _ hg2.1 (by omega)).2.2
                (by
                  intro j hj hj1 hj2
                  exact hrestAll j hj hj1)
            rw [hrepair]
            refine assemble _ (by omega) (by omega) (by omega) ?_
            intro j hj
            rw [hkeep2] at hj
            exact htrip j hj
          · -- borrowing impossible: merge
            have hsib : 2 ≤ (cs.set (pickIdx k ks) c').length := by
              rw [hlen₁]; omega
            by_cases hg3 : 1 ≤ pickIdx k ks
            · -- merge with the left sibling
              have hrepair : repair deg ks (cs.set (pickIdx k ks) c') (pickIdx k ks) =
                  mergeG ks (cs.set (pickIdx k ks) c') (pickIdx k ks - 1) := by
                rw [repair, if_neg hg1, if_neg hg2, if_pos hg3]
              have he1 : pickIdx k ks - 1 + 1 = pickIdx k ks := by omega
              have hlsib := hrestAll (pickIdx k ks - 1)
                (by rw [hlen₁]; omega) (by omega)
              have hlsz : topSize (childAt (cs.set (pickIdx k ks) c')
                  (pickIdx k ks - 1)) = minSize deg := by
                have hle : ¬ (minSize deg < topSize (childAt (cs.set (pickIdx k ks) c')
                    (pickIdx k ks - 1))) := by
                  intro hcon
                  exact hg1 ⟨hg3, hcon⟩
                have := hlsib.1
                omega
              obtain ⟨hkeep1, hkeep2, htrip⟩ :=
                mergeG_bal h6 ks (cs.set (pickIdx k ks) c') (pickIdx k ks - 1)
                  (by rw [hlen₁]; exact hlen) (by rw [he1, hlen₁]; exact hi)
                  (by rw [he1, hself, hlsz, hcexact]; omega)
                  (by rw [he1, hself, hlsz, hcexact]; omega)
                  hlsib.2.1 hlsib.2.2
                  (by rw [he1, hself]; exact hcOK')
                  (by rw [he1, hself]; exact hcu')
                  (by
                    intro j hj hj1 hj2
                    rw [he1] at hj2
                    exact hrestAll j hj hj2)
              rw [hrepair]
              refine assemble _ (by omega) (by omega) (by omega) ?_
              intro j hj
              exact htrip j (by omega)
            · -- the child is the leftmost: merge with the right sibling
              have hi0 : pickIdx k ks = 0 := by omega
              have hg4 : pickIdx k ks + 1 < (cs.set (pickIdx k ks) c').length := by
                rw [hlen₁]; omega
              have hrepair : repair deg ks (cs.set (pickIdx k ks) c') (pickIdx k ks) =
                  mergeG ks (cs.set (pickIdx k ks) c') (pickIdx k ks) := by
                rw [repair, if_neg hg1, if_neg hg2, if_neg hg3, if_pos hg4]
              have hrsib := hrestAll (pickIdx k ks + 1)
                (by rw [hlen₁]; omega) (by omega)
              have hrsz : topSize (childAt (cs.set (pickIdx k ks) c')
                  (pickIdx k ks + 1)) = minSize deg := by
                have hle : ¬ (minSize deg < topSize (childAt (cs.set (pickIdx k ks) c')
                    (pickIdx k ks + 1))) := by
                  intro hcon
                  exact hg2 ⟨hg4, hcon⟩
                have := hrsib.1
                omega
              obtain ⟨hkeep1, hkeep2, htrip⟩ :=
                mergeG_bal h6 ks (cs.set (pickIdx k ks) c') (pickIdx k ks)
                  (by rw [hlen₁]; exact hlen) hg4
                  (by rw [hself, hrsz, hcexact]; omega)
                  (by rw [hself, hrsz, hcexact]; omega)
                  (by rw [hself]; exact hcOK')
                  (by rw [hself]; exact hcu')
                  hrsib.2.1 hrsib.2.2
                  (by
                    intro j hj hj1 hj2
                    exact hrestAll j hj hj1)
              rw [hrepair]
              refine assemble _ (by omega) (by omega) (by omega) ?_
              intro j hj
              exact htrip j (by omega)

/-- `erase` preserves the full tree invariant. -/
theorem eraseT_INV (deg k v : Nat) (h6 : 6 ≤ deg) (t : MTree)
    (hI : INV deg t = true) :
    ∀ t', eraseT deg k v t = some t' → INV deg t' = true := by
  have hmin2 := minSize_ge_two h6
  intro t' ht'
  simp only [INV, Bool.and_eq_true] at hI
  obtain ⟨hroot, hu⟩ := hI
  simp only [eraseT, delDown] at ht'
  obtain ⟨t'', ht'', rfl⟩ := Option.map_eq_some'.mp ht'
  cases t with
  | leaf es =>
    cases hfuel : depth (MTree.leaf es) with
    | zero =>
      rw [hfuel] at ht''
      simp only [delDownF] at ht''
      obtain ⟨es', hes', rfl⟩ := Option.map_eq_some'.mp ht''
      have hlen := leafErase_len k v es es' hes'
      simp only [balRoot, decide_eq_true_eq] at hroot
      have hsr : shrinkRoot (MTree.leaf es') = MTree.leaf es' := rfl
      rw [hsr]
      simp only [INV, Bool.and_eq_true, balRoot, decide_eq_true_eq]
      exact ⟨by omega, by simp [depth, unifH]⟩
    | succ n => simp [depth] at hfuel
  | node ks cs =>
    have hroot' := hroot
    simp only [balRoot, Bool.and_eq_true, decide_eq_true_eq] at hroot'
    obtain ⟨hts, hOK⟩ := hroot'
    obtain ⟨hOK'', hu'', hsz''⟩ :=
      delDownF_bal k v h6 (depth (MTree.node ks cs)) (MTree.node ks cs)
        (depth (MTree.node ks cs)) le_rfl hOK (by simpa [topSize] using hts)
        hu t'' ht''
    cases t'' with
    | leaf es'' =>
      exfalso
      have : depth (MTree.node ks cs) = depthL cs + 1 := rfl
      rw [this] at hu''
      simp [unifH] at hu''
    | node ks'' cs'' =>
      have hstr := hOK''
      simp only [nodeOK, Bool.and_eq_true, decide_eq_true_eq] at hstr
      obtain ⟨⟨hlen'', hks''⟩, hbal''⟩ := hstr
      have hdep : depth (MTree.node ks cs) = depthL cs + 1 := rfl
      rw [hdep] at hu''
      obtain ⟨w1, w2, heq, hall''⟩ := unifH_succ hu''
      injection heq with h1 h2
      rw [← h2] at hall''
      clear h1
      cases ks'' with
      | nil =>
        -- the root lost its last separator: its single child is the new root
        have hcs1 : cs''.length = 1 := by simpa using hlen''
        cases cs'' with
        | nil => simp at hcs1
        | cons c rest =>
          have hrest : rest = [] := by
            simpa using hcs1
          subst hrest
          have hsr : shrinkRoot (MTree.node [] [c]) = c := rfl
          rw [hsr]
          obtain ⟨hcmin, hcOK⟩ := (allBal_iff [c]).mp hbal'' c (by simp)
          have hcu : unifH c (depthL cs) = true :=
            (allUnifH_iff [c] (depthL cs)).mp hall'' c (by simp)
          simp only [INV, Bool.and_eq_true]
          constructor
          · cases c with
            | leaf esc => simpa [balRoot] using (by simpa [nodeOK] using hcOK :
                esc.length ≤ deg - 1)
            | node ksc csc =>
              simp only [balRoot, Bool.and_eq_true, decide_eq_true_eq]
              refine ⟨?_, hcOK⟩
              have : 2 ≤ topSize (MTree.node ksc csc) := le_trans hmin2 hcmin
              simpa [topSize] using (by omega : 1 ≤ topSize (MTree.node ksc csc))
          · rw [@unifH_depth deg (depthL cs) c hcOK hcu]
            exact hcu
      | cons k0 ks0 =>
        have hsr : shrinkRoot (MTree.node (k0 :: ks0) cs'') = MTree.node (k0 :: ks0) cs'' := rfl
        rw [hsr]
        simp only [INV, Bool.and_eq_true]
        constructor
        · simp only [balRoot, Bool.and_eq_true, decide_eq_true_eq]
          exact ⟨by simp, hOK''⟩
        · rw [@unifH_depth deg (depthL cs + 1) _ hOK''
            (by simpa [unifH] using hall'')]
          simpa [unifH] using hall''

theorem INV_emptyTree (deg : Nat) : INV deg emptyTree = true := by
  simp [INV, emptyTree, balRoot, unifH, depth]

theorem applyOp_INV (deg : Nat) (h6 : 6 ≤ deg) (t : MTree)
    (hI : INV deg t = true) (op : Op) : INV deg (applyOp deg t op) = true := by
  cases op with
  | ins k v => exact insertT_INV deg k v h6 t hI
  | del k v =>
    simp only [applyOp]
    rcases he : eraseT deg k v t with _ | t'
    · simpa using hI
    · simpa using eraseT_INV deg k v h6 t hI t' he

/-- Any sequence of `insert` / `erase` operations keeps the invariant. -/
theorem runOps_INV (deg : Nat) (h6 : 6 ≤ deg) (ops : List Op) :
    INV deg (runOps deg ops) = true := by
  suffices H : ∀ t, INV deg t = true →
      INV deg (ops.foldl (applyOp deg) t) = true from
    H emptyTree (INV_emptyTree deg)
  induction ops with
  | nil => intro t h; simpa using h
  | cons op rest ih =>
    intro t h
    exact ih (applyOp deg t op) (applyOp_INV deg h6 t h op)

theorem descendantsL_mem : ∀ (cs : List MTree) (u : MTree),
    u ∈ descendantsL cs → ∃ c ∈ cs, u ∈ descendants c := by
  intro cs
  induction cs with
  | nil => intro u hu; simp [descendantsL] at hu
  | cons c r ih =>
    intro u hu
    simp only [descendantsL, List.mem_append] at hu
    rcases hu with hu | hu
    · exact ⟨c, by simp, hu⟩
    · obtain ⟨c', hc', hu'⟩ := ih u hu
      exact ⟨c', List.mem_cons_of_mem _ hc', hu'⟩

theorem topSize_le_of_nodeOK {deg : Nat} {t : MTree} (h : nodeOK deg t = true) :
    topSize t ≤ deg - 1 := by
  cases t with
  | leaf es => simpa [nodeOK, topSize] using h
  | node ks cs =>
    simp only [nodeOK, Bool.and_eq_true, decide_eq_true_eq] at h
    simpa [topSize] using h.1.2

/-- Every node in a subtree meeting the non-root constraints has a
`node_size_` within the non-root bounds. -/
theorem balB_descendants {deg : Nat} : ∀ t : MTree,
    minSize deg ≤ topSize t → nodeOK deg t = true →
    ∀ u ∈ descendants t, minSize deg ≤ topSize u ∧ topSize u ≤ deg - 1 := by
  refine sizeOf_strongRec (fun t IH hmin hOK u hu => ?_)
  cases t with
  | leaf es =>
    simp only [descendants, List.mem_singleton] at hu
    subst hu
    exact ⟨hmin, topSize_le_of_nodeOK hOK⟩
  | node ks cs =>
    simp only [descendants, List.mem_cons] at hu
    rcases hu with rfl | hu
    · exact ⟨hmin, topSize_le_of_nodeOK hOK⟩
    · obtain ⟨c, hc, hu'⟩ := descendantsL_mem cs u hu
      have hOK' := hOK
      simp only [nodeOK, Bool.and_eq_true, decide_eq_true_eq] at hOK'
      obtain ⟨cmin, cOK⟩ := (allBal_iff cs).mp hOK'.2 c hc
      have hsz : sizeOf c < sizeOf (MTree.node ks cs) := by
        have := List.sizeOf_lt_of_mem hc
        simp only [MTree.node.sizeOf_spec]
        have := one_le_sizeOf_list ks
        omega
      exact IH c hsz cmin cOK u hu'

/-- **C2.** Balance invariant (spec §3, §8; header line 25): after any
sequence of `insert` / `erase` operations starting from the empty tree,
every non-root node keeps `ceil(degree/2) - 1 ≤ node_size_ ≤ degree - 1`
(`node_size_` counts the populated key slots), while the root only obeys
the upper bound — its size may drop to `0` exactly when the tree is empty
and stays at least `1` otherwise. -/
theorem balance_invariant (deg : Nat) (h6 : 6 ≤ deg) (ops : List Op) :
    (∀ u ∈ nonRootNodes (runOps deg ops),
      minSize deg ≤ topSize u ∧ topSize u ≤ deg - 1) ∧
    topSize (runOps deg ops) ≤ deg - 1 ∧
    (runOps deg ops = emptyTree ∨ 1 ≤ topSize (runOps deg ops)) := by
  have hI := runOps_INV deg h6 ops
  simp only [INV, Bool.and_eq_true] at hI
  obtain ⟨hroot, _⟩ := hI
  have hOK := balRoot_nodeOK hroot
  refine ⟨?_, topSize_le_of_nodeOK hOK, ?_⟩
  · intro u hu
    cases ht : runOps deg ops with
    | leaf es => rw [ht] at hu; simp [nonRootNodes] at hu
    | node ks cs =>
      rw [ht] at hu hOK
      simp only [nonRootNodes] at hu
      obtain ⟨c, hc, hu'⟩ := descendantsL_mem cs u hu
      simp only [nodeOK, Bool.and_eq_true, decide_eq_true_eq] at hOK
      obtain ⟨cmin, cOK⟩ := (allBal_iff cs).mp hOK.2 c hc
      exact balB_descendants c cmin cOK u hu'
  · cases ht : runOps deg ops with
    | leaf es =>
      cases es with
      | nil => exact Or.inl rfl
      | cons e r => exact Or.inr (by simp [topSize])
    | node ks cs =>
      rw [ht] at hroot
      simp only [balRoot, Bool.and_eq_true, decide_eq_true_eq] at hroot
      exact Or.inr (by simpa [topSize] using hroot.1)

/-- Witness for C2 at `degree = 6` on a sequence of nine inserts (forcing
a leaf split) followed by four erases (forcing a merge). -/
theorem balance_invariant_witness :
    6 ≤ 6 ∧
    ((∀ u ∈ nonRootNodes (runOps 6
        [.ins 1 10, .ins 2 20, .ins 3 30, .ins 4 40, .ins 5 50, .ins 6 60,
         .ins 7 70, .ins 8 80, .ins 9 90, .del 1 10, .del 2 20, .del 3 30,
         .del 4 40]),
      minSize 6 ≤ topSize u ∧ topSize u ≤ 6 - 1) ∧
    topSize (runOps 6
        [.ins 1 10, .ins 2 20, .ins 3 30, .ins 4 40, .ins 5 50, .ins 6 60,
         .ins 7 70, .ins 8 80, .ins 9 90, .del 1 10, .del 2 20, .del 3 30,
         .del 4 40]) ≤ 6 - 1 ∧
    (runOps 6
        [.ins 1 10, .ins 2 20, .ins 3 30, .ins 4 40, .ins 5 50, .ins 6 60,
         .ins 7 70, .ins 8 80, .ins 9 90, .del 1 10, .del 2 20, .del 3 30,
         .del 4 40] = emptyTree ∨
      1 ≤ topSize (runOps 6
        [.ins 1 10, .ins 2 20, .ins 3 30, .ins 4 40, .ins 5 50, .ins 6 60,
         .ins 7 70, .ins 8 80, .ins 9 90, .del 1 10, .del 2 20, .del 3 30,
         .del 4 40]))) :=
  ⟨by decide, balance_invariant 6 (by decide)
    [.ins 1 10, .ins 2 20, .ins 3 30, .ins 4 40, .ins 5 50, .ins 6 60,
     .ins 7 70, .ins 8 80, .ins 9 90, .del 1 10, .del 2 20, .del 3 30,
     .del 4 40]⟩

/-! ## C8: multiset semantics of insert, sorted value chains -/

theorem vinsert_count (v : Nat) : ∀ vs : List Nat,
    (vinsert v vs).count v = vs.count v + 1 := by
  intro vs
  induction vs with
  | nil => simp [vinsert]
  | cons w ws ih =>
    by_cases h : v ≤ w
    · simp [vinsert, h, List.count_cons]
    · by_cases hvw : w = v
      · omega
      · simp [vinsert, h, List.count_cons, ih, hvw]

/-- The contribution of one leaf slot to the count of `v` under `k`. -/
def entryCount (k v : Nat) (e : Entry) : Nat :=
  if e.1 = k then e.2.count v else 0

theorem countKV_leaf (k v : Nat) (es : List Entry) :
    countKV k v (.leaf es) = (es.map (entryCount k v)).sum := rfl

theorem leafInsert_count (k v : Nat) : ∀ es : List Entry,
    ((leafInsert k v es).map (entryCount k v)).sum =
      (es.map (entryCount k v)).sum + 1 := by
  intro es
  induction es with
  | nil => simp [leafInsert, entryCount]
  | cons e r ih =>
    rcases e with ⟨k', vs⟩
    by_cases h1 : k = k'
    · subst h1
      simp [leafInsert, entryCount, vinsert_count]
      omega
    · by_cases h2 : k < k'
      · simp only [leafInsert, if_neg h1, if_pos h2, List.map_cons, List.sum_cons]
        simp [entryCount, Ne.symm h1]
        omega
      · simp only [leafInsert, if_neg h1, if_neg h2, List.map_cons, List.sum_cons]
        omega

theorem countKVL_append (k v : Nat) : ∀ xs ys : List MTree,
    countKVL k v (xs ++ ys) = countKVL k v xs + countKVL k v ys := by
  intro xs ys
  induction xs with
  | nil => simp [countKVL]
  | cons x r ih => simp [countKVL, ih]; omega

theorem countKVL_set (k v : Nat) : ∀ (cs : List MTree) (i : Nat) (c' : MTree),
    i < cs.length →
    countKVL k v (cs.set i c') + countKV k v (childAt cs i) =
      countKVL k v cs + countKV k v c' := by
  intro cs
  induction cs with
  | nil => intro i c' hi; simp at hi
  | cons c r ih =>
    intro i c' hi
    cases i with
    | zero =>
      simp [countKVL, childAt]
      omega
    | succ j =>
      have := ih j c' (by simpa using hi)
      simp only [List.set_cons_succ, countKVL]
      have hc : childAt (c :: r) (j + 1) = childAt r j := by simp [childAt]
      rw [hc]
      omega

theorem countKVL_insAt (k v : Nat) (x : MTree) : ∀ (i : Nat) (cs : List MTree),
    countKVL k v (insAt i x cs) = countKV k v x + countKVL k v cs := by
  intro i
  induction i with
  | zero => intro cs; simp [insAt, countKVL]
  | succ n ih =>
    intro cs
    cases cs with
    | nil => simp [insAt, countKVL]
    | cons c r => simp [insAt, countKVL, ih]; omega

theorem countKVL_take_drop (k v : Nat) (cs : List MTree) (n : Nat) :
    countKVL k v (cs.take n) + countKVL k v (cs.drop n) = countKVL k v cs := by
  conv_rhs => rw [← List.take_append_drop n cs]
  rw [countKVL_append]

theorem map_sum_take_drop (k v : Nat) (es : List Entry) (n : Nat) :
    ((es.take n).map (entryCount k v)).sum + ((es.drop n).map (entryCount k v)).sum =
      (es.map (entryCount k v)).sum := by
  conv_rhs => rw [← List.take_append_drop n es]
  rw [List.map_append, List.sum_append]

/-- `insert` adds exactly one copy of `(k, v)` to the stored multiset. -/
theorem insDownF_count (deg k v : Nat) : ∀ (fuel : Nat) (t : MTree),
    depth t ≤ fuel → nodeOK deg t = true →
    (∀ t', insDownF deg k v fuel t = .one t' →
      countKV k v t' = countKV k v t + 1) ∧
    (∀ l s r, insDownF deg k v fuel t = .two l s r →
      countKV k v l + countKV k v r = countKV k v t + 1) := by
  intro fuel
  induction fuel with
  | zero =>
    intro t hd hOK
    cases t with
    | node ks cs => simp [depth] at hd
    | leaf es =>
      by_cases hif : (leafInsert k v es).length ≤ deg - 1
      · refine ⟨?_, ?_⟩
        · intro t' ht'
          simp only [insDownF, if_pos hif, InsRes.one.injEq] at ht'
          subst ht'
          simpa [countKV_leaf] using leafInsert_count k v es
        · intro l s r hlr
          simp only [insDownF, if_pos hif] at hlr
          cases hlr
      · rcases hdrop : (leafInsert k v es).drop ((deg - 1 + 1) / 2) with _ | ⟨e, esR⟩
        · refine ⟨?_, ?_⟩
          · intro t' ht'
            simp only [insDownF, if_neg hif, splitLeaf, hdrop, InsRes.one.injEq] at ht'
            subst ht'
            simpa [countKV_leaf] using leafInsert_count k v es
          · intro l s r hlr
            simp only [insDownF, if_neg hif, splitLeaf, hdrop] at hlr
            cases hlr
        · refine ⟨?_, ?_⟩
          · intro t' ht'
            simp only [insDownF, if_neg hif, splitLeaf, hdrop] at ht'
            cases ht'
          · intro l s r hlr
            simp only [insDownF, if_neg hif, splitLeaf, hdrop, InsRes.two.injEq] at hlr
            obtain ⟨rfl, rfl, rfl⟩ := hlr
            have hsum := map_sum_take_drop k v (leafInsert k v es) ((deg - 1 + 1) / 2)
            rw [hdrop] at hsum
            have := leafInsert_count k v es
            simp only [countKV_leaf]
            omega
  | succ fuel ih =>
    intro t hd hOK
    cases t with
    | leaf es =>
      by_cases hif : (leafInsert k v es).length ≤ deg - 1
      · refine ⟨?_, ?_⟩
        · intro t' ht'
          simp only [insDownF, if_pos hif, InsRes.one.injEq] at ht'
          subst ht'
          simpa [countKV_leaf] using leafInsert_count k v es
        · intro l s r hlr
          simp only [insDownF, if_pos hif] at hlr
          cases hlr
      · rcases hdrop : (leafInsert k v es).drop ((deg - 1 + 1) / 2) with _ | ⟨e, esR⟩
        · refine ⟨?_, ?_⟩
          · intro t' ht'
            simp only [insDownF, if_neg hif, splitLeaf, hdrop, InsRes.one.injEq] at ht'
            subst ht'
            simpa [countKV_leaf] using leafInsert_count k v es
          · intro l s r hlr
            simp only [insDownF, if_neg hif, splitLeaf, hdrop] at hlr
            cases hlr
        · refine ⟨?_, ?_⟩
          · intro t' ht'
            simp only [insDownF, if_neg hif, splitLeaf, hdrop] at ht'
            cases ht'
          · intro l s r hlr
            simp only [insDownF, if_neg hif, splitLeaf, hdrop, InsRes.two.injEq] at hlr
            obtain ⟨rfl, rfl, rfl⟩ := hlr
            have hsum := map_sum_take_drop k v (leafInsert k v es) ((deg - 1 + 1) / 2)
            rw [hdrop] at hsum
            have := leafInsert_count k v es
            simp only [countKV_leaf]
            omega
    | node ks cs =>
      simp only [nodeOK, Bool.and_eq_true, decide_eq_true_eq] at hOK
      obtain ⟨⟨hlen, hks⟩, hbal⟩ := hOK
      have hi : pickIdx k ks < cs.length := by
        have := pickIdx_le_length k ks; omega
      have hcOK := ((allBal_iff cs).mp hbal _ (childAt_mem hi)).2
      have hdc : depth (childAt cs (pickIdx k ks)) ≤ fuel := by
        have := depth_childAt_le cs (pickIdx k ks)
        simp only [depth] at hd
        omega
      obtain ⟨IH1, IH2⟩ := ih (childAt cs (pickIdx k ks)) hdc hcOK
      have hnodecount : countKV k v (MTree.node ks cs) = countKVL k v cs := rfl
      rcases hrec : insDownF deg k v fuel (childAt cs (pickIdx k ks)) with t' | ⟨l, s₀, r⟩
      · have hc1 := IH1 t' hrec
        have hset := countKVL_set k v cs (pickIdx k ks) t' hi
        refine ⟨?_, ?_⟩
        · intro t'' ht''
          simp only [insDownF, hrec, InsRes.one.injEq] at ht''
          subst ht''
          show countKVL k v (cs.set (pickIdx k ks) t') = countKVL k v cs + 1
          omega
        · intro l s r hlr
          simp only [insDownF, hrec] at hlr
          cases hlr
      · have hc2 := IH2 l s₀ r hrec
        have hset := countKVL_set k v cs (pickIdx k ks) l hi
        have hins := countKVL_insAt k v r (pickIdx k ks + 1) (cs.set (pickIdx k ks) l)
        by_cases hif : (insAt (pickIdx k ks) s₀ ks).length ≤ deg - 1
        · refine ⟨?_, ?_⟩
          · intro t'' ht''
            simp only [insDownF, hrec, if_pos hif, InsRes.one.injEq] at ht''
            subst ht''
            show countKVL k v (insAt (pickIdx k ks + 1) r (cs.set (pickIdx k ks) l)) =
              countKVL k v cs + 1
            omega
          · intro l' s' r' hlr
            simp only [insDownF, hrec, if_pos hif] at hlr
            cases hlr
        · rcases hdrop : (insAt (pickIdx k ks) s₀ ks).drop ((deg - 1 + 1) / 2)
            with _ | ⟨s₁, ksR⟩
          · refine ⟨?_, ?_⟩
            · intro t'' ht''
              simp only [insDownF, hrec, if_neg hif, splitNode, hdrop,
                InsRes.one.injEq] at ht''
              subst ht''
              show countKVL k v (insAt (pickIdx k ks + 1) r (cs.set (pickIdx k ks) l)) =
                countKVL k v cs + 1
              omega
            · intro l' s' r' hlr
              simp only [insDownF, hrec, if_neg hif, splitNode, hdrop] at hlr
              cases hlr
          · refine ⟨?_, ?_⟩
            · intro t'' ht''
              simp only [insDownF, hrec, if_neg hif, splitNode, hdrop] at ht''
              cases ht''
            · intro l' s' r' hlr
              simp only [insDownF, hrec, if_neg hif, splitNode, hdrop,
                InsRes.two.injEq] at hlr
              obtain ⟨rfl, rfl, rfl⟩ := hlr
              have htd := countKVL_take_drop k v
                (insAt (pickIdx k ks + 1) r (cs.set (pickIdx k ks) l))
                ((deg - 1 + 1) / 2 + 1)
              show countKVL k v _ + countKVL k v _ = countKVL k v cs + 1
              omega

/-- Top-level `insert` adds exactly one copy of `(k, v)`. -/
theorem insertT_count (deg k v : Nat) (t : MTree) (hOK : nodeOK deg t = true) :
    countKV k v (insertT deg k v t) = countKV k v t + 1 := by
  obtain ⟨H1, H2⟩ := insDownF_count deg k v (depth t) t le_rfl hOK
  simp only [insertT, insDown]
  rcases hres : insDownF deg k v (depth t) t with t' | ⟨l, s, r⟩
  · exact H1 t' hres
  · have := H2 l s r hres
    show countKVL k v [l, r] = countKV k v t + 1
    simp only [countKVL]
    omega

/-! ### Sorted value chains -/

theorem chainLE_iff_pairwise : ∀ vs : List Nat,
    chainLE vs = true ↔ List.Pairwise (· ≤ ·) vs := by
  intro vs
  induction vs with
  | nil => simp [chainLE]
  | cons a l ih =>
    cases l with
    | nil => simp [chainLE]
    | cons b r =>
      simp only [chainLE, Bool.and_eq_true, decide_eq_true_eq, ih,
        List.pairwise_cons, List.mem_cons]
      constructor
      · rintro ⟨hab, hb, hr⟩
        refine ⟨?_, hb, hr⟩
        rintro x (rfl | hx)
        · exact hab
        · exact le_trans hab (hb x hx)
      · rintro ⟨ha, hb, hr⟩
        exact ⟨ha b (Or.inl rfl), hb, hr⟩

theorem mem_vinsert {v x : Nat} : ∀ {vs : List Nat},
    x ∈ vinsert v vs → x = v ∨ x ∈ vs := by
  intro vs
  induction vs with
  | nil => intro h; simpa [vinsert] using h
  | cons w ws ih =>
    intro h
    by_cases hv : v ≤ w
    · simp only [vinsert, if_pos hv, List.mem_cons] at h
      rcases h with rfl | h'
      · exact Or.inl rfl
      · exact Or.inr (List.mem_cons.mpr h')
    · simp only [vinsert, if_neg hv, List.mem_cons] at h
      rcases h with rfl | h'
      · exact Or.inr (by simp)
      · rcases ih h' with h'' | h''
        · exact Or.inl h''
        · exact Or.inr (List.mem_cons_of_mem _ h'')

theorem chainLE_vinsert (v : Nat) : ∀ vs : List Nat,
    chainLE vs = true → chainLE (vinsert v vs) = true := by
  intro vs hvs
  rw [chainLE_iff_pairwise] at hvs ⊢
  induction vs with
  | nil => simp [vinsert]
  | cons w ws ih =>
    rw [List.pairwise_cons] at hvs
    obtain ⟨hw, hws⟩ := hvs
    by_cases h : v ≤ w
    · simp only [vinsert, if_pos h, List.pairwise_cons, List.mem_cons]
      refine ⟨?_, hw, hws⟩
      rintro x (rfl | hx)
      · exact h
      · exact le_trans h (hw x hx)
    · simp only [vinsert, if_neg h, List.pairwise_cons]
      refine ⟨?_, ih hws⟩
      intro x hx
      rcases mem_vinsert hx with rfl | hx'
      · omega
      · exact hw x hx'

theorem chainLE_erase (v : Nat) (vs : List Nat) (h : chainLE vs = true) :
    chainLE (vs.erase v) = true := by
  rw [chainLE_iff_pairwise] at h ⊢
  exact h.sublist (vs.erase_sublist v)

theorem leafSorted_insert (k v : Nat) : ∀ es : List Entry,
    (es.all fun e => chainLE e.2) = true →
    ((leafInsert k v es).all fun e => chainLE e.2) = true := by
  intro es h
  rw [List.all_eq_true] at h ⊢
  induction es with
  | nil =>
    intro e he
    simp only [leafInsert, List.mem_singleton] at he
    subst he
    simp [chainLE]
  | cons e₀ r ih =>
    rcases e₀ with ⟨k', vs⟩
    intro e he
    by_cases h1 : k = k'
    · simp only [leafInsert, if_pos h1, List.mem_cons] at he
      rcases he with rfl | he'
      · exact chainLE_vinsert v vs (h (k', vs) (by simp))
      · exact h e (List.mem_cons_of_mem _ he')
    · by_cases h2 : k < k'
      · simp only [leafInsert, if_neg h1, if_pos h2, List.mem_cons] at he
        rcases he with rfl | he'
        · simp [chainLE]
        · exact h e (by simpa using he')
      · simp only [leafInsert, if_neg h1, if_neg h2, List.mem_cons] at he
        rcases he with rfl | he'
        · exact h _ (by simp)
        · exact ih (fun x hx => h x (List.mem_cons_of_mem _ hx)) e he'

theorem leafSorted_erase (k v : Nat) : ∀ es es' : List Entry,
    leafErase k v es = some es' →
    (es.all fun e => chainLE e.2) = true →
    (es'.all fun e => chainLE e.2) = true := by
  intro es
  induction es with
  | nil => intro es' h; simp [leafErase] at h
  | cons e₀ r ih =>
    rcases e₀ with ⟨k', vs⟩
    intro es' hes' hall
    rw [List.all_eq_true] at hall
    by_cases h1 : k = k'
    · simp only [leafErase, if_pos h1] at hes'
      by_cases h2 : v ∈ vs
      · rw [if_pos h2] at hes'
        cases hes'
        rw [List.all_eq_true]
        intro e he
        by_cases h3 : vs.erase v = []
        · rw [if_pos h3] at he
          exact hall e (List.mem_cons_of_mem _ he)
        · rw [if_neg h3] at he
          rcases List.mem_cons.mp he with rfl | he'
          · exact chainLE_erase v vs (hall (k', vs) (by simp))
          · exact hall e (List.mem_cons_of_mem _ he')
      · rw [if_neg h2] at hes'; cases hes'
    · simp only [leafErase, if_neg h1, Option.map_eq_some'] at hes'
      obtain ⟨es'', hes'', rfl⟩ := hes'
      rw [List.all_eq_true]
      intro e he
      rcases List.mem_cons.mp he with rfl | he'
      · exact hall _ (by simp)
      · have hr : (r.all fun e => chainLE e.2) = true := by
          rw [List.all_eq_true]
          intro x hx
          exact hall x (List.mem_cons_of_mem _ hx)
        have h2 := ih es'' hes'' hr
        rw [List.all_eq_true] at h2
        exact h2 e he'

theorem vlistsSortedL_iff : ∀ cs : List MTree,
    vlistsSortedL cs = true ↔ ∀ c ∈ cs, vlistsSorted c = true := by
  intro cs
  induction cs with
  | nil => simp [vlistsSortedL]
  | cons c r ih =>
    simp only [vlistsSortedL, Bool.and_eq_true, List.mem_cons, ih]
    constructor
    · rintro ⟨h1, h2⟩ x (rfl | hx)
      · exact h1
      · exact h2 x hx
    · intro h
      exact ⟨h c (Or.inl rfl), fun x hx => h x (Or.inr hx)⟩

theorem vlistsSorted_childAt {cs : List MTree} {i : Nat}
    (h : ∀ c ∈ cs, vlistsSorted c = true) :
    vlistsSorted (childAt cs i) = true := by
  by_cases hi : i < cs.length
  · exact h _ (childAt_mem hi)
  · have : childAt cs i = dfl := by
      simp [childAt, List.getD_eq_getElem?_getD,
        List.getElem?_eq_none (by omega : cs.length ≤ i)]
    rw [this]
    rfl

/-- Insertion preserves "every Value List in the tree is sorted". -/
theorem insDownF_sorted (deg k v : Nat) : ∀ (fuel : Nat) (t : MTree),
    vlistsSorted t = true →
    (∀ t', insDownF deg k v fuel t = .one t' → vlistsSorted t' = true) ∧
    (∀ l s r, insDownF deg k v fuel t = .two l s r →
      vlistsSorted l = true ∧ vlistsSorted r = true) := by
  intro fuel
  induction fuel with
  | zero =>
    intro t hs
    cases t with
    | node ks cs =>
      refine ⟨fun t' ht' => ?_, fun l s r hlr => ?_⟩
      · simp only [insDownF, InsRes.one.injEq] at ht'
        subst ht'
        exact hs
      · simp [insDownF] at hlr
    | leaf es =>
      have hs' : ((leafInsert k v es).all fun e => chainLE e.2) = true :=
        leafSorted_insert k v es (by simpa [vlistsSorted] using hs)
      by_cases hif : (leafInsert k v es).length ≤ deg - 1
      · refine ⟨fun t' ht' => ?_, fun l s r hlr => ?_⟩
        · simp only [insDownF, if_pos hif, InsRes.one.injEq] at ht'
          subst ht'
          simpa [vlistsSorted] using hs'
        · simp only [insDownF, if_pos hif] at hlr
          cases hlr
      · rcases hdrop : (leafInsert k v es).drop ((deg - 1 + 1) / 2) with _ | ⟨e, esR⟩
        · refine ⟨fun t' ht' => ?_, fun l s r hlr => ?_⟩
          · simp only [insDownF, if_neg hif, splitLeaf, hdrop, InsRes.one.injEq] at ht'
            subst ht'
            simpa [vlistsSorted] using hs'
          · simp only [insDownF, if_neg hif, splitLeaf, hdrop] at hlr
            cases hlr
        · refine ⟨fun t' ht' => ?_, fun l s r hlr => ?_⟩
          · simp only [insDownF, if_neg hif, splitLeaf, hdrop] at ht'
            cases ht'
          · simp only [insDownF, if_neg hif, splitLeaf, hdrop, InsRes.two.injEq] at hlr
            obtain ⟨rfl, rfl, rfl⟩ := hlr
            rw [List.all_eq_true] at hs'
            constructor
            · show ((leafInsert k v es).take _).all _ = true
              rw [List.all_eq_true]
              exact fun e he => hs' e (List.take_subset _ _ he)
            · show ((e :: esR).all fun e => chainLE e.2) = true
              rw [List.all_eq_true]
              intro x hx
              refine hs' x (List.drop_subset ((deg - 1 + 1) / 2) _ ?_)
              rw [hdrop]
              exact hx
  | succ fuel ih =>
    intro t hs
    cases t with
    | leaf es =>
      have hs' : ((leafInsert k v es).all fun e => chainLE e.2) = true :=
        leafSorted_insert k v es (by simpa [vlistsSorted] using hs)
      by_cases hif : (leafInsert k v es).length ≤ deg - 1
      · refine ⟨fun t' ht' => ?_, fun l s r hlr => ?_⟩
        · simp only [insDownF, if_pos hif, InsRes.one.injEq] at ht'
          subst ht'
          simpa [vlistsSorted] using hs'
        · simp only [insDownF, if_pos hif] at hlr
          cases hlr
      · rcases hdrop : (leafInsert k v es).drop ((deg - 1 + 1) / 2) with _ | ⟨e, esR⟩
        · refine ⟨fun t' ht' => ?_, fun l s r hlr => ?_⟩
          · simp only [insDownF, if_neg hif, splitLeaf, hdrop, InsRes.one.injEq] at ht'
            subst ht'
            simpa [vlistsSorted] using hs'
          · simp only [insDownF, if_neg hif, splitLeaf, hdrop] at hlr
            cases hlr
        · refine ⟨fun t' ht' => ?_, fun l s r hlr => ?_⟩
          · simp only [insDownF, if_neg hif, splitLeaf, hdrop] at ht'
            cases ht'
          · simp only [insDownF, if_neg hif, splitLeaf, hdrop, InsRes.two.injEq] at hlr
            obtain ⟨rfl, rfl, rfl⟩ := hlr
            rw [List.all_eq_true] at hs'
            constructor
            · show ((leafInsert k v es).take _).all _ = true
              rw [List.all_eq_true]
              exact fun e he => hs' e (List.take_subset _ _ he)
            · show ((e :: esR).all fun e => chainLE e.2) = true
              rw [List.all_eq_true]
              intro x hx
              refine hs' x (List.drop_subset ((deg - 1 + 1) / 2) _ ?_)
              rw [hdrop]
              exact hx
    | node ks cs =>
      have hall : ∀ c ∈ cs, vlistsSorted c = true :=
        (vlistsSortedL_iff cs).mp (by simpa [vlistsSorted] using hs)
      have hcs : vlistsSorted (childAt cs (pickIdx k ks)) = true :=
        vlistsSorted_childAt hall
      obtain ⟨IH1, IH2⟩ := ih (childAt cs (pickIdx k ks)) hcs
      rcases hrec : insDownF deg k v fuel (childAt cs (pickIdx k ks)) with t' | ⟨l, s₀, r⟩
      · have hc1 := IH1 t' hrec
        refine ⟨fun t'' ht'' => ?_, fun l s r hlr => ?_⟩
        · simp only [insDownF, hrec, InsRes.one.injEq] at ht''
          subst ht''
          show vlistsSortedL (cs.set (pickIdx k ks) t') = true
          rw [vlistsSortedL_iff]
          intro c hc
          rcases List.mem_or_eq_of_mem_set hc with hc' | rfl
          · exact hall c hc'
          · exact hc1
        · simp only [insDownF, hrec] at hlr
          cases hlr
      · obtain ⟨hls, hrs⟩ := IH2 l s₀ r hrec
        have hcs' : ∀ c ∈ insAt (pickIdx k ks + 1) r (cs.set (pickIdx k ks) l),
            vlistsSorted c = true := by
          intro c hc
          rcases mem_insAt r _ _ c hc with rfl | hc'
          · exact hrs
          · rcases List.mem_or_eq_of_mem_set hc' with hc'' | rfl
            · exact hall c hc''
            · exact hls
        by_cases hif : (insAt (pickIdx k ks) s₀ ks).length ≤ deg - 1
        · refine ⟨fun t'' ht'' => ?_, fun l' s' r' hlr => ?_⟩
          · simp only [insDownF, hrec, if_pos hif, InsRes.one.injEq] at ht''
            subst ht''
            show vlistsSortedL _ = true
            rw [vlistsSortedL_iff]
            exact hcs'
          · simp only [insDownF, hrec, if_pos hif] at hlr
            cases hlr
        · rcases hdrop : (insAt (pickIdx k ks) s₀ ks).drop ((deg - 1 + 1) / 2)
            with _ | ⟨s₁, ksR⟩
          · refine ⟨fun t'' ht'' => ?_, fun l' s' r' hlr => ?_⟩
            · simp only [insDownF, hrec, if_neg hif, splitNode, hdrop,
                InsRes.one.injEq] at ht''
              subst ht''
              show vlistsSortedL _ = true
              rw [vlistsSortedL_iff]
              exact hcs'
            · simp only [insDownF, hrec, if_neg hif, splitNode, hdrop] at hlr
              cases hlr
          · refine ⟨fun t'' ht'' => ?_, fun l' s' r' hlr => ?_⟩
            · simp only [insDownF, hrec, if_neg hif, splitNode, hdrop] at ht''
              cases ht''
            · simp only [insDownF, hrec, if_neg hif, splitNode, hdrop,
                InsRes.two.injEq] at hlr
              obtain ⟨rfl, rfl, rfl⟩ := hlr
              constructor
              · show vlistsSortedL _ = true
                rw [vlistsSortedL_iff]
                intro c hc
                exact hcs' c (List.take_subset _ _ hc)
              · show vlistsSortedL _ = true
                rw [vlistsSortedL_iff]
                intro c hc
                exact hcs' c (List.drop_subset _ _ hc)

theorem moveFromLeftG_sorted (ks : List Nat) (cs : List MTree) (p : Nat)
    (hall : ∀ c ∈ cs, vlistsSorted c = true) :
    ∀ c ∈ (moveFromLeftG ks cs p).2, vlistsSorted c = true := by
  have hLs := vlistsSorted_childAt (i := p) hall
  have hRs := vlistsSorted_childAt (i := p + 1) hall
  rcases hL : childAt cs p with les | ⟨lks, lcs⟩ <;>
    rcases hR : childAt cs (p + 1) with res | ⟨rks, rcs⟩
  · rw [hL] at hLs; rw [hR] at hRs
    have hles : ∀ e ∈ les, chainLE e.2 = true := by
      rw [← List.all_eq_true]; simpa [vlistsSorted] using hLs
    have hres : ∀ e ∈ res, chainLE e.2 = true := by
      rw [← List.all_eq_true]; simpa [vlistsSorted] using hRs
    rcases hlast : les.getLast? with _ | e
    · simp only [moveFromLeftG, hL, hR, hlast]
      exact hall
    · simp only [moveFromLeftG, hL, hR, hlast]
      intro c hc
      rcases List.mem_or_eq_of_mem_set hc with hc' | rfl
      · rcases List.mem_or_eq_of_mem_set hc' with hc'' | rfl
        · exact hall c hc''
        · show (les.dropLast.all fun e => chainLE e.2) = true
          rw [List.all_eq_true]
          exact fun x hx => hles x (List.dropLast_subset les hx)
      · show ((e :: res).all fun e => chainLE e.2) = true
        rw [List.all_eq_true]
        intro x hx
        rcases List.mem_cons.mp hx with rfl | hx'
        · exact hles x (mem_getLast? hlast)
        · exact hres x hx'
  · simp only [moveFromLeftG, hL, hR]
    exact hall
  · simp only [moveFromLeftG, hL, hR]
    exact hall
  · rw [hL] at hLs; rw [hR] at hRs
    have hlcs : ∀ c ∈ lcs, vlistsSorted c = true :=
      (vlistsSortedL_iff lcs).mp (by simpa [vlistsSorted] using hLs)
    have hrcs : ∀ c ∈ rcs, vlistsSorted c = true :=
      (vlistsSortedL_iff rcs).mp (by simpa [vlistsSorted] using hRs)
    rcases hm : lks.getLast? with _ | m <;> rcases hlc : lcs.getLast? with _ | lc
    · simp only [moveFromLeftG, hL, hR, hm, hlc]; exact hall
    · simp only [moveFromLeftG, hL, hR, hm, hlc]; exact hall
    · simp only [moveFromLeftG, hL, hR, hm, hlc]; exact hall
    · simp only [moveFromLeftG, hL, hR, hm, hlc]
      intro c hc
      rcases List.mem_or_eq_of_mem_set hc with hc' | rfl
      · rcases List.mem_or_eq_of_mem_set hc' with hc'' | rfl
        · exact hall c hc''
        · show vlistsSortedL lcs.dropLast = true
          rw [vlistsSortedL_iff]
          exact fun x hx => hlcs x (List.dropLast_subset lcs hx)
      · show vlistsSortedL (lc :: rcs) = true
        rw [vlistsSortedL_iff]
        intro x hx
        rcases List.mem_cons.mp hx with rfl | hx'
        · exact hlcs x (mem_getLast? hlc)
        · exact hrcs x hx'

theorem moveFromRightG_sorted (ks : List Nat) (cs : List MTree) (p : Nat)
    (hall : ∀ c ∈ cs, vlistsSorted c = true) :
    ∀ c ∈ (moveFromRightG ks cs p).2, vlistsSorted c = true := by
  have hLs := vlistsSorted_childAt (i := p) hall
  have hRs := vlistsSorted_childAt (i := p + 1) hall
  rcases hL : childAt cs p with les | ⟨lks, lcs⟩ <;>
    rcases hR : childAt cs (p + 1) with res | ⟨rks, rcs⟩
  · rw [hL] at hLs; rw [hR] at hRs
    have hles : ∀ e ∈ les, chainLE e.2 = true := by
      rw [← List.all_eq_true]; simpa [vlistsSorted] using hLs
    have hres : ∀ e ∈ res, chainLE e.2 = true := by
      rw [← List.all_eq_true]; simpa [vlistsSorted] using hRs
    rcases res with _ | ⟨e, res1⟩
    · simp only [moveFromRightG, hL, hR]; exact hall
    · rcases res1 with _ | ⟨e', res'⟩
      · simp only [moveFromRightG, hL, hR]; exact hall
      · simp only [moveFromRightG, hL, hR]
        intro c hc
        rcases List.mem_or_eq_of_mem_set hc with hc' | rfl
        · rcases List.mem_or_eq_of_mem_set hc' with hc'' | rfl
          · exact hall c hc''
          · show ((les ++ [e]).all fun x => chainLE x.2) = true
            rw [List.all_eq_true]
            intro x hx
            rcases List.mem_append.mp hx with hx' | hx'
            · exact hles x hx'
            · rw [List.mem_singleton.mp hx']
              exact hres e (by simp)
        · show ((e' :: res').all fun x => chainLE x.2) = true
          rw [List.all_eq_true]
          exact fun x hx => hres x (List.mem_cons_of_mem _ hx)
  · simp only [moveFromRightG, hL, hR]; exact hall
  · simp only [moveFromRightG, hL, hR]; exact hall
  · rw [hL] at hLs; rw [hR] at hRs
    have hlcs : ∀ c ∈ lcs, vlistsSorted c = true :=
      (vlistsSortedL_iff lcs).mp (by simpa [vlistsSorted] using hLs)
    have hrcs : ∀ c ∈ rcs, vlistsSorted c = true :=
      (vlistsSortedL_iff rcs).mp (by simpa [vlistsSorted] using hRs)
    rcases rks with _ | ⟨rk, rks'⟩
    · simp only [moveFromRightG, hL, hR]; exact hall
    · rcases rcs with _ | ⟨rc, rcs'⟩
      · simp only [moveFromRightG, hL, hR]; exact hall
      · simp only [moveFromRightG, hL, hR]
        intro c hc
        rcases List.mem_or_eq_of_mem_set hc with hc' | rfl
        · rcases List.mem_or_eq_of_mem_set hc' with hc'' | rfl
          · exact hall c hc''
          · show vlistsSortedL (lcs ++ [rc]) = true
            rw [vlistsSortedL_iff]
            intro x hx
            rcases List.mem_append.mp hx with hx' | hx'
            · exact hlcs x hx'
            · rw [List.mem_singleton.mp hx']
              exact hrcs rc (by simp)
        · show vlistsSortedL rcs' = true
          rw [vlistsSortedL_iff]
          exact fun x hx => hrcs x (List.mem_cons_of_mem _ hx)

theorem mergeG_sorted (ks : List Nat) (cs : List MTree) (p : Nat)
    (hall : ∀ c ∈ cs, vlistsSorted c = true) :
    ∀ c ∈ (mergeG ks cs p).2, vlistsSorted c = true := by
  have hLs := vlistsSorted_childAt (i := p) hall
  have hRs := vlistsSorted_childAt (i := p + 1) hall
  rcases hL : childAt cs p with les | ⟨lks, lcs⟩ <;>
    rcases hR : childAt cs (p + 1) with res | ⟨rks, rcs⟩
  · rw [hL] at hLs; rw [hR] at hRs
    have hles : ∀ e ∈ les, chainLE e.2 = true := by
      rw [← List.all_eq_true]; simpa [vlistsSorted] using hLs
    have hres : ∀ e ∈ res, chainLE e.2 = true := by
      rw [← List.all_eq_true]; simpa [vlistsSorted] using hRs
    simp only [mergeG, hL, hR]
    intro c hc
    have hc' := (List.eraseIdx_sublist _ (p + 1)).subset hc
    rcases List.mem_or_eq_of_mem_set hc' with hc'' | rfl
    · exact hall c hc''
    · show ((les ++ res).all fun x => chainLE x.2) = true
      rw [List.all_eq_true]
      intro x hx
      rcases List.mem_append.mp hx with hx' | hx'
      · exact hles x hx'
      · exact hres x hx'
  · simp only [mergeG, hL, hR]; exact hall
  · simp only [mergeG, hL, hR]; exact hall
  · rw [hL] at hLs; rw [hR] at hRs
    have hlcs : ∀ c ∈ lcs, vlistsSorted c = true :=
      (vlistsSortedL_iff lcs).mp (by simpa [vlistsSorted] using hLs)
    have hrcs : ∀ c ∈ rcs, vlistsSorted c = true :=
      (vlistsSortedL_iff rcs).mp (by simpa [vlistsSorted] using hRs)
    simp only [mergeG, hL, hR]
    intro c hc
    have hc' := (List.eraseIdx_sublist _ (p + 1)).subset hc
    rcases List.mem_or_eq_of_mem_set hc' with hc'' | rfl
    · exact hall c hc''
    · show vlistsSortedL (lcs ++ rcs) = true
      rw [vlistsSortedL_iff]
      intro x hx
      rcases List.mem_append.mp hx with hx' | hx'
      · exact hlcs x hx'
      · exact hrcs x hx'

theorem repair_sorted (deg : Nat) (ks : List Nat) (cs : List MTree) (i : Nat)
    (hall : ∀ c ∈ cs, vlistsSorted c = true) :
    ∀ c ∈ (repair deg ks cs i).2, vlistsSorted c = true := by
  rw [repair]
  split
  · exact moveFromLeftG_sorted ks cs (i - 1) hall
  · split
    · exact moveFromRightG_sorted ks cs i hall
    · split
      · exact mergeG_sorted ks cs (i - 1) hall
      · split
        · exact mergeG_sorted ks cs i hall
        · exact hall

/-- Deletion preserves "every Value List in the tree is sorted". -/
theorem delDownF_sorted (deg k v : Nat) : ∀ (fuel : Nat) (t : MTree),
    vlistsSorted t = true →
    ∀ t', delDownF deg k v fuel t = some t' → vlistsSorted t' = true := by
  intro fuel
  induction fuel with
  | zero =>
    intro t hs t' ht'
    cases t with
    | node ks cs => simp [delDownF] at ht'
    | leaf es =>
      simp only [delDownF] at ht'
      obtain ⟨es', hes', rfl⟩ := Option.map_eq_some'.mp ht'
      show (es'.all fun e => chainLE e.2) = true
      exact leafSorted_erase k v es es' hes' (by simpa [vlistsSorted] using hs)
  | succ fuel ih =>
    intro t hs t' ht'
    cases t with
    | leaf es =>
      simp only [delDownF] at ht'
      obtain ⟨es', hes', rfl⟩ := Option.map_eq_some'.mp ht'
      show (es'.all fun e => chainLE e.2) = true
      exact leafSorted_erase k v es es' hes' (by simpa [vlistsSorted] using hs)
    | node ks cs =>
      have hall : ∀ c ∈ cs, vlistsSorted c = true :=
        (vlistsSortedL_iff cs).mp (by simpa [vlistsSorted] using hs)
      simp only [delDownF] at ht'
      obtain ⟨c', hrec, hfc⟩ := Option.map_eq_some'.mp ht'
      have hc' : vlistsSorted c' = true :=
        ih (childAt cs (pickIdx k ks)) (vlistsSorted_childAt hall) c' hrec
      have hset : ∀ c ∈ cs.set (pickIdx k ks) c', vlistsSorted c = true := by
        intro c hc
        rcases List.mem_or_eq_of_mem_set hc with hc'' | rfl
        · exact hall c hc''
        · exact hc'
      by_cases hge : minSize deg ≤ topSize c'
      · rw [if_pos hge] at hfc
        subst hfc
        show vlistsSortedL (cs.set (pickIdx k ks) c') = true
        rw [vlistsSortedL_iff]
        exact hset
      · rw [if_neg hge] at hfc
        subst hfc
        show vlistsSortedL (repair deg ks (cs.set (pickIdx k ks) c') (pickIdx k ks)).2 = true
        rw [vlistsSortedL_iff]
        exact repair_sorted deg ks _ (pickIdx k ks) hset

theorem insertT_sorted (deg k v : Nat) (t : MTree) (hs : vlistsSorted t = true) :
    vlistsSorted (insertT deg k v t) = true := by
  obtain ⟨H1, H2⟩ := insDownF_sorted deg k v (depth t) t hs
  simp only [insertT, insDown]
  rcases hres : insDownF deg k v (depth t) t with t' | ⟨l, s, r⟩
  · exact H1 t' hres
  · obtain ⟨hls, hrs⟩ := H2 l s r hres
    show vlistsSortedL [l, r] = true
    simp [vlistsSortedL, hls, hrs]

theorem shrinkRoot_sorted {t : MTree} (hs : vlistsSorted t = true) :
    vlistsSorted (shrinkRoot t) = true := by
  cases t with
  | leaf es => exact hs
  | node ks cs =>
    cases ks with
    | nil =>
      cases cs with
      | nil => exact hs
      | cons c rest =>
        have : shrinkRoot (MTree.node [] (c :: rest)) = c := rfl
        rw [this]
        exact (vlistsSortedL_iff (c :: rest)).mp (by simpa [vlistsSorted] using hs)
          c (by simp)
    | cons k0 ks0 => exact hs

theorem applyOp_sorted (deg : Nat) (t : MTree) (hs : vlistsSorted t = true)
    (op : Op) : vlistsSorted (applyOp deg t op) = true := by
  cases op with
  | ins k v => exact insertT_sorted deg k v t hs
  | del k v =>
    simp only [applyOp, eraseT, delDown]
    rcases he : delDownF deg k v (depth t) t with _ | t'
    · simpa using hs
    · simpa using shrinkRoot_sorted (delDownF_sorted deg k v (depth t) t hs t' he)

theorem runOps_sorted (deg : Nat) (ops : List Op) :
    vlistsSorted (runOps deg ops) = true := by
  suffices H : ∀ t, vlistsSorted t = true →
      vlistsSorted (ops.foldl (applyOp deg) t) = true from H emptyTree rfl
  induction ops with
  | nil => intro t h; simpa using h
  | cons op rest ih =>
    intro t h
    exact ih (applyOp deg t op) (applyOp_sorted deg t h op)

theorem findTF_sorted (deg k : Nat) : ∀ (fuel : Nat) (t : MTree),
    vlistsSorted t = true → chainLE (findTF deg k fuel t) = true := by
  intro fuel
  induction fuel with
  | zero =>
    intro t hs
    cases t with
    | leaf es =>
      have hall : ∀ e ∈ es, chainLE e.2 = true := by
        rw [← List.all_eq_true]
        simpa [vlistsSorted] using hs
      simp only [findTF]
      rcases hf : es.find? (fun e => decide (e.1 = k)) with _ | e
      · rw [hf]; rfl
      · have hmem := List.mem_of_find?_eq_some hf
        rw [hf]
        exact hall e hmem
    | node ks cs => rfl
  | succ fuel ih =>
    intro t hs
    cases t with
    | leaf es =>
      have hall : ∀ e ∈ es, chainLE e.2 = true := by
        rw [← List.all_eq_true]
        simpa [vlistsSorted] using hs
      simp only [findTF]
      rcases hf : es.find? (fun e => decide (e.1 = k)) with _ | e
      · rw [hf]; rfl
      · have hmem := List.mem_of_find?_eq_some hf
        rw [hf]
        exact hall e hmem
    | node ks cs =>
      simp only [findTF]
      refine ih (childAt cs (pickIdx k ks)) ?_
      exact vlistsSorted_childAt
        ((vlistsSortedL_iff cs).mp (by simpa [vlistsSorted] using hs))

/-- **C8.** Multimap semantics (spec §3, §8; header lines 87–88):
inserting the same `(key, value)` pair twice into any reachable tree state
yields two copies of the value in that key's Value List (multiset, not
set, semantics), every Value List of every reachable tree state is kept
sorted by the value ordering `operator<`, and therefore `find` returns its
values in sorted order. -/
theorem multimap_semantics (deg k v : Nat) (h6 : 6 ≤ deg) (ops : List Op) :
    countKV k v (insertT deg k v (insertT deg k v (runOps deg ops))) =
      countKV k v (runOps deg ops) + 2 ∧
    vlistsSorted (runOps deg ops) = true ∧
    (∀ k', chainLE (findT deg k' (runOps deg ops)) = true) := by
  have hI := runOps_INV deg h6 ops
  have hOK : nodeOK deg (runOps deg ops) = true := by
    simp only [INV, Bool.and_eq_true] at hI
    exact balRoot_nodeOK hI.1
  have hI' : INV deg (insertT deg k v (runOps deg ops)) = true :=
    insertT_INV deg k v h6 _ hI
  have hOK' : nodeOK deg (insertT deg k v (runOps deg ops)) = true := by
    simp only [INV, Bool.and_eq_true] at hI'
    exact balRoot_nodeOK hI'.1
  refine ⟨?_, runOps_sorted deg ops, ?_⟩
  · rw [insertT_count deg k v _ hOK', insertT_count deg k v _ hOK]
  · intro k'
    exact findTF_sorted deg k' (depth (runOps deg ops)) _ (runOps_sorted deg ops)

/-- Witness for C8 at `degree = 6`: double insert of `(5, 7)` after one
prior insert. -/
theorem multimap_semantics_witness :
    6 ≤ 6 ∧
    (countKV 5 7 (insertT 6 5 7 (insertT 6 5 7 (runOps 6 [.ins 5 9]))) =
      countKV 5 7 (runOps 6 [.ins 5 9]) + 2 ∧
    vlistsSorted (runOps 6 [.ins 5 9]) = true ∧
    (∀ k', chainLE (findT 6 k' (runOps 6 [.ins 5 9])) = true)) :=
  ⟨by decide, multimap_semantics 6 5 7 (by decide) [.ins 5 9]⟩

/-! ## C3/C6/C7: the node-level rebalancing primitives

`split`, `merge`, `move_from_left` and `move_from_right` are member
functions acting on one parent node and its child nodes read from the node
file (header lines 69–72). They are modelled here on a node record
mirroring `MapNode` (header lines 74–86), whose slot arrays are represented
by their populated prefixes; pointers are natural-number file handles. -/

structure LNode where
  is_leaf_ : Bool
  high_key_ : Nat
  parent_ptr_ : Option Nat
  link_ptr_ : Option Nat
  key_ptr_ : List Nat
  mnode_ptr_ : List Nat
  vlist_ptr_ : List (List Nat)
deriving Repr, DecidableEq

/-- `node_size_`: the number of populated key slots. -/
def LNode.size (n : LNode) : Nat := n.key_ptr_.length

theorem insAt_getD_self {α : Type} (d : α) :
    ∀ (pos : Nat) (a : α) (l : List α), pos ≤ l.length →
      (insAt pos a l).getD pos d = a := by
  intro pos
  induction pos with
  | zero => intro a l _; rfl
  | succ n ih =>
    intro a l hp
    cases l with
    | nil => simp at hp
    | cons x xs =>
      have : insAt (n + 1) a (x :: xs) = x :: insAt n a xs := rfl
      rw [this]
      simpa using ih a xs (by simpa using hp)

theorem getD_eraseIdx {α : Type} (d : α) : ∀ (l : List α) (i j : Nat),
    (l.eraseIdx i).getD j d = if j < i then l.getD j d else l.getD (j + 1) d := by
  intro l
  induction l with
  | nil =>
    intro i j
    simp only [List.eraseIdx_nil]
    split <;> rfl
  | cons c r ih =>
    intro i j
    cases i with
    | zero => simp
    | succ i' =>
      cases j with
      | zero => simp
      | succ j' =>
        have : ((c :: r).eraseIdx (i' + 1)).getD (j' + 1) d =
            (r.eraseIdx i').getD j' d := by
          simp [List.eraseIdx_cons_succ]
        rw [this, ih i' j']
        by_cases hj : j' < i'
        · rw [if_pos hj, if_pos (by omega)]
          simp
        · rw [if_neg hj, if_neg (by omega)]
          simp

/-- Modelled from the spec: `split(parent_ptr, pos)` (header line 72,
spec §4.5). The left node keeps the first `⌈(degree-1)/2⌉` keys/children,
the right takes the rest (for an internal child the median moves up, for a
leaf it stays — with its Value List — as the right node's first key); the
median key is inserted into the parent's keys at `pos` with the new right
node's handle after it; the left node's `high_key_` is set to the median
and its `link_ptr_` to the new right node — before the parent is updated
(spec §4.5 ordering). -/
def splitL (deg : Nat) (parent child : LNode) (pos rightId : Nat) :
    LNode × LNode × LNode :=
  let L := (deg - 1 + 1) / 2
  let median := child.key_ptr_.getD L 0
  let left : LNode :=
    { child with
      key_ptr_ := child.key_ptr_.take L
      mnode_ptr_ := child.mnode_ptr_.take (L + 1)
      vlist_ptr_ := child.vlist_ptr_.take L
      high_key_ := median
      link_ptr_ := some rightId }
  let right : LNode :=
    { is_leaf_ := child.is_leaf_
      high_key_ := child.high_key_
      parent_ptr_ := child.parent_ptr_
      link_ptr_ := child.link_ptr_
      key_ptr_ :=
        if child.is_leaf_ then child.key_ptr_.drop L else child.key_ptr_.drop (L + 1)
      mnode_ptr_ := child.mnode_ptr_.drop (L + 1)
      vlist_ptr_ := child.vlist_ptr_.drop L }
  let parent' : LNode :=
    { parent with
      key_ptr_ := insAt pos median parent.key_ptr_
      mnode_ptr_ := insAt (pos + 1) rightId parent.mnode_ptr_ }
  (parent', left, right)

/-- **C3.** `split` contract (header line 72, spec §4.5): splitting the
overflowing child at `parent.children[pos]` (size exceeding `degree - 1`)
keeps the first `⌈(degree-1)/2⌉` keys/children in the left node, hands the
rest to the right node (key counts adding back up to the child's size, the
median moving up for an internal child), inserts the median key as the new
separator at position `pos` of the parent, and sets the left node's
`high_key_` to the median and its sibling link to the new right node. -/
theorem split_contract (deg : Nat) (parent child : LNode) (pos rightId : Nat)
    (h6 : 6 ≤ deg) (hov : deg - 1 < child.size)
    (hpos : pos ≤ parent.key_ptr_.length)
    (hpw : parent.mnode_ptr_.length = parent.key_ptr_.length + 1) :
    (splitL deg parent child pos rightId).2.1.key_ptr_ =
        child.key_ptr_.take ((deg - 1 + 1) / 2) ∧
    (splitL deg parent child pos rightId).2.1.size = (deg - 1 + 1) / 2 ∧
    (splitL deg parent child pos rightId).2.1.mnode_ptr_ =
        child.mnode_ptr_.take ((deg - 1 + 1) / 2 + 1) ∧
    (splitL deg parent child pos rightId).2.1.vlist_ptr_ =
        child.vlist_ptr_.take ((deg - 1 + 1) / 2) ∧
    (child.is_leaf_ = true →
      (splitL deg parent child pos rightId).2.2.key_ptr_ =
          child.key_ptr_.drop ((deg - 1 + 1) / 2) ∧
      (splitL deg parent child pos rightId).2.1.size +
        (splitL deg parent child pos rightId).2.2.size = child.size) ∧
    (child.is_leaf_ = false →
      (splitL deg parent child pos rightId).2.2.key_ptr_ =
          child.key_ptr_.drop ((deg - 1 + 1) / 2 + 1) ∧
      (splitL deg parent child pos rightId).2.1.size +
        (splitL deg parent child pos rightId).2.2.size + 1 = child.size) ∧
    (splitL deg parent child pos rightId).2.2.mnode_ptr_ =
        child.mnode_ptr_.drop ((deg - 1 + 1) / 2 + 1) ∧
    (splitL deg parent child pos rightId).1.key_ptr_.getD pos 0 =
        child.key_ptr_.getD ((deg - 1 + 1) / 2) 0 ∧
    (splitL deg parent child pos rightId).1.size = parent.size + 1 ∧
    (splitL deg parent child pos rightId).1.mnode_ptr_.getD (pos + 1) 0 = rightId ∧
    (splitL deg parent child pos rightId).2.1.high_key_ =
        child.key_ptr_.getD ((deg - 1 + 1) / 2) 0 ∧
    (splitL deg parent child pos rightId).2.1.link_ptr_ = some rightId := by
  have hL : (deg - 1 + 1) / 2 + 1 ≤ child.key_ptr_.length := by
    have : child.size = child.key_ptr_.length := rfl
    rw [this] at hov
    omega
  refine ⟨rfl, ?_, rfl, rfl, ?_, ?_, rfl, ?_, ?_, ?_, rfl, rfl⟩
  · show (child.key_ptr_.take ((deg - 1 + 1) / 2)).length = (deg - 1 + 1) / 2
    rw [List.length_take]
    omega
  · intro hleaf
    constructor
    · show (if child.is_leaf_ then child.key_ptr_.drop ((deg - 1 + 1) / 2)
        else child.key_ptr_.drop ((deg - 1 + 1) / 2 + 1)) = _
      rw [if_pos hleaf]
    · show (child.key_ptr_.take _).length +
        (if child.is_leaf_ then child.key_ptr_.drop ((deg - 1 + 1) / 2)
          else child.key_ptr_.drop ((deg - 1 + 1) / 2 + 1)).length = _
      rw [if_pos hleaf, List.length_take, List.length_drop]
      show _ = child.key_ptr_.length
      omega
  · intro hleaf
    constructor
    · show (if child.is_leaf_ then child.key_ptr_.drop ((deg - 1 + 1) / 2)
        else child.key_ptr_.drop ((deg - 1 + 1) / 2 + 1)) = _
      rw [if_neg (by simp [hleaf])]
    · show (child.key_ptr_.take _).length +
        (if child.is_leaf_ then child.key_ptr_.drop ((deg - 1 + 1) / 2)
          else child.key_ptr_.drop ((deg - 1 + 1) / 2 + 1)).length + 1 = _
      rw [if_neg (by simp [hleaf]), List.length_take, List.length_drop]
      show _ = child.key_ptr_.length
      omega
  · exact insAt_getD_self 0 pos _ parent.key_ptr_ hpos
  · show (insAt pos _ parent.key_ptr_).length = parent.key_ptr_.length + 1
    exact length_insAt _ pos parent.key_ptr_
  · exact insAt_getD_self 0 (pos + 1) rightId parent.mnode_ptr_ (by omega)

/-- Modelled from the spec: `merge(parent_ptr, left_pos)` (header line 69,
spec §4.6): combine `parent.children[left_pos]` and
`parent.children[left_pos + 1]` into one node — the key sequence is the
concatenation of the two originals ("[1, 2], [5] --> [1, 2, 5]") — remove
the separator key at `left_pos` from the parent, drop the right child's
handle from the parent's child slots, and relink the sibling chain. -/
def mergeL (parent left right : LNode) (left_pos : Nat) : LNode × LNode :=
  let parent' : LNode :=
    { parent with
      key_ptr_ := parent.key_ptr_.eraseIdx left_pos
      mnode_ptr_ := parent.mnode_ptr_.eraseIdx (left_pos + 1) }
  let merged : LNode :=
    { left with
      key_ptr_ := left.key_ptr_ ++ right.key_ptr_
      mnode_ptr_ := left.mnode_ptr_ ++ right.mnode_ptr_
      vlist_ptr_ := left.vlist_ptr_ ++ right.vlist_ptr_
      high_key_ := right.high_key_
      link_ptr_ := right.link_ptr_ }
  (parent', merged)

/-- **C6.** `merge` contract (header line 69, spec §4.6): for children of
combined size at most `degree - 1`, the merged node's key sequence is the
concatenation of the two originals — so its size is the sum of the two
original sizes and stays within bounds — the separator key at `left_pos`
disappears from the parent (later keys shifting down by one), the right
child's handle disappears from the parent's child slots, and the merged
node takes over the right node's sibling link. -/
theorem merge_contract (deg : Nat) (parent left right : LNode) (left_pos : Nat)
    (hcomb : left.size + right.size ≤ deg - 1)
    (hpos : left_pos < parent.key_ptr_.length)
    (hpw : parent.mnode_ptr_.length = parent.key_ptr_.length + 1) :
    (mergeL parent left right left_pos).2.key_ptr_ =
        left.key_ptr_ ++ right.key_ptr_ ∧
    (mergeL parent left right left_pos).2.size = left.size + right.size ∧
    (mergeL parent left right left_pos).2.size ≤ deg - 1 ∧
    (mergeL parent left right left_pos).1.size + 1 = parent.size ∧
    (∀ j, (mergeL parent left right left_pos).1.key_ptr_.getD j 0 =
      if j < left_pos then parent.key_ptr_.getD j 0
      else parent.key_ptr_.getD (j + 1) 0) ∧
    (∀ j, (mergeL parent left right left_pos).1.mnode_ptr_.getD j 0 =
      if j < left_pos + 1 then parent.mnode_ptr_.getD j 0
      else parent.mnode_ptr_.getD (j + 1) 0) ∧
    (mergeL parent left right left_pos).1.mnode_ptr_.length + 1 =
        parent.mnode_ptr_.length ∧
    (mergeL parent left right left_pos).2.link_ptr_ = right.link_ptr_ := by
  refine ⟨rfl, ?_, ?_, ?_, ?_, ?_, ?_, rfl⟩
  · show (left.key_ptr_ ++ right.key_ptr_).length = _
    rw [List.length_append]
    rfl
  · show (left.key_ptr_ ++ right.key_ptr_).length ≤ deg - 1
    rw [List.length_append]
    exact hcomb
  · show (parent.key_ptr_.eraseIdx left_pos).length + 1 = parent.key_ptr_.length
    rw [List.length_eraseIdx]
    rw [if_pos hpos]
    omega
  · intro j
    exact getD_eraseIdx 0 parent.key_ptr_ left_pos j
  · intro j
    exact getD_eraseIdx 0 parent.mnode_ptr_ (left_pos + 1) j
  · show (parent.mnode_ptr_.eraseIdx (left_pos + 1)).length + 1 =
      parent.mnode_ptr_.length
    rw [List.length_eraseIdx]
    rw [if_pos (by omega)]
    omega

/-- Modelled from the spec: `move_from_left(parent_ptr, left_pos)`
(header line 70, spec §4.7): the last key of the left child — with its
Value List for a leaf, or routed through the parent together with its last
child pointer for an internal node — moves to the front of the right
child, and the shared separator at `left_pos` is updated to the new
boundary. Header example: `[1, 2, 3, 4], ->[5] --> [1, 2, 3], ->[4, 5]`. -/
def move_from_leftL (parent left right : LNode) (left_pos : Nat) :
    LNode × LNode × LNode :=
  if left.is_leaf_ then
    match left.key_ptr_.getLast?, left.vlist_ptr_.getLast? with
    | some m, some vl =>
      ({ parent with key_ptr_ := parent.key_ptr_.set left_pos m },
       { left with
          key_ptr_ := left.key_ptr_.dropLast
          vlist_ptr_ := left.vlist_ptr_.dropLast },
       { right with
          key_ptr_ := m :: right.key_ptr_
          vlist_ptr_ := vl :: right.vlist_ptr_ })
    | _, _ => (parent, left, right)
  else
    match left.key_ptr_.getLast?, left.mnode_ptr_.getLast? with
    | some m, some mc =>
      ({ parent with key_ptr_ := parent.key_ptr_.set left_pos m },
       { left with
          key_ptr_ := left.key_ptr_.dropLast
          mnode_ptr_ := left.mnode_ptr_.dropLast },
       { right with
          key_ptr_ := parent.key_ptr_.getD left_pos 0 :: right.key_ptr_
          mnode_ptr_ := mc :: right.mnode_ptr_ })
    | _, _ => (parent, left, right)

/-- Modelled from the spec: `move_from_right(parent_ptr, left_pos)`
(header line 71, spec §4.8): the first key of the right child — with its
Value List for a leaf, or routed through the parent together with its
first child pointer for an internal node — moves to the end of the left
child, and the shared separator at `left_pos` is updated to the new
boundary. Header example: `->[1], [3, 4, 5, 6] --> ->[1, 3], [4, 5, 6]`. -/
def move_from_rightL (parent left right : LNode) (left_pos : Nat) :
    LNode × LNode × LNode :=
  if left.is_leaf_ then
    match right.key_ptr_, right.vlist_ptr_ with
    | rk :: rk' :: rks', vl :: vls' =>
      ({ parent with key_ptr_ := parent.key_ptr_.set left_pos rk' },
       { left with
          key_ptr_ := left.key_ptr_ ++ [rk]
          vlist_ptr_ := left.vlist_ptr_ ++ [vl] },
       { right with key_ptr_ := rk' :: rks', vlist_ptr_ := vls' })
    | _, _ => (parent, left, right)
  else
    match right.key_ptr_, right.mnode_ptr_ with
    | rk :: rks', rc :: rcs' =>
      ({ parent with key_ptr_ := parent.key_ptr_.set left_pos rk },
       { left with
          key_ptr_ := left.key_ptr_ ++ [parent.key_ptr_.getD left_pos 0]
          mnode_ptr_ := left.mnode_ptr_ ++ [rc] },
       { right with key_ptr_ := rks', mnode_ptr_ := rcs' })
    | _, _ => (parent, left, right)

theorem getD_getLast? {α : Type} (d : α) : ∀ {l : List α} {a : α},
    l.getLast? = some a → l.getD (l.length - 1) d = a := by
  intro l
  induction l with
  | nil => intro a h; simp at h
  | cons x xs ih =>
    intro a h
    cases xs with
    | nil =>
      simp only [List.getLast?_singleton, Option.some.injEq] at h
      simpa using h
    | cons y ys =>
      rw [List.getLast?_cons_cons] at h
      have := ih h
      have hlen : (x :: y :: ys).length - 1 = ((y :: ys).length - 1) + 1 := by
        simp
      rw [hlen]
      simpa using this

theorem getD_concat_self {α : Type} (d : α) : ∀ (l : List α) (a : α),
    (l ++ [a]).getD l.length d = a := by
  intro l
  induction l with
  | nil => intro a; rfl
  | cons x xs ih => intro a; simpa using ih a

/-- **C7.** `move_from_left` / `move_from_right` contract (header lines
70–71, spec §4.7–4.8): each transfers exactly one key — and, for internal
nodes, the associated subtree pointer — from the richer sibling through
the parent, updating the shared separator key at `left_pos` to the new
boundary; afterwards the donor's size has dropped by exactly one and the
receiver's size has grown by exactly one, the parent's size unchanged;
and in the erase rebalancing these borrows are preferred over `merge`
whenever a sibling is rich enough. -/
theorem move_contract (deg : Nat) (parent left right : LNode) (left_pos : Nat)
    (hpos : left_pos < parent.key_ptr_.length) :
    (left.is_leaf_ = true → left.vlist_ptr_.length = left.key_ptr_.length →
      1 ≤ left.size →
      (move_from_leftL parent left right left_pos).2.1.size + 1 = left.size ∧
      (move_from_leftL parent left right left_pos).2.2.size = right.size + 1 ∧
      (move_from_leftL parent left right left_pos).1.key_ptr_.getD left_pos 0 =
        left.key_ptr_.getD (left.size - 1) 0 ∧
      (move_from_leftL parent left right left_pos).2.2.key_ptr_.getD 0 0 =
        left.key_ptr_.getD (left.size - 1) 0 ∧
      (move_from_leftL parent left right left_pos).1.size = parent.size) ∧
    (left.is_leaf_ = false → left.mnode_ptr_.length = left.key_ptr_.length + 1 →
      1 ≤ left.size →
      (move_from_leftL parent left right left_pos).2.1.size + 1 = left.size ∧
      (move_from_leftL parent left right left_pos).2.2.size = right.size + 1 ∧
      (move_from_leftL parent left right left_pos).1.key_ptr_.getD left_pos 0 =
        left.key_ptr_.getD (left.size - 1) 0 ∧
      (move_from_leftL parent left right left_pos).2.2.mnode_ptr_.getD 0 0 =
        left.mnode_ptr_.getD (left.mnode_ptr_.length - 1) 0 ∧
      (move_from_leftL parent left right left_pos).2.2.key_ptr_.getD 0 0 =
        parent.key_ptr_.getD left_pos 0 ∧
      (move_from_leftL parent left right left_pos).1.size = parent.size) ∧
    (left.is_leaf_ = true → right.vlist_ptr_.length = right.key_ptr_.length →
      2 ≤ right.size →
      (move_from_rightL parent left right left_pos).2.2.size + 1 = right.size ∧
      (move_from_rightL parent left right left_pos).2.1.size = left.size + 1 ∧
      (move_from_rightL parent left right left_pos).1.key_ptr_.getD left_pos 0 =
        right.key_ptr_.getD 1 0 ∧
      (move_from_rightL parent left right left_pos).2.1.key_ptr_.getD left.size 0 =
        right.key_ptr_.getD 0 0 ∧
      (move_from_rightL parent left right left_pos).1.size = parent.size) ∧
    (left.is_leaf_ = false → right.mnode_ptr_.length = right.key_ptr_.length + 1 →
      1 ≤ right.size →
      (move_from_rightL parent left right left_pos).2.2.size + 1 = right.size ∧
      (move_from_rightL parent left right left_pos).2.1.size = left.size + 1 ∧
      (move_from_rightL parent left right left_pos).1.key_ptr_.getD left_pos 0 =
        right.key_ptr_.getD 0 0 ∧
      (move_from_rightL parent left right left_pos).2.1.mnode_ptr_.getD
          left.mnode_ptr_.length 0 = right.mnode_ptr_.getD 0 0 ∧
      (move_from_rightL parent left right left_pos).2.1.key_ptr_.getD left.size 0 =
        parent.key_ptr_.getD left_pos 0 ∧
      (move_from_rightL parent left right left_pos).1.size = parent.size) ∧
    (∀ (ks : List Nat) (cs : List MTree) (i : Nat),
      1 ≤ i → minSize deg < topSize (childAt cs (i - 1)) →
      repair deg ks cs i = moveFromLeftG ks cs (i - 1)) ∧
    (∀ (ks : List Nat) (cs : List MTree) (i : Nat),
      ¬ (1 ≤ i ∧ minSize deg < topSize (childAt cs (i - 1))) →
      i + 1 < cs.length → minSize deg < topSize (childAt cs (i + 1)) →
      repair deg ks cs i = moveFromRightG ks cs i) := by
  refine ⟨?_, ?_, ?_, ?_, ?_, ?_⟩
  · intro hleaf hvl hsz
    have hne : left.key_ptr_ ≠ [] := by
      intro h0
      have : left.size = 0 := by simp [LNode.size, h0]
      omega
    obtain ⟨m, hm⟩ := getLast?_some_of_ne_nil hne
    obtain ⟨vl, hvl'⟩ := getLast?_some_of_ne_nil (l := left.vlist_ptr_) (by
      intro h0
      rw [h0] at hvl
      simp [LNode.size] at hvl
      exact hne (List.length_eq_zero.mp hvl.symm))
    have heq : move_from_leftL parent left right left_pos =
        ({ parent with key_ptr_ := parent.key_ptr_.set left_pos m },
         { left with
            key_ptr_ := left.key_ptr_.dropLast
            vlist_ptr_ := left.vlist_ptr_.dropLast },
         { right with
            key_ptr_ := m :: right.key_ptr_
            vlist_ptr_ := vl :: right.vlist_ptr_ }) := by
      simp only [move_from_leftL, if_pos hleaf, hm, hvl']
    rw [heq]
    refine ⟨?_, ?_, ?_, ?_, ?_⟩
    · show left.key_ptr_.dropLast.length + 1 = left.key_ptr_.length
      rw [List.length_dropLast]
      have : 1 ≤ left.key_ptr_.length := hsz
      omega
    · show (m :: right.key_ptr_).length = right.key_ptr_.length + 1
      simp
    · show (parent.key_ptr_.set left_pos m).getD left_pos 0 = _
      rw [getD_set_self _ _ hpos]
      exact (getD_getLast? 0 hm).symm
    · show (m :: right.key_ptr_).getD 0 0 = _
      exact (getD_getLast? 0 hm).symm
    · show (parent.key_ptr_.set left_pos m).length = parent.key_ptr_.length
      simp
  · intro hleaf hmn hsz
    have hne : left.key_ptr_ ≠ [] := by
      intro h0
      have : left.size = 0 := by simp [LNode.size, h0]
      omega
    obtain ⟨m, hm⟩ := getLast?_some_of_ne_nil hne
    obtain ⟨mc, hmc⟩ := getLast?_some_of_ne_nil (l := left.mnode_ptr_) (by
      intro h0
      rw [h0] at hmn
      simp at hmn)
    have heq : move_from_leftL parent left right left_pos =
        ({ parent with key_ptr_ := parent.key_ptr_.set left_pos m },
         { left with
            key_ptr_ := left.key_ptr_.dropLast
            mnode_ptr_ := left.mnode_ptr_.dropLast },
         { right with
            key_ptr_ := parent.key_ptr_.getD left_pos 0 :: right.key_ptr_
            mnode_ptr_ := mc :: right.mnode_ptr_ }) := by
      simp only [move_from_leftL, hleaf, Bool.false_eq_true, if_false, hm, hmc]
    rw [heq]
    refine ⟨?_, ?_, ?_, ?_, ?_, ?_⟩
    · show left.key_ptr_.dropLast.length + 1 = left.key_ptr_.length
      rw [List.length_dropLast]
      have : 1 ≤ left.key_ptr_.length := hsz
      omega
    · show (parent.key_ptr_.getD left_pos 0 :: right.key_ptr_).length =
        right.key_ptr_.length + 1
      simp
    · show (parent.key_ptr_.set left_pos m).getD left_pos 0 = _
      rw [getD_set_self _ _ hpos]
      exact (getD_getLast? 0 hm).symm
    · show (mc :: right.mnode_ptr_).getD 0 0 = _
      exact (getD_getLast? 0 hmc).symm
    · rfl
    · show (parent.key_ptr_.set left_pos m).length = parent.key_ptr_.length
      simp
  · intro hleaf hvl hsz
    obtain ⟨rk, rks1, hrk⟩ := exists_cons_of_length_pos
      (l := right.key_ptr_) (by
        have : right.size = right.key_ptr_.length := rfl
        omega)
    obtain ⟨rk', rks', hrk'⟩ := exists_cons_of_length_pos (l := rks1) (by
      have : right.size = right.key_ptr_.length := rfl
      rw [hrk] at this
      simp at this
      omega)
    obtain ⟨vl, vls', hvl'⟩ := exists_cons_of_length_pos
      (l := right.vlist_ptr_) (by
        rw [hvl]
        have : right.size = right.key_ptr_.length := rfl
        omega)
    subst hrk'
    have heq : move_from_rightL parent left right left_pos =
        ({ parent with key_ptr_ := parent.key_ptr_.set left_pos rk' },
         { left with
            key_ptr_ := left.key_ptr_ ++ [rk]
            vlist_ptr_ := left.vlist_ptr_ ++ [vl] },
         { right with key_ptr_ := rk' :: rks', vlist_ptr_ := vls' }) := by
      simp only [move_from_rightL, if_pos hleaf, hrk, hvl']
    rw [heq]
    refine ⟨?_, ?_, ?_, ?_, ?_⟩
    · show (rk' :: rks').length + 1 = right.key_ptr_.length
      rw [hrk]
      simp
    · show (left.key_ptr_ ++ [rk]).length = left.key_ptr_.length + 1
      simp
    · show (parent.key_ptr_.set left_pos rk').getD left_pos 0 = _
      rw [getD_set_self _ _ hpos, hrk]
      rfl
    · show (left.key_ptr_ ++ [rk]).getD left.key_ptr_.length 0 = _
      rw [getD_concat_self, hrk]
      rfl
    · show (parent.key_ptr_.set left_pos rk').length = parent.key_ptr_.length
      simp
  · intro hleaf hmn hsz
    obtain ⟨rk, rks', hrk⟩ := exists_cons_of_length_pos
      (l := right.key_ptr_) (by
        have : right.size = right.key_ptr_.length := rfl
        omega)
    obtain ⟨rc, rcs', hrc⟩ := exists_cons_of_length_pos
      (l := right.mnode_ptr_) (by rw [hmn]; omega)
    have heq : move_from_rightL parent left right left_pos =
        ({ parent with key_ptr_ := parent.key_ptr_.set left_pos rk },
         { left with
            key_ptr_ := left.key_ptr_ ++ [parent.key_ptr_.getD left_pos 0]
            mnode_ptr_ := left.mnode_ptr_ ++ [rc] },
         { right with key_ptr_ := rks', mnode_ptr_ := rcs' }) := by
      simp only [move_from_rightL, hleaf, Bool.false_eq_true, if_false, hrk, hrc]
    rw [heq]
    refine ⟨?_, ?_, ?_, ?_, ?_, ?_⟩
    · show rks'.length + 1 = right.key_ptr_.length
      rw [hrk]
      simp
    · show (left.key_ptr_ ++ [parent.key_ptr_.getD left_pos 0]).length =
        left.key_ptr_.length + 1
      simp
    · show (parent.key_ptr_.set left_pos rk).getD left_pos 0 = _
      rw [getD_set_self _ _ hpos, hrk]
      rfl
    · show (left.mnode_ptr_ ++ [rc]).getD left.mnode_ptr_.length 0 = _
      rw [getD_concat_self, hrc]
      rfl
    · show (left.key_ptr_ ++ [parent.key_ptr_.getD left_pos 0]).getD
        left.key_ptr_.length 0 = _
      rw [getD_concat_self]
    · show (parent.key_ptr_.set left_pos rk).length = parent.key_ptr_.length
      simp
  · intro ks cs i h1 h2
    rw [repair, if_pos ⟨h1, h2⟩]
  · intro ks cs i hneg h3 h4
    rw [repair, if_neg hneg, if_pos ⟨h3, h4⟩]

/-- Concrete overflowing leaf child (6 keys at `degree = 6`). -/
def wChild : LNode :=
  ⟨true, 60, none, none, [1, 2, 3, 4, 5, 6], [],
   [[10], [20], [30], [40], [50], [60]]⟩

/-- Concrete parent with one key and two children. -/
def wParent : LNode := ⟨false, 0, none, none, [100], [7, 8], []⟩

/-- Witness for C3 at `degree = 6`, splitting `wChild` under `wParent` at
position `0` with fresh handle `42`. -/
theorem split_contract_witness :
    (6 ≤ 6 ∧ 6 - 1 < wChild.size ∧ 0 ≤ wParent.key_ptr_.length ∧
      wParent.mnode_ptr_.length = wParent.key_ptr_.length + 1) ∧
    ((splitL 6 wParent wChild 0 42).2.1.key_ptr_ =
        wChild.key_ptr_.take ((6 - 1 + 1) / 2) ∧
    (splitL 6 wParent wChild 0 42).2.1.size = (6 - 1 + 1) / 2 ∧
    (splitL 6 wParent wChild 0 42).2.1.mnode_ptr_ =
        wChild.mnode_ptr_.take ((6 - 1 + 1) / 2 + 1) ∧
    (splitL 6 wParent wChild 0 42).2.1.vlist_ptr_ =
        wChild.vlist_ptr_.take ((6 - 1 + 1) / 2) ∧
    (wChild.is_leaf_ = true →
      (splitL 6 wParent wChild 0 42).2.2.key_ptr_ =
          wChild.key_ptr_.drop ((6 - 1 + 1) / 2) ∧
      (splitL 6 wParent wChild 0 42).2.1.size +
        (splitL 6 wParent wChild 0 42).2.2.size = wChild.size) ∧
    (wChild.is_leaf_ = false →
      (splitL 6 wParent wChild 0 42).2.2.key_ptr_ =
          wChild.key_ptr_.drop ((6 - 1 + 1) / 2 + 1) ∧
      (splitL 6 wParent wChild 0 42).2.1.size +
        (splitL 6 wParent wChild 0 42).2.2.size + 1 = wChild.size) ∧
    (splitL 6 wParent wChild 0 42).2.2.mnode_ptr_ =
        wChild.mnode_ptr_.drop ((6 - 1 + 1) / 2 + 1) ∧
    (splitL 6 wParent wChild 0 42).1.key_ptr_.getD 0 0 =
        wChild.key_ptr_.getD ((6 - 1 + 1) / 2) 0 ∧
    (splitL 6 wParent wChild 0 42).1.size = wParent.size + 1 ∧
    (splitL 6 wParent wChild 0 42).1.mnode_ptr_.getD (0 + 1) 0 = 42 ∧
    (splitL 6 wParent wChild 0 42).2.1.high_key_ =
        wChild.key_ptr_.getD ((6 - 1 + 1) / 2) 0 ∧
    (splitL 6 wParent wChild 0 42).2.1.link_ptr_ = some 42) :=
  ⟨⟨by decide, by decide, by decide, by decide⟩,
   split_contract 6 wParent wChild 0 42 (by decide) (by decide) (by decide)
     (by decide)⟩

/-- Concrete minimal-size leaves and their parent for the merge witness. -/
def wLeftM : LNode := ⟨true, 2, none, some 9, [1, 2], [], [[5], [6]]⟩

def wRightM : LNode := ⟨true, 5, none, none, [5], [], [[7]]⟩

def wParentM : LNode := ⟨false, 0, none, none, [10, 20], [1, 2, 3], []⟩

/-- Witness for C6 at `degree = 6`: merging `[1,2]` and `[5]` under a
two-key parent at `left_pos = 0`. -/
theorem merge_contract_witness :
    (wLeftM.size + wRightM.size ≤ 6 - 1 ∧ 0 < wParentM.key_ptr_.length ∧
      wParentM.mnode_ptr_.length = wParentM.key_ptr_.length + 1) ∧
    ((mergeL wParentM wLeftM wRightM 0).2.key_ptr_ =
        wLeftM.key_ptr_ ++ wRightM.key_ptr_ ∧
    (mergeL wParentM wLeftM wRightM 0).2.size = wLeftM.size + wRightM.size ∧
    (mergeL wParentM wLeftM wRightM 0).2.size ≤ 6 - 1 ∧
    (mergeL wParentM wLeftM wRightM 0).1.size + 1 = wParentM.size ∧
    (∀ j, (mergeL wParentM wLeftM wRightM 0).1.key_ptr_.getD j 0 =
      if j < 0 then wParentM.key_ptr_.getD j 0
      else wParentM.key_ptr_.getD (j + 1) 0) ∧
    (∀ j, (mergeL wParentM wLeftM wRightM 0).1.mnode_ptr_.getD j 0 =
      if j < 0 + 1 then wParentM.mnode_ptr_.getD j 0
      else wParentM.mnode_ptr_.getD (j + 1) 0) ∧
    (mergeL wParentM wLeftM wRightM 0).1.mnode_ptr_.length + 1 =
        wParentM.mnode_ptr_.length ∧
    (mergeL wParentM wLeftM wRightM 0).2.link_ptr_ = wRightM.link_ptr_) :=
  ⟨⟨by decide, by decide, by decide⟩,
   merge_contract 6 wParentM wLeftM wRightM 0 (by decide) (by decide) (by decide)⟩

/-- Concrete rich left leaf and one-short right leaf for the move witness
(header example `[1, 2, 3, 4], ->[5] --> [1, 2, 3], ->[4, 5]`). -/
def wLeftV : LNode := ⟨true, 4, none, some 9, [1, 2, 3, 4], [],
  [[11], [12], [13], [14]]⟩

def wRightV : LNode := ⟨true, 6, none, none, [5, 6], [], [[15], [16]]⟩

def wParentV : LNode := ⟨false, 0, none, none, [5], [1, 2], []⟩

/-- Witness for C7 at `degree = 6` on the header's example configuration. -/
theorem move_contract_witness :
    (0 < wParentV.key_ptr_.length) ∧
    ((wLeftV.is_leaf_ = true → wLeftV.vlist_ptr_.length = wLeftV.key_ptr_.length →
      1 ≤ wLeftV.size →
      (move_from_leftL wParentV wLeftV wRightV 0).2.1.size + 1 = wLeftV.size ∧
      (move_from_leftL wParentV wLeftV wRightV 0).2.2.size = wRightV.size + 1 ∧
      (move_from_leftL wParentV wLeftV wRightV 0).1.key_ptr_.getD 0 0 =
        wLeftV.key_ptr_.getD (wLeftV.size - 1) 0 ∧
      (move_from_leftL wParentV wLeftV wRightV 0).2.2.key_ptr_.getD 0 0 =
        wLeftV.key_ptr_.getD (wLeftV.size - 1) 0 ∧
      (move_from_leftL wParentV wLeftV wRightV 0).1.size = wParentV.size) ∧
    (wLeftV.is_leaf_ = false → wLeftV.mnode_ptr_.length = wLeftV.key_ptr_.length + 1 →
      1 ≤ wLeftV.size →
      (move_from_leftL wParentV wLeftV wRightV 0).2.1.size + 1 = wLeftV.size ∧
      (move_from_leftL wParentV wLeftV wRightV 0).2.2.size = wRightV.size + 1 ∧
      (move_from_leftL wParentV wLeftV wRightV 0).1.key_ptr_.getD 0 0 =
        wLeftV.key_ptr_.getD (wLeftV.size - 1) 0 ∧
      (move_from_leftL wParentV wLeftV wRightV 0).2.2.mnode_ptr_.getD 0 0 =
        wLeftV.mnode_ptr_.getD (wLeftV.mnode_ptr_.length - 1) 0 ∧
      (move_from_leftL wParentV wLeftV wRightV 0).2.2.key_ptr_.getD 0 0 =
        wParentV.key_ptr_.getD 0 0 ∧
      (move_from_leftL wParentV wLeftV wRightV 0).1.size = wParentV.size) ∧
    (wLeftV.is_leaf_ = true → wRightV.vlist_ptr_.length = wRightV.key_ptr_.length →
      2 ≤ wRightV.size →
      (move_from_rightL wParentV wLeftV wRightV 0).2.2.size + 1 = wRightV.size ∧
      (move_from_rightL wParentV wLeftV wRightV 0).2.1.size = wLeftV.size + 1 ∧
      (move_from_rightL wParentV wLeftV wRightV 0).1.key_ptr_.getD 0 0 =
        wRightV.key_ptr_.getD 1 0 ∧
      (move_from_rightL wParentV wLeftV wRightV 0).2.1.key_ptr_.getD wLeftV.size 0 =
        wRightV.key_ptr_.getD 0 0 ∧
      (move_from_rightL wParentV wLeftV wRightV 0).1.size = wParentV.size) ∧
    (wLeftV.is_leaf_ = false → wRightV.mnode_ptr_.length = wRightV.key_ptr_.length + 1 →
      1 ≤ wRightV.size →
      (move_from_rightL wParentV wLeftV wRightV 0).2.2.size + 1 = wRightV.size ∧
      (move_from_rightL wParentV wLeftV wRightV 0).2.1.size = wLeftV.size + 1 ∧
      (move_from_rightL wParentV wLeftV wRightV 0).1.key_ptr_.getD 0 0 =
        wRightV.key_ptr_.getD 0 0 ∧
      (move_from_rightL wParentV wLeftV wRightV 0).2.1.mnode_ptr_.getD
          wLeftV.mnode_ptr_.length 0 = wRightV.mnode_ptr_.getD 0 0 ∧
      (move_from_rightL wParentV wLeftV wRightV 0).2.1.key_ptr_.getD wLeftV.size 0 =
        wParentV.key_ptr_.getD 0 0 ∧
      (move_from_rightL wParentV wLeftV wRightV 0).1.size = wParentV.size) ∧
    (∀ (ks : List Nat) (cs : List MTree) (i : Nat),
      1 ≤ i → minSize 6 < topSize (childAt cs (i - 1)) →
      repair 6 ks cs i = moveFromLeftG ks cs (i - 1)) ∧
    (∀ (ks : List Nat) (cs : List MTree) (i : Nat),
      ¬ (1 ≤ i ∧ minSize 6 < topSize (childAt cs (i - 1))) →
      i + 1 < cs.length → minSize 6 < topSize (childAt cs (i + 1)) →
      repair 6 ks cs i = moveFromRightG ks cs i)) :=
  ⟨by decide, move_contract 6 wParentV wLeftV wRightV 0 (by decide)⟩

/-! ## C10: the `MapNode` slot layout (header lines 74–86)

`MapNode` declares, for every node whether leaf or internal, the three
parallel slot arrays `KeyPtr key_ptr_[degree + 1]`,
`MnodePtr mnode_ptr_[degree + 1]` and `VlistPtr vlist_ptr_[degree + 1]` —
there is no union or variant (the header's todo at line 85 records that as
a possible future space optimisation). Arrays are modelled as lists whose
length is the declared array extent; `fpointer` values as naturals. -/

structure MapNode where
  is_leaf_ : Bool
  node_size_ : Nat
  high_key_ : Nat
  parent_ptr_ : Nat
  link_ptr_ : Nat
  key_ptr_ : List Nat
  mnode_ptr_ : List Nat
  vlist_ptr_ : List Nat
deriving Repr, DecidableEq

/-- The declared extents of the three slot arrays: `degree + 1` each,
simultaneously, for every node. -/
def MapNode.layoutWF (deg : Nat) (n : MapNode) : Prop :=
  n.key_ptr_.length = deg + 1 ∧ n.mnode_ptr_.length = deg + 1 ∧
    n.vlist_ptr_.length = deg + 1

instance (deg : Nat) (n : MapNode) : Decidable (n.layoutWF deg) := by
  unfold MapNode.layoutWF
  infer_instance

/-- `MapNode() = default` — all fields value-initialised, the three slot
arrays at their declared extent `degree + 1`. -/
def MapNode.mk0 (deg : Nat) : MapNode :=
  ⟨false, 0, 0, 0, 0, List.replicate (deg + 1) 0, List.replicate (deg + 1) 0,
   List.replicate (deg + 1) 0⟩

/-- Writing one key slot. -/
def MapNode.writeKey (n : MapNode) (i p : Nat) : MapNode :=
  { n with key_ptr_ := n.key_ptr_.set i p }

/-- Writing one child-pointer slot. -/
def MapNode.writeMnode (n : MapNode) (i p : Nat) : MapNode :=
  { n with mnode_ptr_ := n.mnode_ptr_.set i p }

/-- Writing one Value List head slot. -/
def MapNode.writeVlist (n : MapNode) (i p : Nat) : MapNode :=
  { n with vlist_ptr_ := n.vlist_ptr_.set i p }

/-- **C10.** `MapNode` layout contract (header lines 74–86): every node —
leaf or internal alike — reserves `degree + 1` slots simultaneously for
keys, child pointers and value-list heads (no union), slot writes keep
those extents, a freshly constructed node already has them, every slot
access at an index `0 ≤ i ≤ degree` is in bounds for all three arrays at
once, and a node can transiently hold `degree` populated key slots — one
more than the steady-state maximum `degree - 1` — with every populated
slot in bounds. -/
theorem mapnode_layout (deg : Nat) (n : MapNode) (hw : n.layoutWF deg) :
    (∀ i ≤ deg, (n.key_ptr_.get? i).isSome = true ∧
      (n.mnode_ptr_.get? i).isSome = true ∧
      (n.vlist_ptr_.get? i).isSome = true) ∧
    (∀ i p, (n.writeKey i p).layoutWF deg ∧ (n.writeMnode i p).layoutWF deg ∧
      (n.writeVlist i p).layoutWF deg) ∧
    (MapNode.mk0 deg).layoutWF deg ∧
    (∃ m : MapNode, m.layoutWF deg ∧ m.node_size_ = deg ∧
      ∀ i < m.node_size_, (m.key_ptr_.get? i).isSome = true) := by
  obtain ⟨h1, h2, h3⟩ := hw
  refine ⟨?_, ?_, ?_, ?_⟩
  · intro i hi
    refine ⟨?_, ?_, ?_⟩
    · rw [List.get?_eq_getElem?, List.getElem?_eq_getElem (by omega)]; rfl
    · rw [List.get?_eq_getElem?, List.getElem?_eq_getElem (by omega)]; rfl
    · rw [List.get?_eq_getElem?, List.getElem?_eq_getElem (by omega)]; rfl
  · intro i p
    refine ⟨⟨?_, h2, h3⟩, ⟨h1, ?_, h3⟩, ⟨h1, h2, ?_⟩⟩
    · simpa [MapNode.writeKey] using h1
    · simpa [MapNode.writeMnode] using h2
    · simpa [MapNode.writeVlist] using h3
  · exact ⟨by simp [MapNode.mk0], by simp [MapNode.mk0], by simp [MapNode.mk0]⟩
  · refine ⟨{ MapNode.mk0 deg with node_size_ := deg }, ?_, rfl, ?_⟩
    · exact ⟨by simp [MapNode.mk0], by simp [MapNode.mk0], by simp [MapNode.mk0]⟩
    · intro i hi
      have hi' : i < deg := hi
      rw [List.get?_eq_getElem?, List.getElem?_eq_getElem (by
        show i < (List.replicate (deg + 1) 0).length
        simp
        omega)]
      rfl

/-- Witness for C10 at `degree = 6` on a fresh node. -/
theorem mapnode_layout_witness :
    (MapNode.mk0 6).layoutWF 6 ∧
    ((∀ i ≤ 6, ((MapNode.mk0 6).key_ptr_.get? i).isSome = true ∧
      ((MapNode.mk0 6).mnode_ptr_.get? i).isSome = true ∧
      ((MapNode.mk0 6).vlist_ptr_.get? i).isSome = true) ∧
    (∀ i p, ((MapNode.mk0 6).writeKey i p).layoutWF 6 ∧
      ((MapNode.mk0 6).writeMnode i p).layoutWF 6 ∧
      ((MapNode.mk0 6).writeVlist i p).layoutWF 6) ∧
    (MapNode.mk0 6).layoutWF 6 ∧
    (∃ m : MapNode, m.layoutWF 6 ∧ m.node_size_ = 6 ∧
      ∀ i < m.node_size_, (m.key_ptr_.get? i).isSome = true)) :=
  ⟨by decide, mapnode_layout 6 (MapNode.mk0 6) (by decide)⟩

/-! ## C9: persistence (`open` / `close`, header lines 54–59)

`close` persists every node of the tree into the node file and records the
root's handle; `open` reloads the tree from the file. The Typed File Store
itself is an external collaborator (spec §1, §6) modelled as the written
record sequence: a handle is the record's index. -/

/-- One persisted node record: a leaf's `(key, Value List)` slots, or an
internal node's keys and child handles. -/
structure NodeRec where
  is_leaf : Bool
  entries : List Entry
  keys : List Nat
  childIds : List Nat
deriving Repr, DecidableEq

/-- The persisted state: the node file plus the root handle. -/
structure Store where
  recs : List NodeRec
  rootId : Nat
deriving Repr, DecidableEq

mutual

/-- Modelled from the spec: `close` (header lines 58–59) — persist the
subtree into the node file (children first, post-order), returning the
extended file and the subtree root's handle. -/
def emit : MTree → List NodeRec → List NodeRec × Nat
  | .leaf es, acc => (acc ++ [⟨true, es, [], []⟩], acc.length)
  | .node ks cs, acc =>
    let q := emitList cs acc
    (q.1 ++ [⟨false, [], ks, q.2⟩], q.1.length)

def emitList : List MTree → List NodeRec → List NodeRec × List Nat
  | [], acc => (acc, [])
  | c :: r, acc =>
    let p := emit c acc
    let q := emitList r p.1
    (q.1, p.2 :: q.2)

end

/-- `close`: persist the whole tree and the root handle. -/
def closeT (t : MTree) : Store :=
  ⟨(emit t []).1, (emit t []).2⟩

/-- Decode a list of child handles with a given node decoder. -/
def decodeList (f : Nat → Option MTree) : List Nat → Option (List MTree)
  | [] => some []
  | id :: ids =>
    match f id with
    | none => none
    | some t => (decodeList f ids).map (t :: ·)

/-- Modelled from the spec: reloading one node (and its subtree) from the
node file; the fuel bounds the recursion depth. -/
def decodeN : Nat → List NodeRec → Nat → Option MTree
  | 0, _, _ => none
  | fuel + 1, rs, id =>
    match rs.get? id with
    | none => none
    | some nr =>
      if nr.is_leaf then some (.leaf nr.entries)
      else (decodeList (decodeN fuel rs) nr.childIds).map (.node nr.keys)

/-- Modelled from the spec: `open` (header lines 54–57) — reload the tree
from the persisted node file, the empty tree for a fresh file. -/
def openT (s : Store) : MTree :=
  (decodeN (s.recs.length + 1) s.recs s.rootId).getD emptyTree

/-- Mutual structural induction for trees and child lists. -/
theorem mtree_mutual_ind {P : MTree → Prop} {Q : List MTree → Prop}
    (hleaf : ∀ es, P (.leaf es))
    (hnode : ∀ ks cs, Q cs → P (.node ks cs))
    (hnil : Q [])
    (hcons : ∀ c r, P c → Q r → Q (c :: r)) :
    (∀ t, P t) ∧ (∀ cs, Q cs) := by
  have key : ∀ n : Nat, (∀ t : MTree, sizeOf t ≤ n → P t) ∧
      (∀ cs : List MTree, sizeOf cs ≤ n → Q cs) := by
    intro n
    induction n using Nat.strong_induction_on with
    | _ n IH =>
      constructor
      · intro t ht
        cases t with
        | leaf es => exact hleaf es
        | node ks cs =>
          simp only [MTree.node.sizeOf_spec] at ht
          have hsk := one_le_sizeOf_list ks
          cases n with
          | zero => omega
          | succ n' =>
            exact hnode ks cs ((IH n' (by omega)).2 cs (by omega))
      · intro cs hcs
        cases cs with
        | nil => exact hnil
        | cons c r =>
          simp only [List.cons.sizeOf_spec] at hcs
          cases n with
          | zero =>
            have := one_le_sizeOf_list r
            omega
          | succ n' =>
            exact hcons c r ((IH n' (by omega)).1 c (by omega))
              ((IH n' (by omega)).2 r (by omega))
  exact ⟨fun t => (key (sizeOf t)).1 t le_rfl, fun cs => (key (sizeOf cs)).2 cs le_rfl⟩

/-- `emit` only appends to the node file. -/
theorem emit_extends :
    (∀ t : MTree, ∀ acc, ∃ Δ, (emit t acc).1 = acc ++ Δ) ∧
    (∀ cs : List MTree, ∀ acc, ∃ Δ, (emitList cs acc).1 = acc ++ Δ) := by
  refine mtree_mutual_ind ?_ ?_ ?_ ?_
  · intro es acc
    exact ⟨[⟨true, es, [], []⟩], rfl⟩
  · intro ks cs hQ acc
    obtain ⟨Δ, hΔ⟩ := hQ acc
    refine ⟨Δ ++ [⟨false, [], ks, (emitList cs acc).2⟩], ?_⟩
    show (emitList cs acc).1 ++ _ = _
    rw [hΔ, List.append_assoc]
  · intro acc
    exact ⟨[], by simp [emitList]⟩
  · intro c r hP hQ acc
    obtain ⟨Δ1, h1⟩ := hP acc
    obtain ⟨Δ2, h2⟩ := hQ (emit c acc).1
    refine ⟨Δ1 ++ Δ2, ?_⟩
    show (emitList r (emit c acc).1).1 = _
    rw [h2, h1, List.append_assoc]

theorem depthL_le_of {B : Nat} : ∀ cs : List MTree,
    (∀ c ∈ cs, depth c ≤ B) → depthL cs ≤ B := by
  intro cs
  induction cs with
  | nil => intro _; simp [depthL]
  | cons c r ih =>
    intro h
    have h1 : depth c ≤ B := h c (by simp)
    have h2 : depthL r ≤ B := ih (fun x hx => h x (List.mem_cons_of_mem _ hx))
    simp only [depthL]
    omega

/-- The node file grows by at least one record per level of the subtree. -/
theorem emit_length :
    (∀ t : MTree, ∀ acc, acc.length < (emit t acc).1.length ∧
      acc.length + depth t ≤ (emit t acc).1.length) ∧
    (∀ cs : List MTree, ∀ acc, acc.length ≤ (emitList cs acc).1.length ∧
      ∀ c ∈ cs, acc.length + depth c ≤ (emitList cs acc).1.length) := by
  refine mtree_mutual_ind ?_ ?_ ?_ ?_
  · intro es acc
    constructor
    · show acc.length < (acc ++ [(⟨true, es, [], []⟩ : NodeRec)]).length
      simp
    · show acc.length + 0 ≤ (acc ++ [(⟨true, es, [], []⟩ : NodeRec)]).length
      simp
  · intro ks cs hQ acc
    obtain ⟨hq1, hq2⟩ := hQ acc
    have hd : depthL cs ≤ (emitList cs acc).1.length - acc.length := by
      refine depthL_le_of cs (fun c hc => ?_)
      have := hq2 c hc
      omega
    constructor
    · show acc.length < ((emitList cs acc).1 ++ _).length
      rw [List.length_append]
      simp only [List.length_singleton]
      omega
    · show acc.length + (depthL cs + 1) ≤ ((emitList cs acc).1 ++ _).length
      rw [List.length_append]
      simp only [List.length_singleton]
      omega
  · intro acc
    exact ⟨le_refl _, fun c hc => absurd hc (List.not_mem_nil c)⟩
  · intro c r hP hQ acc
    obtain ⟨hp1, hp2⟩ := hP acc
    obtain ⟨hq1, hq2⟩ := hQ (emit c acc).1
    constructor
    · show acc.length ≤ (emitList r (emit c acc).1).1.length
      omega
    · intro x hx
      rcases List.mem_cons.mp hx with h | h
      · have hxc : depth x = depth c := by rw [h]
        show acc.length + depth x ≤ (emitList r (emit c acc).1).1.length
        omega
      · have := hq2 x h
        show acc.length + depth x ≤ (emitList r (emit c acc).1).1.length
        omega

theorem depth_le_depthL : ∀ cs : List MTree, ∀ c ∈ cs, depth c ≤ depthL cs := by
  intro cs
  induction cs with
  | nil => intro c hc; exact absurd hc (List.not_mem_nil c)
  | cons x r ih =>
    intro c hc
    rcases List.mem_cons.mp hc with h | h
    · simp only [depthL]
      have : depth c = depth x := by rw [h]
      omega
    · have := ih c h
      simp only [depthL]
      omega

/-- Reloading an emitted subtree from any extension of the node file
recovers the subtree, given fuel above its depth. -/
theorem emit_decode :
    (∀ t : MTree, ∀ fuel acc ext, depth t < fuel →
      decodeN fuel ((emit t acc).1 ++ ext) (emit t acc).2 = some t) ∧
    (∀ cs : List MTree, ∀ fuel acc ext, (∀ c ∈ cs, depth c < fuel) →
      decodeList (decodeN fuel ((emitList cs acc).1 ++ ext)) (emitList cs acc).2
        = some cs) := by
  refine mtree_mutual_ind ?_ ?_ ?_ ?_
  · intro es fuel acc ext hf
    cases fuel with
    | zero => omega
    | succ f =>
      show decodeN (f + 1) ((acc ++ [(⟨true, es, [], []⟩ : NodeRec)]) ++ ext)
        acc.length = some (.leaf es)
      rw [List.append_assoc]
      have hget : ((acc ++ ([(⟨true, es, [], []⟩ : NodeRec)] ++ ext)).get? acc.length)
          = some ⟨true, es, [], []⟩ := by
        rw [List.get?_eq_getElem?, List.getElem?_append_right (le_refl acc.length)]
        simp
      simp only [decodeN]
      rw [hget]
      rfl
  · intro ks cs hQ fuel acc ext hf
    cases fuel with
    | zero =>
      simp only [depth] at hf
      omega
    | succ f =>
      show decodeN (f + 1)
        (((emitList cs acc).1 ++ [(⟨false, [], ks, (emitList cs acc).2⟩ : NodeRec)]) ++ ext)
        (emitList cs acc).1.length = some (.node ks cs)
      rw [List.append_assoc]
      have hget : (((emitList cs acc).1 ++
          ([(⟨false, [], ks, (emitList cs acc).2⟩ : NodeRec)] ++ ext)).get?
            (emitList cs acc).1.length)
          = some ⟨false, [], ks, (emitList cs acc).2⟩ := by
        rw [List.get?_eq_getElem?,
          List.getElem?_append_right (le_refl (emitList cs acc).1.length)]
        simp
      have hkids : decodeList
          (decodeN f ((emitList cs acc).1 ++
            ([(⟨false, [], ks, (emitList cs acc).2⟩ : NodeRec)] ++ ext)))
          (emitList cs acc).2 = some cs := by
        refine hQ f acc _ (fun c hc => ?_)
        have h1 := depth_le_depthL cs c hc
        simp only [depth] at hf
        omega
      simp only [decodeN]
      rw [hget]
      show Option.map (MTree.node ks)
        (decodeList (decodeN f ((emitList cs acc).1 ++
          ([(⟨false, [], ks, (emitList cs acc).2⟩ : NodeRec)] ++ ext)))
          ((emitList cs acc).2)) = some (.node ks cs)
      rw [hkids]
      rfl
  · intro fuel acc ext _
    show decodeList _ ([] : List Nat) = some []
    rfl
  · intro c r hP hQ fuel acc ext hf
    obtain ⟨Δ2, h2⟩ := emit_extends.2 r (emit c acc).1
    show decodeList (decodeN fuel ((emitList r (emit c acc).1).1 ++ ext))
      ((emit c acc).2 :: (emitList r (emit c acc).1).2) = some (c :: r)
    have hhead : decodeN fuel ((emitList r (emit c acc).1).1 ++ ext) (emit c acc).2
        = some c := by
      rw [h2, List.append_assoc]
      exact hP fuel acc (Δ2 ++ ext) (hf c (by simp))
    have htail : decodeList (decodeN fuel ((emitList r (emit c acc).1).1 ++ ext))
        (emitList r (emit c acc).1).2 = some r :=
      hQ fuel (emit c acc).1 ext (fun x hx => hf x (List.mem_cons_of_mem _ hx))
    simp [decodeList, hhead, htail]

/-- Round trip: `open` after `close` reconstructs exactly the tree that was
persisted. -/
theorem openT_closeT (t : MTree) : openT (closeT t) = t := by
  have hlen := emit_length.1 t []
  simp only [List.length_nil] at hlen
  have hdec := emit_decode.1 t ((emit t []).1.length + 1) [] [] (by omega)
  rw [List.append_nil] at hdec
  simp only [openT, closeT, hdec, Option.getD_some]

/-- **C9.** For every sequence of insert operations followed by `close` and
then `open` on the same files, the in-memory tree is reconstructed exactly,
so `find(key)` returns the same (sorted) value sequence — hence the same
multiset of values — for every key as before closing. -/
theorem persistence_roundtrip (deg : Nat) (ins : List (Nat × Nat)) (k : Nat) :
    openT (closeT (runOps deg (ins.map (fun p => Op.ins p.1 p.2))))
        = runOps deg (ins.map (fun p => Op.ins p.1 p.2)) ∧
    findT deg k (openT (closeT (runOps deg (ins.map (fun p => Op.ins p.1 p.2)))))
        = findT deg k (runOps deg (ins.map (fun p => Op.ins p.1 p.2))) := by
  constructor
  · exact openT_closeT _
  · rw [openT_closeT]

end BookstoreBLink
